import Mathlib

/-!
# Black-Scholes pricing engine: a shallow embedding

The C++ sources `BlackScholes.h` / `BlackScholes.cpp` compute the closed-form
Black-Scholes price and Greeks on `double`s.  The embedding below keeps the
control flow and the special values of `double` (`+inf`, `-inf`, `NaN`).  A finite
`double` is a number of an ordered field `α`, and every arithmetic operation and every
`<cmath>` call returns the rounding `Rounding.rnd` of its exact result, which may be an
infinity (overflow) or zero (underflow).  Signed zeros are not distinguished.

The definitions are written over `α`, its rounding, and the functions the engine takes from
`<cmath>` (`std::exp`, `std::log`, `std::sqrt`, `std::erf`), a parameter `m : CMath α`; they
are computable wherever `α`, the rounding and `m` are.  Two arithmetics are considered:

* `std : CMath ℝ`, over the reals with the rounding that changes nothing: the engine in exact
  arithmetic, where nothing overflows, underflows or rounds.  It is the arithmetic of the
  formulas of the specification.
* `ieee : CMath F64`, over the reals with `round64`, the rounding of IEEE 754 binary64 to the
  nearest `double`, ties to even, with gradual underflow and overflow to an infinity; the
  `<cmath>` functions are taken correctly rounded.  It is the arithmetic of the compiled
  engine; it is used where overflow, underflow or rounding decide what the engine returns.
  What is proved in it uses of the `<cmath>` functions their special values, their sign,
  their range, their overflow and underflow, and for `erf` near zero an enclosure much wider
  than a unit in the last place: it does not depend on the last bit a library returns.
-/

namespace bs

/-! ## The value set of `double` -/

/-- The values a `double` can take: a finite number, one of the two infinities, or NaN. -/
inductive Dbl (α : Type) where
  | fin (x : α)
  | pinf
  | ninf
  | nan

/-- The rounding of an arithmetic: `rnd x` is the `double` an operation returns when its exact
result is the number `x`. -/
class Rounding (α : Type) where
  rnd : α → Dbl α

/-- An arithmetic that does not round: every number is a `double` and `rnd` changes
nothing. -/
class ExactRounding (α : Type) [Rounding α] : Prop where
  rnd_fin : ∀ x : α, Rounding.rnd x = Dbl.fin x

variable {α : Type} [LinearOrderedField α]

namespace Dbl

/-- IEEE `a < b`: false as soon as one side is NaN. -/
def lt : Dbl α → Dbl α → Bool
  | fin a, fin b => decide (a < b)
  | fin _, pinf => true
  | ninf, fin _ => true
  | ninf, pinf => true
  | _, _ => false

/-- IEEE `a <= b`: false as soon as one side is NaN. -/
def le : Dbl α → Dbl α → Bool
  | fin a, fin b => decide (a ≤ b)
  | fin _, pinf => true
  | ninf, fin _ => true
  | ninf, pinf => true
  | pinf, pinf => true
  | ninf, ninf => true
  | _, _ => false

/-- IEEE `a == b`: NaN is equal to nothing, itself included. -/
def eq : Dbl α → Dbl α → Bool
  | fin a, fin b => decide (a = b)
  | pinf, pinf => true
  | ninf, ninf => true
  | _, _ => false

instance : LT (Dbl α) := ⟨fun a b => lt a b = true⟩
instance : LE (Dbl α) := ⟨fun a b => le a b = true⟩
instance (a b : Dbl α) : Decidable (a < b) := inferInstanceAs (Decidable (lt a b = true))
instance (a b : Dbl α) : Decidable (a ≤ b) := inferInstanceAs (Decidable (le a b = true))

/-- Unary minus: exact, the `double`s are symmetric. -/
def neg : Dbl α → Dbl α
  | fin a => fin (-a)
  | pinf => ninf
  | ninf => pinf
  | nan => nan

/-- IEEE addition: the rounded sum of finite values; `inf + (-inf)` is NaN. -/
def add [Rounding α] : Dbl α → Dbl α → Dbl α
  | fin a, fin b => Rounding.rnd (a + b)
  | nan, _ => nan
  | _, nan => nan
  | pinf, ninf => nan
  | ninf, pinf => nan
  | pinf, _ => pinf
  | ninf, _ => ninf
  | fin _, pinf => pinf
  | fin _, ninf => ninf

/-- An infinity carrying the sign of the number `x`; NaN when `x` is zero (`inf * 0`, `0 / 0`). -/
def signedInf (x : α) : Dbl α :=
  if 0 < x then pinf else if x < 0 then ninf else nan

/-- IEEE multiplication: the rounded product of finite values; `inf * 0` is NaN. -/
def mul [Rounding α] : Dbl α → Dbl α → Dbl α
  | fin a, fin b => Rounding.rnd (a * b)
  | nan, _ => nan
  | _, nan => nan
  | pinf, pinf => pinf
  | ninf, ninf => pinf
  | pinf, ninf => ninf
  | ninf, pinf => ninf
  | pinf, fin b => signedInf b
  | fin a, pinf => signedInf a
  | ninf, fin b => signedInf (-b)
  | fin a, ninf => signedInf (-a)

/-- IEEE division: the rounded quotient of finite values; `0/0` and `inf/inf` are NaN, a
nonzero finite number over zero is an infinity of the numerator's sign, finite over infinite
is zero. -/
def div [Rounding α] : Dbl α → Dbl α → Dbl α
  | fin a, fin b => if b = 0 then signedInf a else Rounding.rnd (a / b)
  | nan, _ => nan
  | _, nan => nan
  | fin _, pinf => fin 0
  | fin _, ninf => fin 0
  | pinf, fin b => if b < 0 then ninf else pinf
  | ninf, fin b => if b < 0 then pinf else ninf
  | pinf, pinf => nan
  | pinf, ninf => nan
  | ninf, pinf => nan
  | ninf, ninf => nan

instance : Neg (Dbl α) := ⟨neg⟩
instance [Rounding α] : Add (Dbl α) := ⟨add⟩
instance [Rounding α] : Sub (Dbl α) := ⟨fun a b => add a (neg b)⟩
instance [Rounding α] : Mul (Dbl α) := ⟨mul⟩
instance [Rounding α] : Div (Dbl α) := ⟨div⟩

/-- The predicate `std::isfinite`. -/
def isfinite : Dbl α → Bool
  | fin _ => true
  | _ => false

/-- The function `std::max(a, b)`, which is `(a < b) ? b : a`. -/
def max (a b : Dbl α) : Dbl α := if a < b then b else a

end Dbl

/-! ## The functions of `<cmath>` -/

/-- The mathematical functions behind the `<cmath>` calls of the engine, on finite arguments,
and the number pi that enters through the constant `INV_SQRT_2PI`.  A call returns the
rounding of the value of the function. -/
structure CMath (α : Type) where
  exp : α → α
  log : α → α
  sqrt : α → α
  erf : α → α
  pi : α

namespace Dbl

section Cmath

variable [Rounding α]

/-- The function `std::exp`: `exp(-inf) = 0`, `exp(+inf) = +inf`. -/
def exp (m : CMath α) : Dbl α → Dbl α
  | fin a => Rounding.rnd (m.exp a)
  | pinf => pinf
  | ninf => fin 0
  | nan => nan

/-- The function `std::log`: `log(0) = -inf`, NaN on negative arguments. -/
def log (m : CMath α) : Dbl α → Dbl α
  | fin a => if 0 < a then Rounding.rnd (m.log a) else if a = 0 then ninf else nan
  | pinf => pinf
  | ninf => nan
  | nan => nan

/-- The function `std::sqrt`: NaN on negative arguments. -/
def sqrt (m : CMath α) : Dbl α → Dbl α
  | fin a => if 0 ≤ a then Rounding.rnd (m.sqrt a) else nan
  | pinf => pinf
  | ninf => nan
  | nan => nan

/-- The function `std::erf`: `erf(+inf) = 1`, `erf(-inf) = -1`. -/
def erf (m : CMath α) : Dbl α → Dbl α
  | fin a => Rounding.rnd (m.erf a)
  | pinf => fin 1
  | ninf => fin (-1)
  | nan => nan

end Cmath

end Dbl

/-- The error function on the reals, by its Maclaurin series
`erf x = 2/sqrt(pi) * sum_n (-1)^n x^(2n+1) / (n! (2n+1))`; it is
`2/sqrt(pi) * ∫_0^x exp(-t^2) dt` (`erf_eq_integral`). -/
noncomputable def erf (x : ℝ) : ℝ :=
  2 / Real.sqrt Real.pi *
    tsum (fun n : ℕ => (-1) ^ n * x ^ (2 * n + 1) / ((n.factorial : ℝ) * (2 * n + 1)))

open Dbl (fin pinf ninf nan)

/-- Exact arithmetic on the reals: every real number is a value and nothing is rounded. -/
instance : Rounding ℝ := ⟨fin⟩

instance : ExactRounding ℝ := ⟨fun _ => rfl⟩

/-- The `<cmath>` of the reals: the exponential, the natural logarithm, the square root and
the error function.  With the exact arithmetic of `ℝ` this is the engine without rounding,
overflow or underflow. -/
noncomputable def std : CMath ℝ where
  exp := Real.exp
  log := Real.log
  sqrt := Real.sqrt
  erf := erf
  pi := Real.pi

/-! ## Binary64 arithmetic -/

section Binary64

variable [FloorRing α]

/-- Rounding of a number to the nearest integer, ties to the even one. -/
def rne (q : α) : ℤ :=
  if q - ⌊q⌋ < 1 / 2 then ⌊q⌋
  else if 1 / 2 < q - ⌊q⌋ then ⌊q⌋ + 1
  else if ⌊q⌋ % 2 = 0 then ⌊q⌋ else ⌊q⌋ + 1

/-- The exponent of `x` in binary64: the `e` with `2 ^ e <= |x| < 2 ^ (e + 1)`, and `-1022`,
the exponent of the subnormal numbers, when that is smaller. -/
def expo (x : α) : ℤ := Max.max (Int.log 2 |x|) (-1022)

/-- The unit in the last place of `x` in binary64: a significand has 53 bits. -/
def ulp (x : α) : α := 2 ^ (expo x - 52)

/-- IEEE 754 binary64 rounding, to nearest and ties to even: `x` goes to the nearest multiple
of its unit in the last place, and to an infinity when that is `2 ^ 1024` or beyond. -/
def round64 (x : α) : Dbl α :=
  if (2 : α) ^ (1024 : ℤ) ≤ |(rne (x / ulp x) : α) * ulp x| then
    (if 0 < x then pinf else ninf)
  else fin ((rne (x / ulp x) : α) * ulp x)

end Binary64

/-- The finite values of binary64 arithmetic.  They are real numbers: an input is any real
number, the `double`s being the numbers that `round64` leaves unchanged, and every operation
rounds its result with `round64`. -/
def F64 : Type := ℝ

noncomputable instance : LinearOrderedField F64 := inferInstanceAs (LinearOrderedField ℝ)

noncomputable instance : FloorRing F64 := inferInstanceAs (FloorRing ℝ)

noncomputable instance : Rounding F64 := ⟨round64⟩

/-- The `<cmath>` of binary64: the real functions, each call rounded by `round64`. -/
noncomputable def ieee : CMath F64 where
  exp := Real.exp
  log := Real.log
  sqrt := Real.sqrt
  erf := erf
  pi := Real.pi

/-! ## The program -/

/-- The enumeration `enum class OptionType { Call, Put }`. -/
inductive OptionType where
  | Call
  | Put
  deriving DecidableEq

/-- What a function of the engine throws: `std::invalid_argument` with its message. -/
inductive Exn where
  | invalid_argument (what : String)

/-- The number behind the constant `INV_SQRT_2`.  The source writes the constant as the
literal `0.70710678118654752440` and annotates it `1 / sqrt(2)`.  A literal denotes the
`double` nearest to it, and the engine holds `Rounding.rnd (INV_SQRT_2 m)`: in binary64 that
is the `double` of the literal (`INV_SQRT_literals_ieee`), in exact arithmetic it is the
number `1 / sqrt(2)`, with which the literal agrees to its last digit
(`INV_SQRT_literals`). -/
def INV_SQRT_2 (m : CMath α) : α := 1 / m.sqrt 2

/-- The number behind the constant `INV_SQRT_2PI`.  The source writes the constant as the
literal `0.3989422804014327` and annotates it `1/sqrt(2*pi)`.  The engine holds
`Rounding.rnd (INV_SQRT_2PI m)`: in binary64 that is the `double` of the literal
(`INV_SQRT_literals_ieee`), in exact arithmetic the number `1 / sqrt(2 pi)`. -/
def INV_SQRT_2PI (m : CMath α) : α := 1 / m.sqrt (2 * m.pi)

section Program

variable [Rounding α]

/-- `BlackScholes::norm_cdf`: `0.5 * (1.0 + std::erf(x * INV_SQRT_2))`. -/
def norm_cdf (m : CMath α) (x : Dbl α) : Dbl α :=
  fin 0.5 * (fin 1 + Dbl.erf m (x * Rounding.rnd (INV_SQRT_2 m)))

/-- `BlackScholes::norm_pdf`: `INV_SQRT_2PI * std::exp(-0.5 * x * x)`. -/
def norm_pdf (m : CMath α) (x : Dbl α) : Dbl α :=
  Rounding.rnd (INV_SQRT_2PI m) * Dbl.exp m (fin (-0.5) * x * x)

/-- `check_inputs`: the four guards, in the order of the source, each written as the
negation of the comparison that must hold. -/
def check_inputs (S K sigma T : Dbl α) : Except Exn Unit :=
  if ¬ (S > fin 0) then throw (Exn.invalid_argument "Spot price S must be > 0")
  else if ¬ (K > fin 0) then throw (Exn.invalid_argument "Strike price K must be > 0")
  else if ¬ (sigma ≥ fin 0) then throw (Exn.invalid_argument "Volatility sigma must be >= 0")
  else if ¬ (T ≥ fin 0) then
    throw (Exn.invalid_argument "Time to maturity T must be >= 0")
  else pure ()

/-- `d1d2`: the pair written to the two output references. -/
def d1d2 (m : CMath α) (S K r sigma T : Dbl α) : Dbl α × Dbl α :=
  if T ≤ fin 0 ∨ Dbl.eq sigma (fin 0) = true then
    (pinf, pinf)
  else
    let sqrtT := Dbl.sqrt m T
    let d1 := (Dbl.log m (S / K) + (r + fin 0.5 * sigma * sigma) * T) / (sigma * sqrtT)
    let d2 := d1 - sigma * sqrtT
    (d1, d2)

/-- `BlackScholes::price`. -/
def price (m : CMath α) (type : OptionType) (S K r sigma T : Dbl α) : Except Exn (Dbl α) := do
  check_inputs S K sigma T
  if Dbl.eq T (fin 0) then
    if type = OptionType.Call then return Dbl.max (fin 0) (S - K)
    else return Dbl.max (fin 0) (K - S)
  else
    let (d1, d2) := d1d2 m S K r sigma T
    if !Dbl.isfinite d1 || !Dbl.isfinite d2 then
      if type = OptionType.Call then return Dbl.max (fin 0) (S - K * Dbl.exp m (-r * T))
      else return Dbl.max (fin 0) (K * Dbl.exp m (-r * T) - S)
    else
      let _Nd1 := norm_cdf m (if type = OptionType.Call then d1 else -d1)
      let _Nd2 := norm_cdf m (if type = OptionType.Call then d2 else -d2)
      if type = OptionType.Call then
        return S * norm_cdf m d1 - K * Dbl.exp m (-r * T) * norm_cdf m d2
      else
        return K * Dbl.exp m (-r * T) * norm_cdf m (-d2) - S * norm_cdf m (-d1)

/-- `BlackScholes::delta`. -/
def delta (m : CMath α) (type : OptionType) (S K r sigma T : Dbl α) : Except Exn (Dbl α) := do
  check_inputs S K sigma T
  if Dbl.eq T (fin 0) then
    if type = OptionType.Call then return (if S > K then fin 1 else fin 0)
    else return (if S < K then fin (-1) else fin 0)
  else
    let (d1, _d2) := d1d2 m S K r sigma T
    if type = OptionType.Call then return norm_cdf m d1
    else return norm_cdf m d1 - fin 1

/-- `BlackScholes::gamma`. -/
def gamma (m : CMath α) (S K r sigma T : Dbl α) : Except Exn (Dbl α) := do
  check_inputs S K sigma T
  if Dbl.eq T (fin 0) then return fin 0
  else
    let (d1, _d2) := d1d2 m S K r sigma T
    let sqrtT := Dbl.sqrt m T
    return norm_pdf m d1 / (S * sigma * sqrtT)

/-- `BlackScholes::vega`. -/
def vega (m : CMath α) (S K r sigma T : Dbl α) : Except Exn (Dbl α) := do
  check_inputs S K sigma T
  if Dbl.eq T (fin 0) then return fin 0
  else
    let (d1, _d2) := d1d2 m S K r sigma T
    return S * norm_pdf m d1 * Dbl.sqrt m T

/-- `BlackScholes::theta`. -/
def theta (m : CMath α) (type : OptionType) (S K r sigma T : Dbl α) : Except Exn (Dbl α) := do
  check_inputs S K sigma T
  if Dbl.eq T (fin 0) then return fin 0
  else
    let (d1, d2) := d1d2 m S K r sigma T
    let pdf_d1 := norm_pdf m d1
    let sqrtT := Dbl.sqrt m T
    let term1 := -(S * pdf_d1 * sigma) / (fin 2 * sqrtT)
    let term2_call := r * K * Dbl.exp m (-r * T) * norm_cdf m d2
    let term2_put := r * K * Dbl.exp m (-r * T) * norm_cdf m (-d2)
    if type = OptionType.Call then return term1 - term2_call
    else return term1 + term2_put

/-- `BlackScholes::rho`. -/
def rho (m : CMath α) (type : OptionType) (S K r sigma T : Dbl α) : Except Exn (Dbl α) := do
  check_inputs S K sigma T
  if Dbl.eq T (fin 0) then return fin 0
  else
    let (_d1, d2) := d1d2 m S K r sigma T
    if type = OptionType.Call then return K * T * Dbl.exp m (-r * T) * norm_cdf m d2
    else return -K * T * Dbl.exp m (-r * T) * norm_cdf m (-d2)

end Program

/-! ## The numbers computed on finite arguments

Readings of `d1d2`, `norm_cdf` and `norm_pdf` in the finite values: the numbers those
functions produce in exact arithmetic when their arguments are finite and, for `d1d2`,
`sigma > 0` and `T > 0` (lemmas `d1d2_general`, `norm_cdf_fin`, `norm_pdf_fin`). -/

/-- The number `d1d2` writes to `d1`:
`(std::log(S / K) + (r + 0.5 * sigma * sigma) * T) / (sigma * sqrtT)`. -/
def d1_val (m : CMath α) (S K r sigma T : α) : α :=
  (m.log (S / K) + (r + 0.5 * sigma * sigma) * T) / (sigma * m.sqrt T)

/-- The number `d1d2` writes to `d2`: `d1 - sigma * sqrtT`. -/
def d2_val (m : CMath α) (S K r sigma T : α) : α :=
  d1_val m S K r sigma T - sigma * m.sqrt T

/-- The number `norm_cdf` returns at the finite argument `x`. -/
def norm_cdf_val (m : CMath α) (x : α) : α := 0.5 * (1 + m.erf (x * INV_SQRT_2 m))

/-- The number `norm_pdf` returns at the finite argument `x`. -/
def norm_pdf_val (m : CMath α) (x : α) : α := INV_SQRT_2PI m * m.exp (-0.5 * x * x)

/-- The terms of the exponential series of `-(t ^ 2)`, as continuous functions of `t`. -/
noncomputable def gaussTerm (n : ℕ) : C(ℝ, ℝ) :=
  ⟨fun t => (-1) ^ n * t ^ (2 * n) / (n.factorial : ℝ), by fun_prop⟩

namespace Dbl

@[simp] theorem fin_lt_fin (a b : α) : (fin a < fin b) ↔ a < b := decide_eq_true_iff

@[simp] theorem fin_le_fin (a b : α) : (fin a ≤ fin b) ↔ a ≤ b := decide_eq_true_iff

@[simp] theorem fin_eq_fin (a b : α) : Dbl.eq (fin a) (fin b) = true ↔ a = b :=
  decide_eq_true_iff

@[simp] theorem neg_fin (a : α) : -fin a = fin (-a) := rfl

@[simp] theorem neg_pinf : -(pinf : Dbl α) = ninf := rfl

@[simp] theorem neg_ninf : -(ninf : Dbl α) = pinf := rfl

@[simp] theorem neg_nan : -(nan : Dbl α) = nan := rfl

@[simp] theorem isfinite_fin {β : Type} (a : β) : isfinite (fin a) = true := rfl

@[simp] theorem isfinite_pinf {β : Type} : isfinite (pinf : Dbl β) = false := rfl

theorem max_fin (a b : α) : Dbl.max (fin a) (fin b) = fin (Max.max a b) := by
  by_cases h : a < b
  · rw [max_eq_right h.le]
    exact if_pos ((fin_lt_fin a b).mpr h)
  · rw [max_eq_left (not_lt.mp h)]
    exact if_neg (fun h2 => h ((fin_lt_fin a b).mp h2))

end Dbl

theorem check_inputs_valid {S K sigma T : α} (hS : 0 < S) (hK : 0 < K) (hs : 0 ≤ sigma)
    (hT : 0 ≤ T) : check_inputs (fin S) (fin K) (fin sigma) (fin T) = Except.ok () := by
  simp [check_inputs, hS, hK, hs, hT]
  rfl

theorem check_inputs_invalid {S K sigma T : α} (h : S ≤ 0 ∨ K ≤ 0 ∨ sigma < 0 ∨ T < 0) :
    ∃ m, check_inputs (fin S) (fin K) (fin sigma) (fin T)
      = Except.error (Exn.invalid_argument m) := by
  unfold check_inputs
  split_ifs <;> first | exact ⟨_, rfl⟩ | skip
  exfalso
  simp only [gt_iff_lt, ge_iff_le, Dbl.fin_lt_fin, Dbl.fin_le_fin, not_not] at *
  rcases h with h | h | h | h <;> linarith

/-- A NaN spot fails the first guard: the guards are negated comparisons. -/
theorem check_inputs_nan_spot (K sigma T : Dbl α) :
    check_inputs nan K sigma T
      = Except.error (Exn.invalid_argument "Spot price S must be > 0") := by
  have h : ¬ ((nan : Dbl α) > fin 0) := fun h => Bool.noConfusion h
  simp [check_inputs, h]
  rfl

/-- A result is an `InvalidArgument` failure exactly when the inputs violate a constraint,
for any operation that fails as `check_inputs` does and returns when it passes. -/
theorem raises_iff_of_check (S K sigma T : α) {res : Except Exn (Dbl α)}
    (herr : ∀ e, check_inputs (fin S) (fin K) (fin sigma) (fin T) = Except.error e →
      res = Except.error e)
    (hok : check_inputs (fin S) (fin K) (fin sigma) (fin T) = Except.ok () →
      ∃ v, res = Except.ok v) :
    ((∃ m, res = Except.error (Exn.invalid_argument m)) ↔
        (S ≤ 0 ∨ K ≤ 0 ∨ sigma < 0 ∨ T < 0)) ∧
      (¬ (S ≤ 0 ∨ K ≤ 0 ∨ sigma < 0 ∨ T < 0) → ∃ v, res = Except.ok v) := by
  have hgood : ¬ (S ≤ 0 ∨ K ≤ 0 ∨ sigma < 0 ∨ T < 0) → ∃ v, res = Except.ok v := by
    intro hn
    simp only [not_or, not_le, not_lt] at hn
    exact hok (check_inputs_valid hn.1 hn.2.1 hn.2.2.1 hn.2.2.2)
  refine ⟨⟨?_, ?_⟩, hgood⟩
  · rintro ⟨m, hm⟩
    by_contra hn
    obtain ⟨v, hv⟩ := hgood hn
    rw [hv] at hm
    cases hm
  · intro hbad
    obtain ⟨m, hm⟩ := check_inputs_invalid hbad
    exact ⟨m, herr _ hm⟩

theorem check_inputs_message (S K sigma T : α) :
    (S ≤ 0 → check_inputs (fin S) (fin K) (fin sigma) (fin T)
      = Except.error (Exn.invalid_argument "Spot price S must be > 0")) ∧
    (0 < S → K ≤ 0 → check_inputs (fin S) (fin K) (fin sigma) (fin T)
      = Except.error (Exn.invalid_argument "Strike price K must be > 0")) ∧
    (0 < S → 0 < K → sigma < 0 → check_inputs (fin S) (fin K) (fin sigma) (fin T)
      = Except.error (Exn.invalid_argument "Volatility sigma must be >= 0")) ∧
    (0 < S → 0 < K → 0 ≤ sigma → T < 0 → check_inputs (fin S) (fin K) (fin sigma) (fin T)
      = Except.error (Exn.invalid_argument "Time to maturity T must be >= 0")) := by
  refine ⟨fun h => ?_, fun h1 h2 => ?_, fun h1 h2 h3 => ?_, fun h1 h2 h3 h4 => ?_⟩
  · simp [check_inputs, not_lt.mpr h]; rfl
  · simp [check_inputs, h1, not_lt.mpr h2]; rfl
  · simp [check_inputs, h1, h2, not_le.mpr h3]; rfl
  · simp [check_inputs, h1, h2, h3, not_le.mpr h4]; rfl

theorem norm_pdf_val_neg (m : CMath α) (x : α) : norm_pdf_val m (-x) = norm_pdf_val m x := by
  unfold norm_pdf_val
  congr 2
  ring

/-! ## Evaluation in any arithmetic -/

section AnyRounding

variable [Rounding α]

namespace Dbl

@[simp] theorem erf_pinf (m : CMath α) : Dbl.erf m pinf = fin 1 := rfl

@[simp] theorem erf_ninf (m : CMath α) : Dbl.erf m ninf = fin (-1) := rfl

theorem pinf_mul_fin (b : α) (hb : 0 < b) : pinf * fin b = pinf :=
  if_pos hb

theorem ninf_mul_fin (b : α) (hb : 0 < b) : ninf * fin b = ninf := by
  have h1 : ¬ (0 < -b) := by linarith
  have h2 : -b < 0 := by linarith
  show (if 0 < -b then pinf else if -b < 0 then ninf else nan) = ninf
  rw [if_neg h1, if_pos h2]

end Dbl

theorem d1d2_zero_vol (m : CMath α) (S K r T : Dbl α) : d1d2 m S K r (fin 0) T = (pinf, pinf) := by
  simp [d1d2]

theorem delta_call_expiry (m : CMath α) {S K sigma : α} (r : α) (hS : 0 < S) (hK : 0 < K)
    (hs : 0 ≤ sigma) :
    delta m OptionType.Call (fin S) (fin K) (fin r) (fin sigma) (fin 0)
      = Except.ok (fin (if S > K then 1 else 0)) := by
  by_cases h : K < S <;> simp [delta, check_inputs_valid hS hK hs le_rfl, h]

theorem delta_put_expiry (m : CMath α) {S K sigma : α} (r : α) (hS : 0 < S) (hK : 0 < K)
    (hs : 0 ≤ sigma) :
    delta m OptionType.Put (fin S) (fin K) (fin r) (fin sigma) (fin 0)
      = Except.ok (fin (if S < K then -1 else 0)) := by
  by_cases h : S < K <;> simp [delta, check_inputs_valid hS hK hs le_rfl, h]

theorem gamma_expiry (m : CMath α) {S K sigma : α} (r : α) (hS : 0 < S) (hK : 0 < K)
    (hs : 0 ≤ sigma) :
    gamma m (fin S) (fin K) (fin r) (fin sigma) (fin 0) = Except.ok (fin 0) := by
  simp [gamma, check_inputs_valid hS hK hs le_rfl]

theorem vega_expiry (m : CMath α) {S K sigma : α} (r : α) (hS : 0 < S) (hK : 0 < K)
    (hs : 0 ≤ sigma) :
    vega m (fin S) (fin K) (fin r) (fin sigma) (fin 0) = Except.ok (fin 0) := by
  simp [vega, check_inputs_valid hS hK hs le_rfl]

theorem theta_expiry (m : CMath α) {S K sigma : α} (type : OptionType) (r : α) (hS : 0 < S)
    (hK : 0 < K) (hs : 0 ≤ sigma) :
    theta m type (fin S) (fin K) (fin r) (fin sigma) (fin 0) = Except.ok (fin 0) := by
  simp [theta, check_inputs_valid hS hK hs le_rfl]

theorem rho_expiry (m : CMath α) {S K sigma : α} (type : OptionType) (r : α) (hS : 0 < S)
    (hK : 0 < K) (hs : 0 ≤ sigma) :
    rho m type (fin S) (fin K) (fin r) (fin sigma) (fin 0) = Except.ok (fin 0) := by
  simp [rho, check_inputs_valid hS hK hs le_rfl]

theorem price_of_check_error (m : CMath α) {S K sigma T : Dbl α} {e : Exn}
    (type : OptionType) (r : Dbl α)
    (h : check_inputs S K sigma T = Except.error e) :
    price m type S K r sigma T = Except.error e := by
  simp [price, h, bind, Except.bind]

theorem delta_of_check_error (m : CMath α) {S K sigma T : Dbl α} {e : Exn}
    (type : OptionType) (r : Dbl α)
    (h : check_inputs S K sigma T = Except.error e) :
    delta m type S K r sigma T = Except.error e := by
  simp [delta, h, bind, Except.bind]

theorem gamma_of_check_error (m : CMath α) {S K sigma T : Dbl α} {e : Exn} (r : Dbl α)
    (h : check_inputs S K sigma T = Except.error e) :
    gamma m S K r sigma T = Except.error e := by
  simp [gamma, h, bind, Except.bind]

theorem vega_of_check_error (m : CMath α) {S K sigma T : Dbl α} {e : Exn} (r : Dbl α)
    (h : check_inputs S K sigma T = Except.error e) :
    vega m S K r sigma T = Except.error e := by
  simp [vega, h, bind, Except.bind]

theorem theta_of_check_error (m : CMath α) {S K sigma T : Dbl α} {e : Exn}
    (type : OptionType) (r : Dbl α)
    (h : check_inputs S K sigma T = Except.error e) :
    theta m type S K r sigma T = Except.error e := by
  simp [theta, h, bind, Except.bind]

theorem rho_of_check_error (m : CMath α) {S K sigma T : Dbl α} {e : Exn}
    (type : OptionType) (r : Dbl α)
    (h : check_inputs S K sigma T = Except.error e) :
    rho m type S K r sigma T = Except.error e := by
  simp [rho, h, bind, Except.bind]

theorem price_of_check_ok (m : CMath α) {S K sigma T : Dbl α} (type : OptionType) (r : Dbl α)
    (h : check_inputs S K sigma T = Except.ok ()) :
    ∃ v, price m type S K r sigma T = Except.ok v := by
  simp only [price, h, bind, Except.bind]
  split_ifs <;> exact ⟨_, rfl⟩

theorem delta_of_check_ok (m : CMath α) {S K sigma T : Dbl α} (type : OptionType) (r : Dbl α)
    (h : check_inputs S K sigma T = Except.ok ()) :
    ∃ v, delta m type S K r sigma T = Except.ok v := by
  simp only [delta, h, bind, Except.bind]
  split_ifs <;> exact ⟨_, rfl⟩

theorem gamma_of_check_ok (m : CMath α) {S K sigma T : Dbl α} (r : Dbl α)
    (h : check_inputs S K sigma T = Except.ok ()) :
    ∃ v, gamma m S K r sigma T = Except.ok v := by
  simp only [gamma, h, bind, Except.bind]
  split_ifs <;> exact ⟨_, rfl⟩

theorem vega_of_check_ok (m : CMath α) {S K sigma T : Dbl α} (r : Dbl α)
    (h : check_inputs S K sigma T = Except.ok ()) :
    ∃ v, vega m S K r sigma T = Except.ok v := by
  simp only [vega, h, bind, Except.bind]
  split_ifs <;> exact ⟨_, rfl⟩

theorem theta_of_check_ok (m : CMath α) {S K sigma T : Dbl α} (type : OptionType) (r : Dbl α)
    (h : check_inputs S K sigma T = Except.ok ()) :
    ∃ v, theta m type S K r sigma T = Except.ok v := by
  simp only [theta, h, bind, Except.bind]
  split_ifs <;> exact ⟨_, rfl⟩

theorem rho_of_check_ok (m : CMath α) {S K sigma T : Dbl α} (type : OptionType) (r : Dbl α)
    (h : check_inputs S K sigma T = Except.ok ()) :
    ∃ v, rho m type S K r sigma T = Except.ok v := by
  simp only [rho, h, bind, Except.bind]
  split_ifs <;> exact ⟨_, rfl⟩

end AnyRounding

/-! ## Evaluation in exact arithmetic -/

section Exact

variable [Rounding α] [ExactRounding α]

namespace Dbl

@[simp] theorem fin_add_fin (a b : α) : fin a + fin b = fin (a + b) :=
  ExactRounding.rnd_fin (a + b)

@[simp] theorem fin_sub_fin (a b : α) : fin a - fin b = fin (a - b) :=
  (ExactRounding.rnd_fin (a + -b)).trans (congrArg fin (sub_eq_add_neg a b).symm)

@[simp] theorem fin_mul_fin (a b : α) : fin a * fin b = fin (a * b) :=
  ExactRounding.rnd_fin (a * b)

theorem fin_div_fin (a b : α) (hb : b ≠ 0) : fin a / fin b = fin (a / b) :=
  (if_neg hb).trans (ExactRounding.rnd_fin (a / b))

@[simp] theorem exp_fin (m : CMath α) (a : α) : Dbl.exp m (fin a) = fin (m.exp a) :=
  ExactRounding.rnd_fin (m.exp a)

@[simp] theorem erf_fin (m : CMath α) (a : α) : Dbl.erf m (fin a) = fin (m.erf a) :=
  ExactRounding.rnd_fin (m.erf a)

theorem log_fin (m : CMath α) (a : α) (ha : 0 < a) : Dbl.log m (fin a) = fin (m.log a) :=
  (if_pos ha).trans (ExactRounding.rnd_fin (m.log a))

theorem sqrt_fin (m : CMath α) (a : α) (ha : 0 ≤ a) : Dbl.sqrt m (fin a) = fin (m.sqrt a) :=
  (if_pos ha).trans (ExactRounding.rnd_fin (m.sqrt a))

end Dbl

theorem d1d2_general (m : CMath α) {S K sigma T : α} (r : α) (hS : 0 < S) (hK : 0 < K)
    (hs : 0 < sigma) (hT : 0 < T) (hq : 0 < m.sqrt T) :
    d1d2 m (fin S) (fin K) (fin r) (fin sigma) (fin T)
      = (fin (d1_val m S K r sigma T), fin (d2_val m S K r sigma T)) := by
  have h1 : ¬ (T ≤ 0) := not_le.mpr hT
  have h2 : sigma ≠ 0 := hs.ne'
  have h3 : sigma * m.sqrt T ≠ 0 := (mul_pos hs hq).ne'
  have h4 : 0 < S / K := div_pos hS hK
  simp [d1d2, d2_val, d1_val, h1, h2, Dbl.sqrt_fin m T hT.le, Dbl.fin_div_fin S K hK.ne',
    Dbl.log_fin m _ h4, Dbl.fin_div_fin _ _ h3]

theorem norm_cdf_fin (m : CMath α) (x : α) : norm_cdf m (fin x) = fin (norm_cdf_val m x) := by
  simp [norm_cdf, norm_cdf_val, ExactRounding.rnd_fin]

theorem norm_pdf_fin (m : CMath α) (x : α) : norm_pdf m (fin x) = fin (norm_pdf_val m x) := by
  simp [norm_pdf, norm_pdf_val, ExactRounding.rnd_fin]

theorem norm_cdf_pinf (m : CMath α) (h2 : 0 < INV_SQRT_2 m) : norm_cdf m pinf = fin 1 := by
  simp [norm_cdf, ExactRounding.rnd_fin, Dbl.pinf_mul_fin _ h2]
  norm_num

theorem norm_cdf_ninf (m : CMath α) (h2 : 0 < INV_SQRT_2 m) : norm_cdf m ninf = fin 0 := by
  simp [norm_cdf, ExactRounding.rnd_fin, Dbl.ninf_mul_fin _ h2]

theorem price_call_expiry (m : CMath α) {S K sigma : α} (r : α) (hS : 0 < S) (hK : 0 < K)
    (hs : 0 ≤ sigma) :
    price m OptionType.Call (fin S) (fin K) (fin r) (fin sigma) (fin 0)
      = Except.ok (fin (max 0 (S - K))) := by
  simp [price, check_inputs_valid hS hK hs le_rfl, Dbl.max_fin]

theorem price_put_expiry (m : CMath α) {S K sigma : α} (r : α) (hS : 0 < S) (hK : 0 < K)
    (hs : 0 ≤ sigma) :
    price m OptionType.Put (fin S) (fin K) (fin r) (fin sigma) (fin 0)
      = Except.ok (fin (max 0 (K - S))) := by
  simp [price, check_inputs_valid hS hK hs le_rfl, Dbl.max_fin]

theorem price_call_zero_vol (m : CMath α) {S K T : α} (r : α) (hS : 0 < S) (hK : 0 < K)
    (hT : 0 < T) :
    price m OptionType.Call (fin S) (fin K) (fin r) (fin 0) (fin T)
      = Except.ok (fin (max 0 (S - K * m.exp (-r * T)))) := by
  simp [price, check_inputs_valid hS hK le_rfl hT.le, hT.ne', d1d2_zero_vol, Dbl.max_fin]

theorem price_put_zero_vol (m : CMath α) {S K T : α} (r : α) (hS : 0 < S) (hK : 0 < K)
    (hT : 0 < T) :
    price m OptionType.Put (fin S) (fin K) (fin r) (fin 0) (fin T)
      = Except.ok (fin (max 0 (K * m.exp (-r * T) - S))) := by
  simp [price, check_inputs_valid hS hK le_rfl hT.le, hT.ne', d1d2_zero_vol, Dbl.max_fin]

theorem price_call_general (m : CMath α) {S K sigma T : α} (r : α) (hS : 0 < S) (hK : 0 < K)
    (hs : 0 < sigma) (hT : 0 < T) (hq : 0 < m.sqrt T) :
    price m OptionType.Call (fin S) (fin K) (fin r) (fin sigma) (fin T)
      = Except.ok (fin (S * norm_cdf_val m (d1_val m S K r sigma T)
          - K * m.exp (-r * T) * norm_cdf_val m (d2_val m S K r sigma T))) := by
  simp [price, check_inputs_valid hS hK hs.le hT.le, hT.ne', d1d2_general m r hS hK hs hT hq,
    norm_cdf_fin]

theorem price_put_general (m : CMath α) {S K sigma T : α} (r : α) (hS : 0 < S) (hK : 0 < K)
    (hs : 0 < sigma) (hT : 0 < T) (hq : 0 < m.sqrt T) :
    price m OptionType.Put (fin S) (fin K) (fin r) (fin sigma) (fin T)
      = Except.ok (fin (K * m.exp (-r * T) * norm_cdf_val m (-d2_val m S K r sigma T)
          - S * norm_cdf_val m (-d1_val m S K r sigma T))) := by
  simp [price, check_inputs_valid hS hK hs.le hT.le, hT.ne', d1d2_general m r hS hK hs hT hq,
    norm_cdf_fin]

theorem delta_call_general (m : CMath α) {S K sigma T : α} (r : α) (hS : 0 < S) (hK : 0 < K)
    (hs : 0 < sigma) (hT : 0 < T) (hq : 0 < m.sqrt T) :
    delta m OptionType.Call (fin S) (fin K) (fin r) (fin sigma) (fin T)
      = Except.ok (fin (norm_cdf_val m (d1_val m S K r sigma T))) := by
  simp [delta, check_inputs_valid hS hK hs.le hT.le, hT.ne', d1d2_general m r hS hK hs hT hq,
    norm_cdf_fin]

theorem delta_put_general (m : CMath α) {S K sigma T : α} (r : α) (hS : 0 < S) (hK : 0 < K)
    (hs : 0 < sigma) (hT : 0 < T) (hq : 0 < m.sqrt T) :
    delta m OptionType.Put (fin S) (fin K) (fin r) (fin sigma) (fin T)
      = Except.ok (fin (norm_cdf_val m (d1_val m S K r sigma T) - 1)) := by
  simp [delta, check_inputs_valid hS hK hs.le hT.le, hT.ne', d1d2_general m r hS hK hs hT hq,
    norm_cdf_fin]

theorem delta_call_zero_vol (m : CMath α) {S K T : α} (r : α) (hS : 0 < S) (hK : 0 < K)
    (hT : 0 < T) (h2 : 0 < INV_SQRT_2 m) :
    delta m OptionType.Call (fin S) (fin K) (fin r) (fin 0) (fin T) = Except.ok (fin 1) := by
  simp [delta, check_inputs_valid hS hK le_rfl hT.le, hT.ne', d1d2_zero_vol, norm_cdf_pinf m h2]

theorem delta_put_zero_vol (m : CMath α) {S K T : α} (r : α) (hS : 0 < S) (hK : 0 < K)
    (hT : 0 < T) (h2 : 0 < INV_SQRT_2 m) :
    delta m OptionType.Put (fin S) (fin K) (fin r) (fin 0) (fin T) = Except.ok (fin 0) := by
  simp [delta, check_inputs_valid hS hK le_rfl hT.le, hT.ne', d1d2_zero_vol, norm_cdf_pinf m h2]

theorem gamma_general (m : CMath α) {S K sigma T : α} (r : α) (hS : 0 < S) (hK : 0 < K)
    (hs : 0 < sigma) (hT : 0 < T) (hq : 0 < m.sqrt T) :
    gamma m (fin S) (fin K) (fin r) (fin sigma) (fin T)
      = Except.ok (fin (norm_pdf_val m (d1_val m S K r sigma T) / (S * sigma * m.sqrt T))) := by
  have h3 : S * sigma * m.sqrt T ≠ 0 := (mul_pos (mul_pos hS hs) hq).ne'
  simp [gamma, check_inputs_valid hS hK hs.le hT.le, hT.ne', d1d2_general m r hS hK hs hT hq,
    norm_pdf_fin, Dbl.sqrt_fin m T hT.le, Dbl.fin_div_fin _ _ h3]

theorem vega_general (m : CMath α) {S K sigma T : α} (r : α) (hS : 0 < S) (hK : 0 < K)
    (hs : 0 < sigma) (hT : 0 < T) (hq : 0 < m.sqrt T) :
    vega m (fin S) (fin K) (fin r) (fin sigma) (fin T)
      = Except.ok (fin (S * norm_pdf_val m (d1_val m S K r sigma T) * m.sqrt T)) := by
  simp [vega, check_inputs_valid hS hK hs.le hT.le, hT.ne', d1d2_general m r hS hK hs hT hq,
    norm_pdf_fin, Dbl.sqrt_fin m T hT.le]

theorem theta_call_general (m : CMath α) {S K sigma T : α} (r : α) (hS : 0 < S) (hK : 0 < K)
    (hs : 0 < sigma) (hT : 0 < T) (hq : 0 < m.sqrt T) :
    theta m OptionType.Call (fin S) (fin K) (fin r) (fin sigma) (fin T)
      = Except.ok (fin (-(S * norm_pdf_val m (d1_val m S K r sigma T) * sigma)
            / (2 * m.sqrt T)
          - r * K * m.exp (-r * T) * norm_cdf_val m (d2_val m S K r sigma T))) := by
  have h3 : 2 * m.sqrt T ≠ 0 := (mul_pos two_pos hq).ne'
  simp [theta, check_inputs_valid hS hK hs.le hT.le, hT.ne', d1d2_general m r hS hK hs hT hq,
    norm_pdf_fin, norm_cdf_fin, Dbl.sqrt_fin m T hT.le, Dbl.fin_div_fin _ _ h3]

theorem theta_put_general (m : CMath α) {S K sigma T : α} (r : α) (hS : 0 < S) (hK : 0 < K)
    (hs : 0 < sigma) (hT : 0 < T) (hq : 0 < m.sqrt T) :
    theta m OptionType.Put (fin S) (fin K) (fin r) (fin sigma) (fin T)
      = Except.ok (fin (-(S * norm_pdf_val m (d1_val m S K r sigma T) * sigma)
            / (2 * m.sqrt T)
          + r * K * m.exp (-r * T) * norm_cdf_val m (-d2_val m S K r sigma T))) := by
  have h3 : 2 * m.sqrt T ≠ 0 := (mul_pos two_pos hq).ne'
  simp [theta, check_inputs_valid hS hK hs.le hT.le, hT.ne', d1d2_general m r hS hK hs hT hq,
    norm_pdf_fin, norm_cdf_fin, Dbl.sqrt_fin m T hT.le, Dbl.fin_div_fin _ _ h3]

theorem rho_call_general (m : CMath α) {S K sigma T : α} (r : α) (hS : 0 < S) (hK : 0 < K)
    (hs : 0 < sigma) (hT : 0 < T) (hq : 0 < m.sqrt T) :
    rho m OptionType.Call (fin S) (fin K) (fin r) (fin sigma) (fin T)
      = Except.ok (fin (K * T * m.exp (-r * T) * norm_cdf_val m (d2_val m S K r sigma T))) := by
  simp [rho, check_inputs_valid hS hK hs.le hT.le, hT.ne', d1d2_general m r hS hK hs hT hq,
    norm_cdf_fin]

theorem rho_put_general (m : CMath α) {S K sigma T : α} (r : α) (hS : 0 < S) (hK : 0 < K)
    (hs : 0 < sigma) (hT : 0 < T) (hq : 0 < m.sqrt T) :
    rho m OptionType.Put (fin S) (fin K) (fin r) (fin sigma) (fin T)
      = Except.ok (fin (-K * T * m.exp (-r * T)
          * norm_cdf_val m (-d2_val m S K r sigma T))) := by
  simp [rho, check_inputs_valid hS hK hs.le hT.le, hT.ne', d1d2_general m r hS hK hs hT hq,
    norm_cdf_fin]

theorem norm_pdf_pinf (m : CMath α) : norm_pdf m pinf = fin 0 := by
  have h1 : ¬ ((0 : α) < -0.5) := by norm_num
  have h2 : (-0.5 : α) < 0 := by norm_num
  have e : (fin (-0.5) : Dbl α) * pinf = ninf := by
    show (if (0 : α) < -0.5 then pinf else if (-0.5 : α) < 0 then ninf else nan) = ninf
    rw [if_neg h1, if_pos h2]
  show Rounding.rnd (INV_SQRT_2PI m) * Dbl.exp m (fin (-0.5) * pinf * pinf) = fin 0
  rw [e, ExactRounding.rnd_fin]
  show fin (INV_SQRT_2PI m) * fin 0 = fin 0
  rw [Dbl.fin_mul_fin, mul_zero]

theorem gamma_zero_vol (m : CMath α) {S K T : α} (r : α) (hS : 0 < S) (hK : 0 < K)
    (hT : 0 < T) :
    gamma m (fin S) (fin K) (fin r) (fin 0) (fin T) = Except.ok nan := by
  have hdiv : (fin 0 : Dbl α) / fin 0 = nan := by
    show (if (0 : α) = 0 then Dbl.signedInf (0 : α) else Rounding.rnd (0 / 0)) = nan
    rw [if_pos rfl]
    show (if (0 : α) < 0 then pinf else if (0 : α) < 0 then ninf else nan) = nan
    rw [if_neg (lt_irrefl 0), if_neg (lt_irrefl 0)]
  simp [gamma, check_inputs_valid hS hK le_rfl hT.le, hT.ne', d1d2_zero_vol, norm_pdf_pinf,
    Dbl.sqrt_fin m T hT.le, hdiv]

theorem vega_zero_vol (m : CMath α) {S K T : α} (r : α) (hS : 0 < S) (hK : 0 < K)
    (hT : 0 < T) :
    vega m (fin S) (fin K) (fin r) (fin 0) (fin T) = Except.ok (fin 0) := by
  simp [vega, check_inputs_valid hS hK le_rfl hT.le, hT.ne', d1d2_zero_vol, norm_pdf_pinf,
    Dbl.sqrt_fin m T hT.le]

theorem theta_call_zero_vol (m : CMath α) {S K T : α} (r : α) (hS : 0 < S) (hK : 0 < K)
    (hT : 0 < T) (hq : 0 < m.sqrt T) (h2 : 0 < INV_SQRT_2 m) :
    theta m OptionType.Call (fin S) (fin K) (fin r) (fin 0) (fin T)
      = Except.ok (fin (-(r * K * m.exp (-r * T)))) := by
  have h3 : 2 * m.sqrt T ≠ 0 := (mul_pos two_pos hq).ne'
  simp [theta, check_inputs_valid hS hK le_rfl hT.le, hT.ne', d1d2_zero_vol, norm_pdf_pinf,
    norm_cdf_pinf m h2, Dbl.sqrt_fin m T hT.le, Dbl.fin_div_fin _ _ h3]

theorem theta_put_zero_vol (m : CMath α) {S K T : α} (r : α) (hS : 0 < S) (hK : 0 < K)
    (hT : 0 < T) (hq : 0 < m.sqrt T) (h2 : 0 < INV_SQRT_2 m) :
    theta m OptionType.Put (fin S) (fin K) (fin r) (fin 0) (fin T) = Except.ok (fin 0) := by
  have h3 : 2 * m.sqrt T ≠ 0 := (mul_pos two_pos hq).ne'
  simp [theta, check_inputs_valid hS hK le_rfl hT.le, hT.ne', d1d2_zero_vol, norm_pdf_pinf,
    norm_cdf_ninf m h2, Dbl.sqrt_fin m T hT.le, Dbl.fin_div_fin _ _ h3]

end Exact

/-! ## The real functions: the error function and the two constants -/

theorem erf_zero : erf 0 = 0 := by
  simp [erf]

theorem erf_neg (x : ℝ) : erf (-x) = -erf x := by
  unfold erf
  rw [← mul_neg, ← tsum_neg]
  congr 2
  funext n
  rw [Odd.neg_pow ⟨n, rfl⟩]
  ring

/-- The series is the integral: `erf x = 2/sqrt(pi) * ∫_0^x exp(-t^2) dt`, by integrating
the exponential series of `-(t^2)` term by term. -/
theorem erf_eq_integral (x : ℝ) :
    erf x = 2 / Real.sqrt Real.pi * ∫ t in (0 : ℝ)..x, Real.exp (-(t ^ 2)) := by
  have hsum : ∀ t : ℝ, tsum (fun n => gaussTerm n t) = Real.exp (-(t ^ 2)) := by
    intro t
    rw [Real.exp_eq_exp_ℝ, NormedSpace.exp_eq_tsum_div]
    congr 1
    funext n
    show (-1) ^ n * t ^ (2 * n) / (n.factorial : ℝ) = (-(t ^ 2)) ^ n / (n.factorial : ℝ)
    have h : (-(t ^ 2)) ^ n = (-1) ^ n * t ^ (2 * n) := by
      rw [neg_pow (t ^ 2) n, pow_mul]
    rw [h]
  have hint : ∀ n : ℕ, (∫ t in (0 : ℝ)..x, gaussTerm n t)
      = (-1) ^ n * x ^ (2 * n + 1) / ((n.factorial : ℝ) * (2 * n + 1)) := by
    intro n
    show (∫ t in (0 : ℝ)..x, (-1) ^ n * t ^ (2 * n) / (n.factorial : ℝ)) = _
    have h : ∀ t : ℝ, (-1) ^ n * t ^ (2 * n) / (n.factorial : ℝ)
        = ((-1) ^ n / (n.factorial : ℝ)) * t ^ (2 * n) := fun t => by ring
    simp only [h]
    rw [intervalIntegral.integral_const_mul, integral_pow]
    have hf : (n.factorial : ℝ) ≠ 0 := by positivity
    have h2 : ((2 * n : ℕ) : ℝ) + 1 ≠ 0 := by positivity
    push_cast
    field_simp
  have hsummable : Summable (fun n : ℕ => ‖(gaussTerm n).restrict
      (⟨Set.uIcc 0 x, isCompact_uIcc⟩ : TopologicalSpace.Compacts ℝ)‖) := by
    refine Summable.of_nonneg_of_le (fun n => norm_nonneg _) (fun n => ?_)
      (Real.summable_pow_div_factorial (x ^ 2))
    rw [ContinuousMap.norm_le _ (by positivity)]
    rintro ⟨t, ht⟩
    show ‖(-1) ^ n * t ^ (2 * n) / (n.factorial : ℝ)‖ ≤ (x ^ 2) ^ n / (n.factorial : ℝ)
    have hf : (0 : ℝ) < (n.factorial : ℝ) := by positivity
    rw [norm_div, norm_mul, norm_pow, norm_neg, norm_one, one_pow, one_mul,
      Real.norm_of_nonneg hf.le, norm_pow, pow_mul, Real.norm_eq_abs, ← sq_abs x]
    have hle : |t| ≤ |x| := by
      have h := Set.abs_sub_left_of_mem_uIcc ht
      simpa using h
    gcongr
  unfold erf
  congr 1
  have h := (intervalIntegral.hasSum_intervalIntegral_of_summable_norm hsummable).tsum_eq
  simp only [hint, hsum] at h
  exact h

theorem std_sqrt_pos {x : ℝ} (hx : 0 < x) : 0 < std.sqrt x :=
  Real.sqrt_pos.mpr hx

theorem d1_val_std (S K r sigma T : ℝ) :
    d1_val std S K r sigma T
      = (Real.log (S / K) + (r + 0.5 * sigma * sigma) * T) / (sigma * Real.sqrt T) :=
  rfl

theorem d2_val_std (S K r sigma T : ℝ) :
    d2_val std S K r sigma T = d1_val std S K r sigma T - sigma * Real.sqrt T :=
  rfl

theorem INV_SQRT_2_pos : 0 < INV_SQRT_2 std := by
  show 0 < 1 / Real.sqrt 2
  positivity

/-- The decimal expansions in the source agree with `1 / sqrt 2` and `1 / sqrt (2 pi)` to
their last printed digit. -/
theorem INV_SQRT_literals :
    |INV_SQRT_2 std - 0.70710678118654752440| < 1e-20 ∧
    |INV_SQRT_2PI std - 0.3989422804014327| < 1e-16 := by
  constructor
  · have h2 : (0 : ℝ) < Real.sqrt 2 := Real.sqrt_pos.mpr (by norm_num)
    have hlo : (1.41421356237309504880 : ℝ) < Real.sqrt 2 := by
      apply Real.lt_sqrt_of_sq_lt; norm_num
    have hhi : Real.sqrt 2 < (1.41421356237309504881 : ℝ) := by
      rw [Real.sqrt_lt' (by norm_num)]; norm_num
    have e : INV_SQRT_2 std = Real.sqrt 2 / 2 := by
      show 1 / Real.sqrt 2 = Real.sqrt 2 / 2
      field_simp
    rw [e, abs_lt]
    constructor <;> linarith
  · have hpi_lo := Real.pi_gt_d20
    have hpi_hi := Real.pi_lt_d20
    have hpos : (0 : ℝ) < 2 * Real.pi := by positivity
    have hs : (0 : ℝ) < Real.sqrt (2 * Real.pi) := Real.sqrt_pos.mpr hpos
    have hlo : Real.sqrt (2 * Real.pi) < 1 / (0.3989422804014326 : ℝ) := by
      rw [Real.sqrt_lt' (by norm_num)]
      have : (2 : ℝ) * Real.pi < 2 * 3.14159265358979323847 := by linarith
      refine lt_trans this ?_
      norm_num
    have hhi : 1 / (0.3989422804014328 : ℝ) < Real.sqrt (2 * Real.pi) := by
      apply Real.lt_sqrt_of_sq_lt
      have : (2 : ℝ) * 3.14159265358979323846 < 2 * Real.pi := by linarith
      refine lt_trans ?_ this
      norm_num
    have h1 : (0.3989422804014326 : ℝ) < INV_SQRT_2PI std := by
      show (0.3989422804014326 : ℝ) < 1 / Real.sqrt (2 * Real.pi)
      rw [lt_div_iff₀ hs]
      have := mul_lt_mul_of_pos_left hlo (by norm_num : (0 : ℝ) < 0.3989422804014326)
      refine lt_of_lt_of_le this ?_
      norm_num
    have h2 : INV_SQRT_2PI std < (0.3989422804014328 : ℝ) := by
      show 1 / Real.sqrt (2 * Real.pi) < (0.3989422804014328 : ℝ)
      rw [div_lt_iff₀ hs]
      have := mul_lt_mul_of_pos_left hhi (by norm_num : (0 : ℝ) < 0.3989422804014328)
      refine lt_of_le_of_lt ?_ this
      norm_num
    rw [abs_lt]
    constructor <;> linarith

/-- On finite arguments `N(x) + N(-x) = 1`, as numbers. -/
theorem norm_cdf_val_add_neg (x : ℝ) : norm_cdf_val std x + norm_cdf_val std (-x) = 1 := by
  show 0.5 * (1 + erf (x * INV_SQRT_2 std)) + 0.5 * (1 + erf (-x * INV_SQRT_2 std)) = 1
  rw [neg_mul, erf_neg]; ring

/-! ## The density, and the identity behind the Greeks -/

/-- The density is the derivative of the distribution function: `N' = norm_pdf`. -/
theorem hasDerivAt_norm_cdf_val (x : ℝ) :
    HasDerivAt (norm_cdf_val std) (norm_pdf_val std x) x := by
  have herf : ∀ y : ℝ, HasDerivAt erf (2 / Real.sqrt Real.pi * Real.exp (-(y ^ 2))) y := by
    intro y
    have hc : Continuous (fun t : ℝ => Real.exp (-(t ^ 2))) := by fun_prop
    have h := ((hc.integral_hasStrictDerivAt 0 y).hasDerivAt).const_mul
      (2 / Real.sqrt Real.pi)
    have e : erf = fun u => 2 / Real.sqrt Real.pi * ∫ t in (0 : ℝ)..u, Real.exp (-(t ^ 2)) :=
      funext erf_eq_integral
    rw [e]
    exact h
  have hsq : INV_SQRT_2 std * INV_SQRT_2 std = 1 / 2 := by
    show 1 / Real.sqrt 2 * (1 / Real.sqrt 2) = 1 / 2
    rw [div_mul_div_comm, Real.mul_self_sqrt (by norm_num)]
    norm_num
  have hpi : INV_SQRT_2PI std = INV_SQRT_2 std / Real.sqrt Real.pi := by
    show 1 / Real.sqrt (2 * Real.pi) = 1 / Real.sqrt 2 / Real.sqrt Real.pi
    rw [Real.sqrt_mul (by norm_num), div_div]
  have h1 : HasDerivAt (fun y : ℝ => y * INV_SQRT_2 std) (INV_SQRT_2 std) x := by
    simpa using (hasDerivAt_id x).mul_const (INV_SQRT_2 std)
  have h2 := (herf (x * INV_SQRT_2 std)).comp x h1
  have h3 := (h2.const_add 1).const_mul (0.5 : ℝ)
  have e : norm_pdf_val std x
      = 0.5 * (2 / Real.sqrt Real.pi * Real.exp (-((x * INV_SQRT_2 std) ^ 2))
          * INV_SQRT_2 std) := by
    have hx : (x * INV_SQRT_2 std) ^ 2 = 0.5 * x * x := by
      rw [mul_pow, sq (INV_SQRT_2 std), hsq]; ring
    rw [hx]
    show INV_SQRT_2PI std * Real.exp (-0.5 * x * x) = _
    rw [hpi]
    have : -(0.5 * x * x) = -0.5 * x * x := by ring
    rw [this]; ring
  rw [e]
  exact h3

/-- The distribution function `N` is continuous and monotone, tends to 1 at +infinity and
to 0 at -infinity, and lies between 0 and 1. -/
theorem norm_cdf_val_facts :
    Continuous (norm_cdf_val std) ∧ Monotone (norm_cdf_val std) ∧
    Filter.Tendsto (norm_cdf_val std) Filter.atTop (nhds 1) ∧
    Filter.Tendsto (norm_cdf_val std) Filter.atBot (nhds 0) ∧
    ∀ x, 0 ≤ norm_cdf_val std x ∧ norm_cdf_val std x ≤ 1 := by
  have hcont : Continuous (norm_cdf_val std) :=
    continuous_iff_continuousAt.mpr (fun x => (hasDerivAt_norm_cdf_val x).continuousAt)
  have hmono : Monotone (norm_cdf_val std) := by
    refine monotone_of_deriv_nonneg (fun x => (hasDerivAt_norm_cdf_val x).differentiableAt)
      (fun x => ?_)
    rw [(hasDerivAt_norm_cdf_val x).deriv]
    show 0 ≤ 1 / Real.sqrt (2 * Real.pi) * Real.exp (-0.5 * x * x)
    positivity
  have herf : Filter.Tendsto erf Filter.atTop (nhds 1) := by
    have hint : MeasureTheory.IntegrableOn (fun t : ℝ => Real.exp (-(t ^ 2))) (Set.Ioi 0) := by
      have h : MeasureTheory.IntegrableOn (fun t : ℝ => Real.exp (-1 * t ^ 2)) (Set.Ioi 0) :=
        (integrable_exp_neg_mul_sq (one_pos : (0 : ℝ) < 1)).integrableOn
      simpa using h
    have hlim := MeasureTheory.intervalIntegral_tendsto_integral_Ioi 0 hint Filter.tendsto_id
    have hval : (∫ t in Set.Ioi (0 : ℝ), Real.exp (-(t ^ 2))) = Real.sqrt Real.pi / 2 := by
      have h := integral_gaussian_Ioi 1
      simpa using h
    rw [hval] at hlim
    have h2 := hlim.const_mul (2 / Real.sqrt Real.pi)
    have hpi : 0 < Real.sqrt Real.pi := Real.sqrt_pos.mpr Real.pi_pos
    have e1 : 2 / Real.sqrt Real.pi * (Real.sqrt Real.pi / 2) = 1 := by field_simp
    rw [e1] at h2
    refine h2.congr (fun x => ?_)
    rw [erf_eq_integral]
    rfl
  have htop : Filter.Tendsto (norm_cdf_val std) Filter.atTop (nhds 1) := by
    have h1 : Filter.Tendsto (fun x : ℝ => x * INV_SQRT_2 std) Filter.atTop Filter.atTop :=
      Filter.tendsto_id.atTop_mul_const INV_SQRT_2_pos
    have h2 := ((herf.comp h1).const_add 1).const_mul (0.5 : ℝ)
    have e : (0.5 : ℝ) * (1 + 1) = 1 := by norm_num
    rw [e] at h2
    exact h2
  have hbot : Filter.Tendsto (norm_cdf_val std) Filter.atBot (nhds 0) := by
    have h1 := (htop.comp Filter.tendsto_neg_atBot_atTop).const_sub 1
    rw [sub_self] at h1
    refine h1.congr (fun x => ?_)
    have h := norm_cdf_val_add_neg x
    show 1 - norm_cdf_val std (-x) = norm_cdf_val std x
    linarith
  exact ⟨hcont, hmono, htop, hbot,
    fun x => ⟨hmono.le_of_tendsto hbot x, hmono.ge_of_tendsto htop x⟩⟩

/-- For `v >= 0`, `N(x - v) <= exp(v x - v^2 / 2) N(x)`: the difference is monotone in `x`
and vanishes at -infinity. -/
theorem norm_cdf_val_shift (v x : ℝ) (hv : 0 ≤ v) :
    norm_cdf_val std (x - v) ≤ Real.exp (v * x - v ^ 2 / 2) * norm_cdf_val std x := by
  rcases hv.eq_or_lt with h0 | hpos
  · subst h0
    simp
  have hN := norm_cdf_val_facts
  have hderiv : ∀ y : ℝ, HasDerivAt
      (fun y => Real.exp (v * y - v ^ 2 / 2) * norm_cdf_val std y - norm_cdf_val std (y - v))
      (v * Real.exp (v * y - v ^ 2 / 2) * norm_cdf_val std y) y := by
    intro y
    have h1 : HasDerivAt (fun y : ℝ => v * y - v ^ 2 / 2) v y := by
      simpa using ((hasDerivAt_id y).const_mul v).sub_const (v ^ 2 / 2)
    have h2 := h1.exp
    have h3 := h2.mul (hasDerivAt_norm_cdf_val y)
    have h4 : HasDerivAt (fun y : ℝ => y - v) 1 y := by
      simpa using (hasDerivAt_id y).sub_const v
    have h5 := (hasDerivAt_norm_cdf_val (y - v)).comp y h4
    have h6 := h3.sub h5
    have hpdf : norm_pdf_val std (y - v)
        = Real.exp (v * y - v ^ 2 / 2) * norm_pdf_val std y := by
      show INV_SQRT_2PI std * Real.exp (-0.5 * (y - v) * (y - v))
        = Real.exp (v * y - v ^ 2 / 2) * (INV_SQRT_2PI std * Real.exp (-0.5 * y * y))
      have e : -0.5 * (y - v) * (y - v) = (v * y - v ^ 2 / 2) + -0.5 * y * y := by ring
      rw [e, Real.exp_add]
      ring
    convert h6 using 1
    rw [hpdf]
    ring
  have hmono : Monotone
      (fun y => Real.exp (v * y - v ^ 2 / 2) * norm_cdf_val std y - norm_cdf_val std (y - v)) := by
    refine monotone_of_deriv_nonneg (fun y => (hderiv y).differentiableAt) (fun y => ?_)
    rw [(hderiv y).deriv]
    exact mul_nonneg (mul_nonneg hpos.le (Real.exp_pos _).le) (hN.2.2.2.2 y).1
  have hlim : Filter.Tendsto
      (fun y => Real.exp (v * y - v ^ 2 / 2) * norm_cdf_val std y - norm_cdf_val std (y - v))
      Filter.atBot (nhds 0) := by
    have h1 : Filter.Tendsto (fun y : ℝ => v * y - v ^ 2 / 2) Filter.atBot Filter.atBot :=
      Filter.tendsto_atBot_add_const_right _ _ (Filter.tendsto_id.const_mul_atBot hpos)
    have h2 := Real.tendsto_exp_atBot.comp h1
    have h3 := h2.mul hN.2.2.2.1
    have h4 : Filter.Tendsto (fun y : ℝ => y - v) Filter.atBot Filter.atBot :=
      Filter.tendsto_atBot_add_const_right _ _ Filter.tendsto_id
    have h5 := hN.2.2.2.1.comp h4
    have h6 := h3.sub h5
    simpa using h6
  have h := hmono.le_of_tendsto hlim x
  linarith

/-! ## Numerical evaluation of the distribution function -/

/-- The distribution function by the first terms of its Maclaurin series, with a geometric
bound of the remainder: for `x ^ 2 / 2 < 1`,
`N(x) = 0.5 + INV_SQRT_2PI * x * sum_{n<k} (-1)^n (x^2/2)^n / (n! (2n+1))` up to
`INV_SQRT_2PI * |x| * (x^2/2)^k / (1 - x^2/2)`. -/
theorem norm_cdf_val_approx (x : ℝ) (k : ℕ) (hx : x ^ 2 / 2 < 1) :
    |norm_cdf_val std x - (0.5 + INV_SQRT_2PI std * (x * ∑ n in Finset.range k,
        (-1) ^ n * (x ^ 2 / 2) ^ n / ((n.factorial : ℝ) * (2 * n + 1))))|
      ≤ INV_SQRT_2PI std * (|x| * ((x ^ 2 / 2) ^ k / (1 - x ^ 2 / 2))) := by
  have hy0 : 0 ≤ x ^ 2 / 2 := by positivity
  have hbound : ∀ n : ℕ,
      ‖(-1) ^ n * (x ^ 2 / 2) ^ n / ((n.factorial : ℝ) * (2 * n + 1))‖ ≤ (x ^ 2 / 2) ^ n := by
    intro n
    have hf : (1 : ℝ) ≤ (n.factorial : ℝ) * (2 * n + 1) := by
      have h1 : (1 : ℝ) ≤ (n.factorial : ℝ) := by exact_mod_cast n.factorial_pos
      have h2 : (1 : ℝ) ≤ 2 * (n : ℝ) + 1 := by
        have : (0 : ℝ) ≤ (n : ℝ) := n.cast_nonneg
        linarith
      calc (1 : ℝ) = 1 * 1 := by ring
        _ ≤ (n.factorial : ℝ) * (2 * n + 1) := mul_le_mul h1 h2 zero_le_one (by linarith)
    rw [norm_div, norm_mul, norm_pow, norm_neg, norm_one, one_pow, one_mul, norm_pow,
      Real.norm_of_nonneg hy0, Real.norm_of_nonneg (by linarith)]
    exact div_le_self (pow_nonneg hy0 n) hf
  have hsum : Summable (fun n : ℕ =>
      (-1) ^ n * (x ^ 2 / 2) ^ n / ((n.factorial : ℝ) * (2 * n + 1))) :=
    Summable.of_norm_bounded _ (summable_geometric_of_lt_one hy0 hx) hbound
  have htail : ‖tsum (fun n : ℕ => (-1) ^ (n + k) * (x ^ 2 / 2) ^ (n + k)
      / (((n + k).factorial : ℝ) * (2 * ((n + k : ℕ) : ℝ) + 1)))‖
      ≤ (x ^ 2 / 2) ^ k * (1 - x ^ 2 / 2)⁻¹ := by
    refine tsum_of_norm_bounded ((hasSum_geometric_of_lt_one hy0 hx).mul_left _) (fun n => ?_)
    rw [← pow_add, add_comm k n]
    exact hbound (n + k)
  have hsplit := sum_add_tsum_nat_add k hsum
  have hc : INV_SQRT_2PI std = 1 / (Real.sqrt 2 * Real.sqrt Real.pi) := by
    show 1 / Real.sqrt (2 * Real.pi) = _
    rw [Real.sqrt_mul (by norm_num : (0 : ℝ) ≤ 2)]
  have h2 : 0 < Real.sqrt 2 := Real.sqrt_pos.mpr (by norm_num)
  have hpi : 0 < Real.sqrt Real.pi := Real.sqrt_pos.mpr Real.pi_pos
  have hsq2 : Real.sqrt 2 * Real.sqrt 2 = 2 := Real.mul_self_sqrt (by norm_num)
  have herf : erf (x * INV_SQRT_2 std) = 2 / Real.sqrt Real.pi * (x * (1 / Real.sqrt 2) *
      tsum (fun n : ℕ => (-1) ^ n * (x ^ 2 / 2) ^ n / ((n.factorial : ℝ) * (2 * n + 1)))) := by
    unfold erf
    congr 1
    rw [← tsum_mul_left]
    congr 1
    funext n
    show (-1) ^ n * (x * (1 / Real.sqrt 2)) ^ (2 * n + 1) / ((n.factorial : ℝ) * (2 * n + 1)) = _
    have e : (x * (1 / Real.sqrt 2)) ^ (2 * n + 1)
        = x * (1 / Real.sqrt 2) * (x ^ 2 / 2) ^ n := by
      have e2 : (x * (1 / Real.sqrt 2)) ^ 2 = x ^ 2 / 2 := by
        rw [mul_pow, div_pow, one_pow, sq (Real.sqrt 2), hsq2]; ring
      rw [pow_succ, pow_mul, e2]; ring
    rw [e]; ring
  have hN : norm_cdf_val std x = 0.5 + INV_SQRT_2PI std * (x *
      tsum (fun n : ℕ => (-1) ^ n * (x ^ 2 / 2) ^ n / ((n.factorial : ℝ) * (2 * n + 1)))) := by
    show 0.5 * (1 + erf (x * INV_SQRT_2 std)) = _
    rw [herf, hc]
    field_simp
    ring
  have hcpos : 0 < INV_SQRT_2PI std := by
    rw [hc]; positivity
  rw [hN, ← hsplit]
  have e : ∀ a b t : ℝ, 0.5 + INV_SQRT_2PI std * (x * (a + t))
      - (0.5 + INV_SQRT_2PI std * (x * a)) = INV_SQRT_2PI std * (x * t) := fun a b t => by ring
  rw [e _ 0, abs_mul, abs_mul, abs_of_pos hcpos]
  rw [Real.norm_eq_abs] at htail
  have h1y : 0 < 1 - x ^ 2 / 2 := by linarith
  rw [div_eq_mul_inv]
  exact mul_le_mul_of_nonneg_left (mul_le_mul_of_nonneg_left htail (abs_nonneg x)) hcpos.le

/-- The exponential by its Taylor polynomial of degree 5, on [-1, 1]. -/
theorem exp_bound6 (x : ℝ) (hx : |x| ≤ 1) :
    |Real.exp x - (1 + x + x ^ 2 / 2 + x ^ 3 / 6 + x ^ 4 / 24 + x ^ 5 / 120)|
      ≤ |x| ^ 6 * (7 / 4320) := by
  have h := Real.exp_bound hx (Nat.succ_pos 5)
  simp only [Finset.sum_range_succ, Finset.sum_range_zero, Nat.factorial] at h
  norm_num at h
  exact h

/-- The numbers of the reference scenario: `N(0.35)`, `N(0.15)`, `exp(-0.05)` and
`exp(-0.06125)` to eight decimals, and `1 / sqrt (2 pi)`. -/
theorem reference_values :
    ((0.63683065 : ℝ) < norm_cdf_val std (7 / 20) ∧ norm_cdf_val std (7 / 20) < 0.63683066) ∧
    ((0.55961769 : ℝ) < norm_cdf_val std (3 / 20) ∧ norm_cdf_val std (3 / 20) < 0.55961770) ∧
    ((0.95122942 : ℝ) < Real.exp (-(1 / 20)) ∧ Real.exp (-(1 / 20)) < 0.95122943) ∧
    ((0.94058806 : ℝ) < Real.exp (-(49 / 800)) ∧ Real.exp (-(49 / 800)) < 0.94058807) ∧
    ((0.39894228 : ℝ) < INV_SQRT_2PI std ∧ INV_SQRT_2PI std < 0.39894229) := by
  -- the constant 1 / sqrt (2 pi)
  have hc := abs_lt.mp INV_SQRT_literals.2
  have hc1 : (0.39894228 : ℝ) < INV_SQRT_2PI std := by linarith [hc.1]
  have hc2 : INV_SQRT_2PI std < (0.39894229 : ℝ) := by linarith [hc.2]
  -- N(0.35) and N(0.15) by the series
  have hN1 : (0.63683065 : ℝ) < norm_cdf_val std (7 / 20) ∧
      norm_cdf_val std (7 / 20) < 0.63683066 := by
    have h := abs_le.mp (norm_cdf_val_approx (7 / 20) 7 (by norm_num))
    have hA : (7 / 20 : ℝ) * ∑ n in Finset.range 7,
        (-1) ^ n * ((7 / 20 : ℝ) ^ 2 / 2) ^ n / ((n.factorial : ℝ) * (2 * n + 1))
        = 7 / 20 * (1 - (49 / 800) / 3 + (49 / 800) ^ 2 / 10 - (49 / 800) ^ 3 / 42
            + (49 / 800) ^ 4 / 216 - (49 / 800) ^ 5 / 1320 + (49 / 800) ^ 6 / 9360) := by
      simp only [Finset.sum_range_succ, Finset.sum_range_zero, Nat.factorial]
      norm_num
    have hB : |(7 / 20 : ℝ)| * (((7 / 20 : ℝ) ^ 2 / 2) ^ 7 / (1 - (7 / 20 : ℝ) ^ 2 / 2))
        < 2e-9 := by
      rw [abs_of_pos (by norm_num)]
      norm_num
    rw [hA] at h
    have hB2 := mul_lt_mul_of_pos_left hB (by linarith : (0 : ℝ) < INV_SQRT_2PI std)
    generalize INV_SQRT_2PI std = c at h hB2 hc1 hc2
    generalize norm_cdf_val std (7 / 20) = N at h ⊢
    norm_num at h hB2
    constructor <;> linarith [h.1, h.2, hB2, hc1, hc2]
  have hN2 : (0.55961769 : ℝ) < norm_cdf_val std (3 / 20) ∧
      norm_cdf_val std (3 / 20) < 0.55961770 := by
    have h := abs_le.mp (norm_cdf_val_approx (3 / 20) 5 (by norm_num))
    have hA : (3 / 20 : ℝ) * ∑ n in Finset.range 5,
        (-1) ^ n * ((3 / 20 : ℝ) ^ 2 / 2) ^ n / ((n.factorial : ℝ) * (2 * n + 1))
        = 3 / 20 * (1 - (9 / 800) / 3 + (9 / 800) ^ 2 / 10 - (9 / 800) ^ 3 / 42
            + (9 / 800) ^ 4 / 216) := by
      simp only [Finset.sum_range_succ, Finset.sum_range_zero, Nat.factorial]
      norm_num
    have hB : |(3 / 20 : ℝ)| * (((3 / 20 : ℝ) ^ 2 / 2) ^ 5 / (1 - (3 / 20 : ℝ) ^ 2 / 2))
        < 1e-10 := by
      rw [abs_of_pos (by norm_num)]
      norm_num
    rw [hA] at h
    have hB2 := mul_lt_mul_of_pos_left hB (by linarith : (0 : ℝ) < INV_SQRT_2PI std)
    generalize INV_SQRT_2PI std = c at h hB2 hc1 hc2
    generalize norm_cdf_val std (3 / 20) = N at h ⊢
    norm_num at h hB2
    constructor <;> linarith [h.1, h.2, hB2, hc1, hc2]
  have hE : (0.95122942 : ℝ) < Real.exp (-(1 / 20)) ∧ Real.exp (-(1 / 20)) < 0.95122943 := by
    have e : |(-(1 / 20) : ℝ)| = 1 / 20 := by
      rw [abs_of_neg (by norm_num)]; norm_num
    have h := abs_le.mp (exp_bound6 (-(1 / 20)) (by rw [e]; norm_num))
    rw [e] at h
    generalize Real.exp (-(1 / 20)) = E at h ⊢
    norm_num at h
    constructor <;> linarith [h.1, h.2]
  have hE2 : (0.94058806 : ℝ) < Real.exp (-(49 / 800)) ∧
      Real.exp (-(49 / 800)) < 0.94058807 := by
    have e : |(-(49 / 800) : ℝ)| = 49 / 800 := by
      rw [abs_of_neg (by norm_num)]; norm_num
    have h := abs_le.mp (exp_bound6 (-(49 / 800)) (by rw [e]; norm_num))
    rw [e] at h
    generalize Real.exp (-(49 / 800)) = E at h ⊢
    norm_num at h
    constructor <;> linarith [h.1, h.2]
  exact ⟨hN1, hN2, hE, hE2, hc1, hc2⟩

/-! # Binary64 arithmetic -/

/-! ## Binary64 rounding -/

/-- A power of two as `2 ^ 52` times a power of two. -/
theorem two_zpow_52 (e : ℤ) : (2 : α) ^ e = ((2 ^ 52 : ℤ) : α) * 2 ^ (e - 52) := by
  rw [Int.cast_pow, Int.cast_ofNat, ← zpow_natCast, ← zpow_add₀ two_ne_zero]
  congr 1
  omega

section Binary64

variable [FloorRing α]

/-- A number within one half of an integer is rounded to that integer. -/
theorem rne_eq_of_abs_lt (q : α) (n : ℤ) (h : |q - n| < 1 / 2) : rne q = n := by
  obtain ⟨h1, h2⟩ := abs_lt.mp h
  unfold rne
  rcases le_or_lt (n : α) q with hq | hq
  · have hf : ⌊q⌋ = n := Int.floor_eq_iff.mpr ⟨hq, by linarith⟩
    rw [hf, if_pos h2]
  · have hf : ⌊q⌋ = n - 1 := Int.floor_eq_iff.mpr ⟨by push_cast; linarith, by push_cast; linarith⟩
    have h3 : ¬ (q - ((n - 1 : ℤ) : α) < 1 / 2) := by push_cast; linarith
    have h4 : (1 : α) / 2 < q - ((n - 1 : ℤ) : α) := by push_cast; linarith
    rw [hf, if_neg h3, if_pos h4]
    ring

/-- Rounding to the nearest integer moves a number by one half at most. -/
theorem abs_rne_sub_le (q : α) : |(rne q : α) - q| ≤ 1 / 2 := by
  have h1 := Int.floor_le q
  have h2 := Int.lt_floor_add_one q
  unfold rne
  split_ifs with a b c
  · rw [abs_le]; constructor <;> linarith
  · rw [abs_le]; push_cast; constructor <;> linarith
  · rw [abs_le]; constructor <;> linarith
  · rw [abs_le]; push_cast; constructor <;> linarith

/-- The exponent of a number of the binade `[2 ^ e, 2 ^ (e + 1))`, `e >= -1022`. -/
theorem expo_eq (x : α) (e : ℤ) (he : -1022 ≤ e) (h1 : (2 : α) ^ e ≤ |x|)
    (h2 : |x| < (2 : α) ^ (e + 1)) : expo x = e := by
  have hpos : (0 : α) < |x| := lt_of_lt_of_le (zpow_pos two_pos e) h1
  have hl : Int.log 2 |x| = e := by
    apply le_antisymm
    · have h3 : |x| < ((2 : ℕ) : α) ^ (e + 1) ↔ Int.log 2 |x| < e + 1 :=
        Int.lt_zpow_iff_log_lt one_lt_two hpos
      rw [Nat.cast_ofNat] at h3
      have h := h3.mp h2
      omega
    · have h3 : ((2 : ℕ) : α) ^ e ≤ |x| ↔ e ≤ Int.log 2 |x| :=
        Int.zpow_le_iff_le_log one_lt_two hpos
      rw [Nat.cast_ofNat] at h3
      exact h3.mp h1
  unfold expo
  rw [hl, max_eq_left he]

/-- The exponent of a number below the normal range is that of the subnormal numbers. -/
theorem expo_eq_of_lt (x : α) (hx : x ≠ 0) (h : |x| < (2 : α) ^ (-1022 : ℤ)) :
    expo x = -1022 := by
  have hpos : (0 : α) < |x| := abs_pos.mpr hx
  have h3 : |x| < ((2 : ℕ) : α) ^ (-1022 : ℤ) ↔ Int.log 2 |x| < -1022 :=
    Int.lt_zpow_iff_log_lt one_lt_two hpos
  rw [Nat.cast_ofNat] at h3
  have hl : Int.log 2 |x| < -1022 := h3.mp h
  unfold expo
  exact max_eq_right hl.le

/-- The rounding of a number of known exponent `e` that is within half a unit in the last
place of `n * 2 ^ (e - 52)`, a number below `2 ^ 1024`. -/
theorem round64_eq (x : α) (e n : ℤ) (hexp : expo x = e)
    (hn : |x / 2 ^ (e - 52) - n| < 1 / 2) (hfin : |(n : α) * 2 ^ (e - 52)| < 2 ^ (1024 : ℤ)) :
    round64 x = fin ((n : α) * 2 ^ (e - 52)) := by
  unfold round64 ulp
  rw [hexp, rne_eq_of_abs_lt _ n hn, if_neg (not_le.mpr hfin)]

/-- The rounding of a number of known exponent `e` below `2 ^ 1023` is finite and within half
a unit in the last place of the number. -/
theorem round64_near (x : α) (e : ℤ) (hexp : expo x = e) (he : e ≤ 1022)
    (hx : |x| < (2 : α) ^ (e + 1)) :
    ∃ y : α, round64 x = fin y ∧ |y - x| ≤ 2 ^ (e - 53) := by
  have hu : (0 : α) < 2 ^ (e - 52) := zpow_pos two_pos _
  have hq := abs_rne_sub_le (x / 2 ^ (e - 52))
  have hy : |(rne (x / 2 ^ (e - 52)) : α) * 2 ^ (e - 52) - x| ≤ 2 ^ (e - 53) := by
    have e1 : (rne (x / 2 ^ (e - 52)) : α) * 2 ^ (e - 52) - x
        = ((rne (x / 2 ^ (e - 52)) : α) - x / 2 ^ (e - 52)) * 2 ^ (e - 52) := by
      field_simp
    have e2 : (2 : α) ^ (e - 53) = 1 / 2 * 2 ^ (e - 52) := by
      rw [show e - 52 = (e - 53) + 1 by ring, zpow_add_one₀ two_ne_zero]; ring
    rw [e1, abs_mul, abs_of_pos hu, e2]
    exact mul_le_mul_of_nonneg_right hq hu.le
  refine ⟨_, ?_, hy⟩
  unfold round64 ulp
  rw [hexp, if_neg]
  rw [not_le]
  have h3 : (2 : α) ^ (e - 53) ≤ 2 ^ (e + 1) := zpow_le_zpow_right₀ one_le_two (by omega)
  have h4 : (2 : α) ^ (e + 1) + 2 ^ (e + 1) ≤ 2 ^ (1024 : ℤ) := by
    have h5 : (2 : α) ^ (e + 1) + 2 ^ (e + 1) = 2 ^ (e + 2) := by
      rw [show e + 2 = (e + 1) + 1 by ring, zpow_add_one₀ two_ne_zero (e + 1), mul_two]
    rw [h5]
    exact zpow_le_zpow_right₀ one_le_two (by omega)
  have h6 := abs_sub_abs_le_abs_sub ((rne (x / 2 ^ (e - 52)) : α) * 2 ^ (e - 52)) x
  linarith

/-- Zero is a `double`. -/
theorem round64_zero : round64 (0 : α) = fin 0 := by
  have h := round64_eq (0 : α) (expo (0 : α)) 0 rfl (by simp) (by simp [zpow_pos])
  simpa using h

/-- The normal `double`s: a significand of 53 bits times a power of two. -/
theorem round64_repr (n e : ℤ) (he : -1022 ≤ e) (he2 : e ≤ 1023)
    (h1 : 2 ^ 52 ≤ |n|) (h2 : |n| < 2 ^ 53) :
    round64 ((n : α) * 2 ^ (e - 52)) = fin ((n : α) * 2 ^ (e - 52)) := by
  have hu : (0 : α) < 2 ^ (e - 52) := zpow_pos two_pos _
  have habs : |(n : α) * 2 ^ (e - 52)| = (|n| : ℤ) * 2 ^ (e - 52) := by
    rw [abs_mul, abs_of_pos hu, Int.cast_abs]
  have hlo : (2 : α) ^ e ≤ |(n : α) * 2 ^ (e - 52)| := by
    rw [habs]
    have h3 : (2 : α) ^ e = ((2 ^ 52 : ℤ) : α) * 2 ^ (e - 52) := two_zpow_52 e
    rw [h3]
    exact mul_le_mul_of_nonneg_right (by exact_mod_cast h1) hu.le
  have hhi : |(n : α) * 2 ^ (e - 52)| < (2 : α) ^ (e + 1) := by
    rw [habs]
    have h3 : (2 : α) ^ (e + 1) = ((2 ^ 53 : ℤ) : α) * 2 ^ (e - 52) := by
      rw [zpow_add_one₀ two_ne_zero, two_zpow_52 e]
      push_cast
      ring
    rw [h3]
    exact mul_lt_mul_of_pos_right (by exact_mod_cast h2) hu
  refine round64_eq _ e n (expo_eq _ e he hlo hhi) ?_ ?_
  · rw [mul_div_assoc, div_self hu.ne', mul_one, sub_self, abs_zero]
    norm_num
  · exact lt_of_lt_of_le hhi (zpow_le_zpow_right₀ one_le_two (by omega))

/-- The powers of two of the normal range are `double`s. -/
theorem round64_two_zpow (j : ℤ) (h1 : -1022 ≤ j) (h2 : j ≤ 1023) :
    round64 ((2 : α) ^ j) = fin (2 ^ j) := by
  have h : round64 (((2 ^ 52 : ℤ) : α) * 2 ^ (j - 52)) = fin (((2 ^ 52 : ℤ) : α) * 2 ^ (j - 52)) :=
    round64_repr (2 ^ 52) j h1 h2 (by norm_num) (by norm_num)
  have e : (((2 ^ 52 : ℤ) : α)) * 2 ^ (j - 52) = 2 ^ j := (two_zpow_52 j).symm
  rwa [e] at h

/-- The negated powers of two of the normal range are `double`s. -/
theorem round64_neg_two_zpow (j : ℤ) (h1 : -1022 ≤ j) (h2 : j ≤ 1023) :
    round64 (-(2 : α) ^ j) = fin (-2 ^ j) := by
  have h : round64 (((-2 ^ 52 : ℤ) : α) * 2 ^ (j - 52))
      = fin (((-2 ^ 52 : ℤ) : α) * 2 ^ (j - 52)) :=
    round64_repr (-2 ^ 52) j h1 h2 (by norm_num) (by norm_num)
  have e : (((-2 ^ 52 : ℤ) : α)) * 2 ^ (j - 52) = -2 ^ j := by
    rw [Int.cast_neg, neg_mul, ← two_zpow_52 j]
  rwa [e] at h

/-- Underflow: a number below half the smallest subnormal `double` is rounded to zero. -/
theorem round64_underflow (x : α) (h : |x| < (2 : α) ^ (-1075 : ℤ)) : round64 x = fin 0 := by
  rcases eq_or_ne x 0 with h0 | h0
  · rw [h0]; exact round64_zero
  · have hle : (2 : α) ^ (-1075 : ℤ) ≤ 2 ^ (-1022 : ℤ) :=
      zpow_le_zpow_right₀ one_le_two (by norm_num)
    have hexp := expo_eq_of_lt x h0 (lt_of_lt_of_le h hle)
    have hu : (0 : α) < 2 ^ ((-1022 : ℤ) - 52) := zpow_pos two_pos _
    have hr := round64_eq x (-1022) 0 hexp ?_ (by simp [zpow_pos])
    · simpa using hr
    · rw [Int.cast_zero, sub_zero, abs_div, abs_of_pos hu, div_lt_iff₀ hu]
      have e : (1 : α) / 2 * 2 ^ ((-1022 : ℤ) - 52) = 2 ^ (-1075 : ℤ) := by
        rw [show ((-1022 : ℤ) - 52) = (-1075) + 1 by norm_num, zpow_add_one₀ two_ne_zero]
        ring
      rw [e]
      exact h

/-- Overflow: a number from `2 ^ 1024` on is rounded to `+inf`. -/
theorem round64_overflow (x : α) (h : (2 : α) ^ (1024 : ℤ) ≤ x) : round64 x = pinf := by
  have hx : (0 : α) < x := lt_of_lt_of_le (zpow_pos two_pos _) h
  have habs : |x| = x := abs_of_pos hx
  have hl : (1024 : ℤ) ≤ Int.log 2 |x| := by
    rw [habs]
    have h3 : ((2 : ℕ) : α) ^ (1024 : ℤ) ≤ x ↔ (1024 : ℤ) ≤ Int.log 2 x :=
      Int.zpow_le_iff_le_log one_lt_two hx
    rw [Nat.cast_ofNat] at h3
    exact h3.mp h
  have hexp : expo x = Int.log 2 |x| := max_eq_left (by omega)
  have hle : (2 : α) ^ (Int.log 2 |x|) ≤ x := by
    have h3 : ((2 : ℕ) : α) ^ Int.log 2 x ≤ x := Int.zpow_log_le_self one_lt_two hx
    rw [Nat.cast_ofNat] at h3
    rwa [habs]
  have hu : (0 : α) < 2 ^ (Int.log 2 |x| - 52) := zpow_pos two_pos _
  have hq : ((2 ^ 52 : ℤ) : α) ≤ x / 2 ^ (Int.log 2 |x| - 52) := by
    rw [le_div_iff₀ hu, ← two_zpow_52 (Int.log 2 |x|)]
    exact hle
  have hfl : (2 ^ 52 : ℤ) ≤ ⌊x / 2 ^ (Int.log 2 |x| - 52)⌋ := Int.le_floor.mpr hq
  have hrne : (2 ^ 52 : ℤ) ≤ rne (x / 2 ^ (Int.log 2 |x| - 52)) := by
    unfold rne
    split_ifs <;> omega
  have hy : (2 : α) ^ (1024 : ℤ)
      ≤ |(rne (x / 2 ^ (Int.log 2 |x| - 52)) : α) * 2 ^ (Int.log 2 |x| - 52)| := by
    have h5 : ((2 ^ 52 : ℤ) : α) ≤ (rne (x / 2 ^ (Int.log 2 |x| - 52)) : α) := by
      exact_mod_cast hrne
    have h6 : (0 : α) ≤ (rne (x / 2 ^ (Int.log 2 |x| - 52)) : α) :=
      le_trans (by positivity) h5
    rw [abs_of_nonneg (mul_nonneg h6 hu.le)]
    calc (2 : α) ^ (1024 : ℤ) ≤ 2 ^ (Int.log 2 |x|) := zpow_le_zpow_right₀ one_le_two hl
      _ = ((2 ^ 52 : ℤ) : α) * 2 ^ (Int.log 2 |x| - 52) := two_zpow_52 _
      _ ≤ (rne (x / 2 ^ (Int.log 2 |x| - 52)) : α) * 2 ^ (Int.log 2 |x| - 52) :=
          mul_le_mul_of_nonneg_right h5 hu.le
  unfold round64 ulp
  rw [hexp, if_pos hy, if_pos hx]

end Binary64

/-- The exponent of a nonzero number below `2 ^ (e + 1)` is at most `e`. -/
theorem expo_le [FloorRing α] (x : α) (e : ℤ) (he : -1022 ≤ e) (h0 : x ≠ 0)
    (h : |x| < (2 : α) ^ (e + 1)) : expo x ≤ e := by
  unfold expo
  refine max_le ?_ he
  have hpos : (0 : α) < |x| := abs_pos.mpr h0
  have h3 : |x| < ((2 : ℕ) : α) ^ (e + 1) ↔ Int.log 2 |x| < e + 1 :=
    Int.lt_zpow_iff_log_lt one_lt_two hpos
  rw [Nat.cast_ofNat] at h3
  have h4 := h3.mp h
  omega

/-- The rounding of a number below `2 ^ (e + 1)`, `e <= 1022`, is finite and within
`2 ^ (e - 53)` of the number. -/
theorem round64_finite [FloorRing α] (x : α) (e : ℤ) (he : -1022 ≤ e) (he2 : e ≤ 1022)
    (h : |x| < (2 : α) ^ (e + 1)) :
    ∃ y : α, round64 x = fin y ∧ |y - x| ≤ 2 ^ (e - 53) := by
  rcases eq_or_ne x 0 with h0 | h0
  · refine ⟨0, by rw [h0]; exact round64_zero, ?_⟩
    rw [h0, sub_zero, abs_zero]
    exact (zpow_pos two_pos _).le
  have h1 := expo_le x e he h0 h
  have h2 : |x| < (2 : α) ^ (expo x + 1) := by
    have h3 : |x| < ((2 : ℕ) : α) ^ (Int.log 2 |x| + 1) := Int.lt_zpow_succ_log_self one_lt_two _
    rw [Nat.cast_ofNat] at h3
    refine lt_of_lt_of_le h3 (zpow_le_zpow_right₀ one_le_two ?_)
    have h4 : Int.log 2 |x| ≤ expo x := le_max_left _ _
    omega
  have h5 : -1022 ≤ expo x := le_max_right _ _
  obtain ⟨y, hy, hd⟩ := round64_near x (expo x) rfl (by omega) h2
  exact ⟨y, hy, le_trans hd (zpow_le_zpow_right₀ one_le_two (by omega))⟩

/-! ## Evaluation in binary64 arithmetic -/

section AnyRounding2

variable [Rounding α]

theorem fin_add_fin_rnd (a b : α) : fin a + fin b = Rounding.rnd (a + b) := rfl

theorem fin_sub_fin_rnd (a b : α) : fin a - fin b = Rounding.rnd (a + -b) := rfl

theorem fin_mul_fin_rnd (a b : α) : fin a * fin b = Rounding.rnd (a * b) := rfl

theorem fin_div_fin_rnd (a b : α) (hb : b ≠ 0) : fin a / fin b = Rounding.rnd (a / b) :=
  if_neg hb

theorem exp_fin_rnd (m : CMath α) (a : α) : Dbl.exp m (fin a) = Rounding.rnd (m.exp a) := rfl

theorem erf_fin_rnd (m : CMath α) (a : α) : Dbl.erf m (fin a) = Rounding.rnd (m.erf a) := rfl

theorem log_fin_rnd (m : CMath α) (a : α) (ha : 0 < a) :
    Dbl.log m (fin a) = Rounding.rnd (m.log a) := if_pos ha

theorem sqrt_fin_rnd (m : CMath α) (a : α) (ha : 0 ≤ a) :
    Dbl.sqrt m (fin a) = Rounding.rnd (m.sqrt a) := if_pos ha

end AnyRounding2

/-- The rounding of binary64 arithmetic is `round64`. -/
theorem rnd_F64 (x : F64) : Rounding.rnd x = round64 x := rfl

theorem r64_zero : Rounding.rnd (0 : F64) = fin 0 := round64_zero

theorem r64_zpow (j : ℤ) (h1 : -1022 ≤ j) (h2 : j ≤ 1023) :
    Rounding.rnd ((2 : F64) ^ j) = fin (2 ^ j) := round64_two_zpow j h1 h2

theorem r64_neg_zpow (j : ℤ) (h1 : -1022 ≤ j) (h2 : j ≤ 1023) :
    Rounding.rnd (-(2 : F64) ^ j) = fin (-2 ^ j) := round64_neg_two_zpow j h1 h2

theorem r64_one : Rounding.rnd (1 : F64) = fin 1 := by
  have h := r64_zpow 0 (by norm_num) (by norm_num)
  rwa [zpow_zero] at h

theorem r64_two : Rounding.rnd (2 : F64) = fin 2 := by
  have h := r64_zpow 1 (by norm_num) (by norm_num)
  rwa [zpow_one] at h

theorem r64_half : Rounding.rnd (0.5 : F64) = fin 0.5 := by
  have h := r64_zpow (-1) (by norm_num) (by norm_num)
  have e : (2 : F64) ^ (-1 : ℤ) = 0.5 := by norm_num
  rwa [e] at h

theorem ieee_exp_zero : Dbl.exp ieee (fin 0) = fin 1 := by
  have e : ieee.exp 0 = 1 := Real.exp_zero
  rw [exp_fin_rnd, e, r64_one]

theorem ieee_log_one : Dbl.log ieee (fin 1) = fin 0 := by
  have e : ieee.log 1 = 0 := Real.log_one
  rw [log_fin_rnd ieee 1 one_pos, e, r64_zero]

theorem ieee_sqrt_one : Dbl.sqrt ieee (fin 1) = fin 1 := by
  have e : ieee.sqrt 1 = 1 := Real.sqrt_one
  rw [sqrt_fin_rnd ieee 1 zero_le_one, e, r64_one]

theorem ieee_sqrt_zpow (k : ℤ) (h1 : -1022 ≤ k) (h2 : k ≤ 1023) :
    Dbl.sqrt ieee (fin ((2 : F64) ^ (2 * k))) = fin (2 ^ k) := by
  have hp : (0 : ℝ) ≤ (2 : ℝ) ^ k := (zpow_pos two_pos k).le
  have e : ieee.sqrt ((2 : F64) ^ (2 * k)) = (2 : F64) ^ k := by
    show Real.sqrt ((2 : ℝ) ^ (2 * k)) = (2 : ℝ) ^ k
    rw [two_mul, zpow_add₀ two_ne_zero, Real.sqrt_mul_self hp]
  rw [sqrt_fin_rnd ieee _ (zpow_pos two_pos _).le, e, r64_zpow k h1 h2]

/-! ### The two constants in binary64 -/

/-- In binary64 the constant the engine holds is the `double` of the literal of the source: the
roundings of `1 / sqrt 2` and of `0.70710678118654752440` are the same `double`, and so are
those of `1 / sqrt (2 pi)` and of `0.3989422804014327`. -/
theorem INV_SQRT_literals_ieee :
    Rounding.rnd (INV_SQRT_2 ieee) = fin (6369051672525773 * 2 ^ (-53 : ℤ)) ∧
    Rounding.rnd (0.70710678118654752440 : F64) = fin (6369051672525773 * 2 ^ (-53 : ℤ)) ∧
    Rounding.rnd (INV_SQRT_2PI ieee) = fin (7186705221432913 * 2 ^ (-54 : ℤ)) ∧
    Rounding.rnd (0.3989422804014327 : F64) = fin (7186705221432913 * 2 ^ (-54 : ℤ)) := by
  have hbig : (1 : F64) < 2 ^ (1024 : ℤ) := one_lt_zpow₀ one_lt_two (by norm_num)
  have h53 : (2 : F64) ^ (-53 : ℤ) = 1 / 9007199254740992 := by
    rw [zpow_neg, show (53 : ℤ) = ((53 : ℕ) : ℤ) by norm_num, zpow_natCast]; norm_num
  have h54 : (2 : F64) ^ (-54 : ℤ) = 1 / 18014398509481984 := by
    rw [zpow_neg, show (54 : ℤ) = ((54 : ℕ) : ℤ) by norm_num, zpow_natCast]; norm_num
  -- every number strictly between the two neighbouring midpoints rounds to the double
  have key1 : ∀ x : F64, 12738103345051545 / 18014398509481984 < x →
      x < 12738103345051547 / 18014398509481984 →
      round64 x = fin (6369051672525773 * 2 ^ (-53 : ℤ)) := by
    intro x h1 h2
    have hexp : expo x = -1 := by
      refine expo_eq x (-1) (by norm_num) ?_ ?_
      · rw [abs_of_pos (by linarith), show (2 : F64) ^ (-1 : ℤ) = 1 / 2 by norm_num]
        linarith
      · rw [abs_of_pos (by linarith), show ((-1 : ℤ) + 1) = 0 by norm_num, zpow_zero]
        linarith
    have h := round64_eq x (-1) 6369051672525773 hexp ?_ ?_
    · rw [h, show ((-1 : ℤ) - 52) = -53 by norm_num]; norm_num
    · rw [show ((-1 : ℤ) - 52) = -53 by norm_num, h53, abs_lt]
      constructor
      · rw [div_div_eq_mul_div, div_one]; push_cast; linarith
      · rw [div_div_eq_mul_div, div_one]; push_cast; linarith
    · rw [show ((-1 : ℤ) - 52) = -53 by norm_num, h53]
      refine lt_trans ?_ hbig
      rw [abs_of_pos (by norm_num)]; norm_num
  have key2 : ∀ x : F64, 14373410442865825 / 36028797018963968 < x →
      x < 14373410442865827 / 36028797018963968 →
      round64 x = fin (7186705221432913 * 2 ^ (-54 : ℤ)) := by
    intro x h1 h2
    have hexp : expo x = -2 := by
      refine expo_eq x (-2) (by norm_num) ?_ ?_
      · rw [abs_of_pos (by linarith), show (2 : F64) ^ (-2 : ℤ) = 1 / 4 by norm_num]
        linarith
      · rw [abs_of_pos (by linarith), show ((-2 : ℤ) + 1) = -1 by norm_num,
          show (2 : F64) ^ (-1 : ℤ) = 1 / 2 by norm_num]
        linarith
    have h := round64_eq x (-2) 7186705221432913 hexp ?_ ?_
    · rw [h, show ((-2 : ℤ) - 52) = -54 by norm_num]; norm_num
    · rw [show ((-2 : ℤ) - 52) = -54 by norm_num, h54, abs_lt]
      constructor
      · rw [div_div_eq_mul_div, div_one]; push_cast; linarith
      · rw [div_div_eq_mul_div, div_one]; push_cast; linarith
    · rw [show ((-2 : ℤ) - 52) = -54 by norm_num, h54]
      refine lt_trans ?_ hbig
      rw [abs_of_pos (by norm_num)]; norm_num
  -- a number between two positive bounds has its inverse square root between theirs
  have inv_sqrt : ∀ (t lo hi : ℝ), 0 < t → 0 < lo → 0 < hi → lo ^ 2 * t < 1 → 1 < hi ^ 2 * t →
      lo < 1 / Real.sqrt t ∧ 1 / Real.sqrt t < hi := by
    intro t lo hi ht hlo hhi h1 h2
    have hs : 0 < Real.sqrt t := Real.sqrt_pos.mpr ht
    have hsq : Real.sqrt t ^ 2 = t := Real.sq_sqrt ht.le
    constructor
    · rw [lt_div_iff₀ hs]
      by_contra hc
      have h3 : (1 : ℝ) ^ 2 ≤ (lo * Real.sqrt t) ^ 2 :=
        pow_le_pow_left₀ zero_le_one (not_lt.mp hc) 2
      rw [mul_pow, hsq] at h3
      linarith
    · rw [div_lt_iff₀ hs]
      by_contra hc
      have h3 : (hi * Real.sqrt t) ^ 2 ≤ (1 : ℝ) ^ 2 :=
        pow_le_pow_left₀ (by positivity) (not_lt.mp hc) 2
      rw [mul_pow, hsq] at h3
      linarith
  refine ⟨?_, ?_, ?_, ?_⟩
  · obtain ⟨h1, h2⟩ := inv_sqrt 2 (12738103345051545 / 18014398509481984)
      (12738103345051547 / 18014398509481984) (by norm_num) (by norm_num) (by norm_num)
      (by norm_num) (by norm_num)
    exact key1 _ h1 h2
  · exact key1 _ (by norm_num) (by norm_num)
  · have hp1 := Real.pi_gt_d20
    have hp2 := Real.pi_lt_d20
    obtain ⟨h1, h2⟩ := inv_sqrt (2 * Real.pi) (14373410442865825 / 36028797018963968)
      (14373410442865827 / 36028797018963968) (by positivity) (by norm_num) (by norm_num)
      (by
        have e : (14373410442865825 / 36028797018963968 : ℝ) ^ 2 * (2 * Real.pi)
            < (14373410442865825 / 36028797018963968) ^ 2 * (2 * 3.14159265358979323847) := by
          apply mul_lt_mul_of_pos_left _ (by norm_num)
          linarith
        refine lt_trans e ?_
        norm_num)
      (by
        have e : (14373410442865827 / 36028797018963968 : ℝ) ^ 2 * (2 * 3.14159265358979323846)
            < (14373410442865827 / 36028797018963968) ^ 2 * (2 * Real.pi) := by
          apply mul_lt_mul_of_pos_left _ (by norm_num)
          linarith
        refine lt_trans ?_ e
        norm_num)
    exact key2 _ h1 h2
  · exact key2 _ (by norm_num) (by norm_num)

/-- The `double` held for `INV_SQRT_2` lies between 0.7 and 0.72, the one held for
`INV_SQRT_2PI` between 0.39 and 0.4. -/
theorem INV_SQRT_ieee_fin :
    (∃ c : F64, Rounding.rnd (INV_SQRT_2 ieee) = fin c ∧ 0.7 < c ∧ c < 0.72) ∧
    (∃ c : F64, Rounding.rnd (INV_SQRT_2PI ieee) = fin c ∧ 0.39 < c ∧ c < 0.4) := by
  obtain ⟨h1, -, h2, -⟩ := INV_SQRT_literals_ieee
  have h53 : (2 : F64) ^ (-53 : ℤ) = 1 / 9007199254740992 := by
    rw [zpow_neg, show (53 : ℤ) = ((53 : ℕ) : ℤ) by norm_num, zpow_natCast]; norm_num
  have h54 : (2 : F64) ^ (-54 : ℤ) = 1 / 18014398509481984 := by
    rw [zpow_neg, show (54 : ℤ) = ((54 : ℕ) : ℤ) by norm_num, zpow_natCast]; norm_num
  refine ⟨⟨_, h1, ?_, ?_⟩, ⟨_, h2, ?_, ?_⟩⟩
  · rw [h53]; norm_num
  · rw [h53]; norm_num
  · rw [h54]; norm_num
  · rw [h54]; norm_num

theorem ieee_norm_cdf_special :
    norm_cdf ieee pinf = fin 1 ∧ norm_cdf ieee ninf = fin 0 ∧ norm_cdf ieee nan = nan ∧
    norm_cdf ieee (fin 0) = fin 0.5 := by
  obtain ⟨⟨c, hc, hc1, hc2⟩, -⟩ := INV_SQRT_ieee_fin
  have hc0 : 0 < c := by linarith
  have h1 : (pinf : Dbl F64) * fin c = pinf := Dbl.pinf_mul_fin _ hc0
  have h2 : (ninf : Dbl F64) * fin c = ninf := Dbl.ninf_mul_fin _ hc0
  have e : (0.5 : F64) * 2 = 1 := by norm_num
  have e0 : ieee.erf 0 = 0 := erf_zero
  refine ⟨?_, ?_, ?_, ?_⟩
  · show fin 0.5 * (fin 1 + Dbl.erf ieee (pinf * Rounding.rnd (INV_SQRT_2 ieee))) = fin 1
    rw [hc, h1, Dbl.erf_pinf, fin_add_fin_rnd, one_add_one_eq_two, r64_two, fin_mul_fin_rnd, e,
      r64_one]
  · show fin 0.5 * (fin 1 + Dbl.erf ieee (ninf * Rounding.rnd (INV_SQRT_2 ieee))) = fin 0
    rw [hc, h2, Dbl.erf_ninf, fin_add_fin_rnd, add_neg_cancel, r64_zero, fin_mul_fin_rnd,
      mul_zero, r64_zero]
  · show fin 0.5 * (fin 1 + Dbl.erf ieee (nan * Rounding.rnd (INV_SQRT_2 ieee))) = nan
    rw [hc]; rfl
  · show fin 0.5 * (fin 1 + Dbl.erf ieee (fin 0 * Rounding.rnd (INV_SQRT_2 ieee))) = fin 0.5
    rw [hc, fin_mul_fin_rnd, zero_mul, r64_zero, erf_fin_rnd, e0, r64_zero, fin_add_fin_rnd,
      add_zero, r64_one, fin_mul_fin_rnd, mul_one, r64_half]

theorem ieee_norm_pdf_pinf : norm_pdf ieee pinf = fin 0 := by
  obtain ⟨-, c, hc, -, -⟩ := INV_SQRT_ieee_fin
  have h1 : ¬ ((0 : F64) < -0.5) := by norm_num
  have h2 : (-0.5 : F64) < 0 := by norm_num
  have e : (fin (-0.5) : Dbl F64) * pinf = ninf := by
    show (if (0 : F64) < -0.5 then pinf else if (-0.5 : F64) < 0 then ninf else nan) = ninf
    rw [if_neg h1, if_pos h2]
  show Rounding.rnd (INV_SQRT_2PI ieee) * Dbl.exp ieee (fin (-0.5) * pinf * pinf) = fin 0
  rw [e, hc]
  show fin c * fin 0 = fin 0
  rw [fin_mul_fin_rnd, mul_zero, r64_zero]

/-! ### Rounding keeps bounds -/

section Binary64b

variable [FloorRing α]

/-- Rounding to the nearest integer does not cross an integer. -/
theorem rne_int_bounds (q : α) (n : ℤ) :
    ((n : α) ≤ q → n ≤ rne q) ∧ (q ≤ (n : α) → rne q ≤ n) := by
  have h1 := Int.floor_le q
  have h2 := Int.lt_floor_add_one q
  constructor
  · intro h
    have hf : n ≤ ⌊q⌋ := Int.le_floor.mpr h
    unfold rne
    split_ifs <;> omega
  · intro h
    rcases (Int.floor_mono h).eq_or_lt with hf | hf
    · rw [Int.floor_intCast] at hf
      have hq : q = (n : α) := le_antisymm h (by rw [← hf]; exact h1)
      have hz : q - (⌊q⌋ : α) < 1 / 2 := by rw [hf, hq, sub_self]; norm_num
      unfold rne
      rw [if_pos hz, hf]
    · rw [Int.floor_intCast] at hf
      unfold rne
      split_ifs <;> omega

/-- A tie above an odd integer is rounded up, to the even one. -/
theorem rne_half_odd (n : ℤ) (hodd : n % 2 = 1) : rne ((n : α) + 1 / 2) = n + 1 := by
  have hf : ⌊(n : α) + 1 / 2⌋ = n :=
    Int.floor_eq_iff.mpr ⟨by linarith, by linarith⟩
  have e : (n : α) + 1 / 2 - (n : α) = 1 / 2 := by ring
  unfold rne
  rw [hf, e, if_neg (lt_irrefl _), if_neg (lt_irrefl _), if_neg (by omega)]

/-- The rounding of a number of absolute value at most `2 ^ k` is finite, of absolute value at
most `2 ^ k`, of the same sign, and within `2 ^ (k - 54)` of the number. -/
theorem round64_bounded (x : α) (k : ℤ) (hk1 : -1021 ≤ k) (hk2 : k ≤ 1023)
    (h : |x| ≤ (2 : α) ^ k) :
    ∃ y : α, round64 x = fin y ∧ |y| ≤ 2 ^ k ∧ |y - x| ≤ 2 ^ (k - 54) ∧
      (0 ≤ x → 0 ≤ y) ∧ (x ≤ 0 → y ≤ 0) := by
  have hk0 : (0 : α) < 2 ^ k := zpow_pos two_pos k
  have hz : (0 : α) ≤ 2 ^ (k - 54) := (zpow_pos two_pos _).le
  rcases eq_or_ne x 0 with h0 | h0
  · refine ⟨0, by rw [h0]; exact round64_zero, ?_, ?_, fun _ => le_rfl, fun _ => le_rfl⟩
    · rw [abs_zero]; exact hk0.le
    · rw [h0, sub_zero, abs_zero]; exact hz
  rcases h.eq_or_lt with he | hlt
  · rcases abs_choice x with hx | hx
    · rw [hx] at he
      refine ⟨x, by rw [he]; exact round64_two_zpow k (by omega) hk2, ?_, ?_, fun h => h,
        fun h => h⟩
      · rw [he, abs_of_pos hk0]
      · rw [sub_self, abs_zero]; exact hz
    · rw [hx] at he
      have hxe : x = -2 ^ k := by rw [← he, neg_neg]
      refine ⟨x, by rw [hxe]; exact round64_neg_two_zpow k (by omega) hk2, ?_, ?_, fun h => h,
        fun h => h⟩
      · rw [hxe, abs_neg, abs_of_pos hk0]
      · rw [sub_self, abs_zero]; exact hz
  · have hlt2 : |x| < (2 : α) ^ (k - 1 + 1) := by rwa [sub_add_cancel]
    have he1 : expo x ≤ k - 1 := expo_le x (k - 1) (by omega) h0 hlt2
    have he0 : -1022 ≤ expo x := le_max_right _ _
    have hu : (0 : α) < 2 ^ (expo x - 52) := zpow_pos two_pos _
    -- the bound 2 ^ k is the integer N times the unit in the last place
    obtain ⟨N, hN⟩ : ∃ N : ℤ, (N : α) * 2 ^ (expo x - 52) = 2 ^ k := by
      refine ⟨2 ^ (k - (expo x - 52)).toNat, ?_⟩
      rw [Int.cast_pow, Int.cast_ofNat, ← zpow_natCast, ← zpow_add₀ two_ne_zero,
        Int.toNat_of_nonneg (by omega)]
      congr 1
      omega
    obtain ⟨hx1, hx2⟩ := abs_le.mp h
    have hq1 : ((-N : ℤ) : α) ≤ x / 2 ^ (expo x - 52) := by
      rw [le_div_iff₀ hu, Int.cast_neg, neg_mul, hN]; exact hx1
    have hq2 : x / 2 ^ (expo x - 52) ≤ (N : α) := by
      rw [div_le_iff₀ hu, hN]; exact hx2
    have hr1 := (rne_int_bounds (x / 2 ^ (expo x - 52)) (-N)).1 hq1
    have hr2 := (rne_int_bounds (x / 2 ^ (expo x - 52)) N).2 hq2
    have hy : |(rne (x / 2 ^ (expo x - 52)) : α) * 2 ^ (expo x - 52)| ≤ 2 ^ k := by
      rw [← hN, abs_mul, abs_of_pos hu]
      refine mul_le_mul_of_nonneg_right ?_ hu.le
      rw [abs_le]
      constructor
      · have : ((-N : ℤ) : α) ≤ (rne (x / 2 ^ (expo x - 52)) : α) := Int.cast_le.mpr hr1
        rwa [Int.cast_neg] at this
      · exact Int.cast_le.mpr hr2
    have hbig : (2 : α) ^ k < 2 ^ (1024 : ℤ) := zpow_lt_zpow_right₀ one_lt_two (by omega)
    obtain ⟨y, hy1, hy2⟩ := round64_finite x (k - 1) (by omega) (by omega) hlt2
    have hyv : round64 x = fin ((rne (x / 2 ^ (expo x - 52)) : α) * 2 ^ (expo x - 52)) := by
      unfold round64 ulp
      rw [if_neg (not_le.mpr (lt_of_le_of_lt hy hbig))]
    have hyy : y = (rne (x / 2 ^ (expo x - 52)) : α) * 2 ^ (expo x - 52) := by
      rw [hy1] at hyv
      exact Dbl.fin.inj hyv
    refine ⟨y, hy1, by rw [hyy]; exact hy, ?_, ?_, ?_⟩
    · rw [show k - 54 = k - 1 - 53 by ring]; exact hy2
    · intro hx0
      have hq0 : ((0 : ℤ) : α) ≤ x / 2 ^ (expo x - 52) := by
        rw [Int.cast_zero]; exact div_nonneg hx0 hu.le
      have := (rne_int_bounds (x / 2 ^ (expo x - 52)) 0).1 hq0
      rw [hyy]
      exact mul_nonneg (Int.cast_nonneg.mpr this) hu.le
    · intro hx0
      have hq0 : x / 2 ^ (expo x - 52) ≤ ((0 : ℤ) : α) := by
        rw [Int.cast_zero]; exact div_nonpos_of_nonpos_of_nonneg hx0 hu.le
      have := (rne_int_bounds (x / 2 ^ (expo x - 52)) 0).2 hq0
      rw [hyy]
      exact mul_nonpos_of_nonpos_of_nonneg (Int.cast_nonpos.mpr this) hu.le

/-- A number within `2 ^ -54` of 1 is rounded to 1; half a unit below 1 is a tie, and 1 is
its even neighbour. -/
theorem round64_one_add (d : α) (h : |d| ≤ 2 ^ (-54 : ℤ)) : round64 (1 + d) = fin 1 := by
  have hbig : (1 : α) < 2 ^ (1024 : ℤ) := one_lt_zpow₀ one_lt_two (by norm_num)
  have hone52 : ((2 ^ 52 : ℤ) : α) * 2 ^ ((0 : ℤ) - 52) = 1 := by
    rw [Int.cast_pow, Int.cast_ofNat, ← zpow_natCast, ← zpow_add₀ two_ne_zero]; norm_num
  have hone53 : ((2 ^ 53 : ℤ) : α) * 2 ^ ((-1 : ℤ) - 52) = 1 := by
    rw [Int.cast_pow, Int.cast_ofNat, ← zpow_natCast, ← zpow_add₀ two_ne_zero]; norm_num
  obtain ⟨u, hudef⟩ : ∃ u : α, u = 2 ^ (-54 : ℤ) := ⟨_, rfl⟩
  have h54 : u ≤ 1 / 8 := by
    rw [hudef, show (1 / 8 : α) = 2 ^ (-3 : ℤ) by norm_num]
    exact zpow_le_zpow_right₀ one_le_two (by norm_num)
  have e52 : (2 : α) ^ ((0 : ℤ) - 52) = 4 * u := by
    rw [hudef, show ((0 : ℤ) - 52) = (-54) + 2 by norm_num, zpow_add₀ two_ne_zero]; norm_num
  have e53 : (2 : α) ^ ((-1 : ℤ) - 52) = 2 * u := by
    rw [hudef, show ((-1 : ℤ) - 52) = (-54) + 1 by norm_num, zpow_add_one₀ two_ne_zero]; ring
  have hu : (0 : α) < u := by rw [hudef]; exact zpow_pos two_pos _
  rw [← hudef] at h
  obtain ⟨h1, h2⟩ := abs_le.mp h
  have hp : 0 < 1 + d := by linarith
  rcases le_or_lt 0 d with hd | hd
  · -- at 1 or above: the unit in the last place is 2 ^ -52
    have hexp : expo (1 + d) = 0 := by
      refine expo_eq (1 + d) 0 (by norm_num) ?_ ?_
      · rw [abs_of_pos hp, zpow_zero]; linarith
      · rw [abs_of_pos hp, show ((0 : ℤ) + 1) = 1 by norm_num, zpow_one]; linarith
    have hq := round64_eq (1 + d) 0 (2 ^ 52) hexp ?_ ?_
    · rw [hq, hone52]
    · have e3 : (1 + d) / 2 ^ ((0 : ℤ) - 52) - ((2 ^ 52 : ℤ) : α)
          = d / 2 ^ ((0 : ℤ) - 52) := by
        rw [eq_div_iff (zpow_pos two_pos _).ne', sub_mul,
          div_mul_cancel₀ _ (zpow_pos two_pos _).ne', hone52]
        ring
      have h4u : (0 : α) < 4 * u := by linarith
      rw [e3, e52, abs_of_nonneg (div_nonneg hd h4u.le), div_lt_iff₀ h4u]
      linarith
    · rw [hone52, abs_one]; exact hbig
  · have hexp : expo (1 + d) = -1 := by
      refine expo_eq (1 + d) (-1) (by norm_num) ?_ ?_
      · rw [abs_of_pos hp, show (2 : α) ^ (-1 : ℤ) = 1 / 2 by norm_num]; linarith
      · rw [abs_of_pos hp, show ((-1 : ℤ) + 1) = 0 by norm_num, zpow_zero]
        linarith
    have h2u : (0 : α) < 2 * u := by linarith
    rcases h1.eq_or_lt with ht | ht
    · -- the tie
      have hq : (1 + d) / 2 ^ ((-1 : ℤ) - 52) = (((2 ^ 53 - 1 : ℤ) : ℤ) : α) + 1 / 2 := by
        rw [div_eq_iff (zpow_pos two_pos _).ne', add_mul, Int.cast_sub, Int.cast_one, sub_mul,
          hone53, e53, ← ht]
        ring
      unfold round64 ulp
      rw [hexp, hq, rne_half_odd _ (by norm_num), show ((2 : ℤ) ^ 53 - 1 + 1) = 2 ^ 53 by ring,
        hone53, abs_one, if_neg (not_le.mpr hbig)]
    · have hq := round64_eq (1 + d) (-1) (2 ^ 53) hexp ?_ ?_
      · rw [hq, hone53]
      · have e3 : (1 + d) / 2 ^ ((-1 : ℤ) - 52) - ((2 ^ 53 : ℤ) : α)
            = d / 2 ^ ((-1 : ℤ) - 52) := by
          rw [eq_div_iff (zpow_pos two_pos _).ne', sub_mul,
            div_mul_cancel₀ _ (zpow_pos two_pos _).ne', hone53]
          ring
        rw [e3, e53, abs_of_neg (div_neg_of_neg_of_pos hd h2u), ← neg_div,
          div_lt_iff₀ h2u]
        linarith
      · rw [hone53, abs_one]; exact hbig

end Binary64b

/-! ### Symmetry and idempotence of the rounding -/

section Binary64c

variable [FloorRing α]

/-- What `rne` returns: an integer within a half of the number, the even one on a tie. -/
theorem rne_spec (q : α) :
    |(rne q : α) - q| < 1 / 2 ∨ (|(rne q : α) - q| = 1 / 2 ∧ rne q % 2 = 0) := by
  have h1 := Int.floor_le q
  have h2 := Int.lt_floor_add_one q
  unfold rne
  split_ifs with a b c
  · left; rw [abs_lt]; constructor <;> linarith
  · left; rw [abs_lt]; push_cast; constructor <;> linarith
  · right
    have e : q - (⌊q⌋ : α) = 1 / 2 := le_antisymm (not_lt.mp b) (not_lt.mp a)
    refine ⟨?_, c⟩
    rw [abs_sub_comm, e]; norm_num
  · right
    have e : q - (⌊q⌋ : α) = 1 / 2 := le_antisymm (not_lt.mp b) (not_lt.mp a)
    refine ⟨?_, by omega⟩
    have e2 : ((⌊q⌋ + 1 : ℤ) : α) - q = 1 / 2 := by push_cast; linarith
    rw [e2]; norm_num

/-- The integer within a half of a number, even on a tie, is what `rne` returns. -/
theorem rne_unique (q : α) (n : ℤ)
    (h : |(n : α) - q| < 1 / 2 ∨ (|(n : α) - q| = 1 / 2 ∧ n % 2 = 0)) : rne q = n := by
  rcases h with h | ⟨h, hev⟩
  · exact rne_eq_of_abs_lt q n (by rwa [abs_sub_comm])
  · rcases abs_choice ((n : α) - q) with hc | hc
    · -- q is a half below n
      rw [hc] at h
      have hf : ⌊q⌋ = n - 1 :=
        Int.floor_eq_iff.mpr ⟨by push_cast; linarith, by push_cast; linarith⟩
      have e : q - ((n - 1 : ℤ) : α) = 1 / 2 := by push_cast; linarith
      unfold rne
      rw [hf, e, if_neg (lt_irrefl _), if_neg (lt_irrefl _), if_neg (by omega)]
      ring
    · rw [hc] at h
      have hf : ⌊q⌋ = n := Int.floor_eq_iff.mpr ⟨by linarith, by linarith⟩
      have e : q - (n : α) = 1 / 2 := by linarith
      unfold rne
      rw [hf, e, if_neg (lt_irrefl _), if_neg (lt_irrefl _), if_pos hev]

theorem rne_neg (q : α) : rne (-q) = -rne q := by
  refine rne_unique (-q) (-rne q) ?_
  have e : ((-rne q : ℤ) : α) - -q = -((rne q : α) - q) := by push_cast; ring
  rw [e, abs_neg]
  rcases rne_spec q with h | ⟨h, hev⟩
  · exact Or.inl h
  · exact Or.inr ⟨h, by omega⟩

theorem rne_intCast (n : ℤ) : rne (n : α) = n :=
  rne_eq_of_abs_lt _ n (by rw [sub_self, abs_zero]; norm_num)

/-- The rounding is odd: the `double`s are symmetric about zero. -/
theorem round64_neg (x : α) : round64 (-x) = -round64 x := by
  have hu : (0 : α) < 2 ^ (expo x - 52) := zpow_pos two_pos _
  have hexp : expo (-x) = expo x := by unfold expo; rw [abs_neg]
  have e1 : (rne (-x / 2 ^ (expo x - 52)) : α) = -(rne (x / 2 ^ (expo x - 52)) : α) := by
    rw [neg_div, rne_neg, Int.cast_neg]
  unfold round64 ulp
  rw [hexp, e1, neg_mul, abs_neg]
  by_cases hov : (2 : α) ^ (1024 : ℤ) ≤ |(rne (x / 2 ^ (expo x - 52)) : α) * 2 ^ (expo x - 52)|
  · rw [if_pos hov, if_pos hov]
    have hx0 : x ≠ 0 := by
      intro h0
      rw [h0, zero_div, show (0 : α) = ((0 : ℤ) : α) by norm_num, rne_intCast] at hov
      simp at hov
      exact absurd hov (not_le.mpr (zpow_pos two_pos _))
    rcases lt_or_gt_of_ne hx0 with hneg | hpos
    · rw [if_pos (by linarith : 0 < -x), if_neg (by linarith : ¬ 0 < x)]; rfl
    · rw [if_neg (by linarith : ¬ 0 < -x), if_pos hpos]; rfl
  · rw [if_neg hov, if_neg hov]; rfl

/-- The exponent brackets the number: `|x| < 2 ^ (expo x + 1)`, and `2 ^ expo x <= |x|` for a
number not below the normal range. -/
theorem expo_spec (x : α) :
    -1022 ≤ expo x ∧ |x| < (2 : α) ^ (expo x + 1) ∧
    ((2 : α) ^ (-1022 : ℤ) ≤ |x| → (2 : α) ^ expo x ≤ |x|) := by
  have h5 : -1022 ≤ expo x := le_max_right _ _
  have h4 : Int.log 2 |x| ≤ expo x := le_max_left _ _
  refine ⟨h5, ?_, ?_⟩
  · have h3 : |x| < ((2 : ℕ) : α) ^ (Int.log 2 |x| + 1) := Int.lt_zpow_succ_log_self one_lt_two _
    rw [Nat.cast_ofNat] at h3
    exact lt_of_lt_of_le h3 (zpow_le_zpow_right₀ one_le_two (by omega))
  · intro h
    have hpos : (0 : α) < |x| := lt_of_lt_of_le (zpow_pos two_pos _) h
    have h6 : ((2 : ℕ) : α) ^ (-1022 : ℤ) ≤ |x| ↔ (-1022 : ℤ) ≤ Int.log 2 |x| :=
      Int.zpow_le_iff_le_log one_lt_two hpos
    rw [Nat.cast_ofNat] at h6
    have h7 := h6.mp h
    have h8 : expo x = Int.log 2 |x| := max_eq_left h7
    have h9 : ((2 : ℕ) : α) ^ Int.log 2 |x| ≤ |x| := Int.zpow_log_le_self one_lt_two hpos
    rw [Nat.cast_ofNat] at h9
    rw [h8]
    exact h9

/-- From `2 ^ j` up in the normal range, the rounding is an infinity or a number that is
still at least `2 ^ j`. -/
theorem round64_ge_zpow (x : α) (j : ℤ) (hj : -1022 ≤ j) (h : (2 : α) ^ j ≤ x) :
    round64 x = pinf ∨ ∃ y : α, round64 x = fin y ∧ 2 ^ j ≤ y := by
  have hx0 : 0 < x := lt_of_lt_of_le (zpow_pos two_pos _) h
  have hu : (0 : α) < 2 ^ (expo x - 52) := zpow_pos two_pos _
  obtain ⟨-, hhi, hlo⟩ := expo_spec x
  rw [abs_of_pos hx0] at hhi hlo
  have hlo2 : (2 : α) ^ expo x ≤ x :=
    hlo (le_trans (zpow_le_zpow_right₀ one_le_two hj) h)
  have hje : j ≤ expo x := by
    by_contra hc
    have : (2 : α) ^ (expo x + 1) ≤ 2 ^ j := zpow_le_zpow_right₀ one_le_two (by omega)
    linarith
  have hq : ((2 ^ 52 : ℤ) : α) ≤ x / 2 ^ (expo x - 52) := by
    rw [le_div_iff₀ hu, ← two_zpow_52]; exact hlo2
  have hn := (rne_int_bounds (x / 2 ^ (expo x - 52)) (2 ^ 52)).1 hq
  have hy : (2 : α) ^ j ≤ (rne (x / 2 ^ (expo x - 52)) : α) * 2 ^ (expo x - 52) := by
    refine le_trans (zpow_le_zpow_right₀ one_le_two hje) ?_
    rw [two_zpow_52 (expo x)]
    exact mul_le_mul_of_nonneg_right (Int.cast_le.mpr hn) hu.le
  unfold round64 ulp
  split_ifs with a
  · exact Or.inl rfl
  · exact Or.inr ⟨_, rfl, hy⟩

end Binary64c

/-! ## Overflow of `sigma * sigma`: the fallback of `price` at a huge volatility -/

/-- In binary64, at `sigma = 2 ^ 700` the product `0.5 * sigma * sigma` overflows, `d1` and
`d2` are `+inf`, and the call on a spot between 1/2 and 3/4 with strike 1 is priced by the
fallback, at 0, while its delta is 1. -/
theorem price_ieee_huge_vol (S : F64) (h1 : 1 / 2 < S) (h2 : S < 3 / 4) :
    d1d2 ieee (fin S) (fin 1) (fin 0) (fin (2 ^ (700 : ℤ))) (fin 1) = (pinf, pinf) ∧
    price ieee OptionType.Call (fin S) (fin 1) (fin 0) (fin (2 ^ (700 : ℤ))) (fin 1)
      = Except.ok (fin 0) ∧
    delta ieee OptionType.Call (fin S) (fin 1) (fin 0) (fin (2 ^ (700 : ℤ))) (fin 1)
      = Except.ok (fin 1) := by
  have hs : (0 : F64) < 2 ^ (700 : ℤ) := zpow_pos two_pos _
  have hS : (0 : F64) < S := lt_trans (by norm_num) h1
  -- the quotient S / K and its logarithm are finite
  have hu : ∀ k : ℤ, k ≤ -3 → (2 : F64) ^ k ≤ 1 / 8 := fun k hk => by
    rw [show (1 / 8 : F64) = 2 ^ (-3 : ℤ) by norm_num]
    exact zpow_le_zpow_right₀ one_le_two hk
  obtain ⟨y, hy, hyd⟩ := round64_finite S (-1) (by norm_num) (by norm_num)
    (by rw [abs_of_pos hS]; norm_num; linarith)
  obtain ⟨hy1, hy2⟩ := abs_le.mp (le_trans hyd (hu _ (by norm_num)))
  have hy0 : 0 < y := by linarith
  have hdiv : (fin S : Dbl F64) / fin 1 = fin y := by
    rw [fin_div_fin_rnd _ _ one_ne_zero, div_one, rnd_F64, hy]
  have hlog : ∃ z : F64, Dbl.log ieee (fin y) = fin z := by
    have h6 : ieee.log y ≤ y - 1 := Real.log_le_sub_one_of_pos hy0
    have h7 : 1 - y⁻¹ ≤ ieee.log y := Real.one_sub_inv_le_log_of_pos hy0
    have h8 : y⁻¹ < 3 := by
      rw [inv_lt_comm₀ hy0 (by norm_num)]
      linarith
    have h3 : |ieee.log y| < (2 : F64) ^ ((0 : ℤ) + 1) := by
      rw [abs_lt]
      constructor <;> norm_num <;> linarith
    obtain ⟨z, hz, -⟩ := round64_finite (ieee.log y) 0 (by norm_num) (by norm_num) h3
    exact ⟨z, by rw [log_fin_rnd ieee y hy0, rnd_F64, hz]⟩
  obtain ⟨z, hz⟩ := hlog
  -- the overflow
  have hm1 : (fin (0.5 : F64) : Dbl F64) * fin (2 ^ (700 : ℤ)) = fin (2 ^ (699 : ℤ)) := by
    have e : (0.5 : F64) * 2 ^ (700 : ℤ) = 2 ^ (699 : ℤ) := by
      rw [show (0.5 : F64) = 2 ^ (-1 : ℤ) by norm_num, ← zpow_add₀ two_ne_zero]
      norm_num
    rw [fin_mul_fin_rnd, e, r64_zpow 699 (by norm_num) (by norm_num)]
  have hm2 : (fin ((2 : F64) ^ (699 : ℤ)) : Dbl F64) * fin (2 ^ (700 : ℤ)) = pinf := by
    rw [fin_mul_fin_rnd, ← zpow_add₀ two_ne_zero, rnd_F64]
    exact round64_overflow _ (zpow_le_zpow_right₀ one_le_two (by norm_num))
  have hm3 : (fin ((2 : F64) ^ (700 : ℤ)) : Dbl F64) * fin 1 = fin (2 ^ (700 : ℤ)) := by
    rw [fin_mul_fin_rnd, mul_one, r64_zpow 700 (by norm_num) (by norm_num)]
  have hd : d1d2 ieee (fin S) (fin 1) (fin 0) (fin (2 ^ (700 : ℤ))) (fin 1) = (pinf, pinf) := by
    have hg : ¬ ((fin (1 : F64) : Dbl F64) ≤ fin 0 ∨
        Dbl.eq (fin ((2 : F64) ^ (700 : ℤ))) (fin 0) = true) := by
      simp [hs.ne']
    unfold d1d2
    rw [if_neg hg]
    simp only [hdiv, hz, hm1, hm2, ieee_sqrt_one, hm3]
    have e1 : (fin (0 : F64) : Dbl F64) + pinf = pinf := rfl
    have e2 : (pinf : Dbl F64) * fin 1 = pinf := Dbl.pinf_mul_fin 1 one_pos
    have e3 : (fin z : Dbl F64) + pinf = pinf := rfl
    have e4 : (pinf : Dbl F64) / fin (2 ^ (700 : ℤ)) = pinf := if_neg (not_lt.mpr hs.le)
    have e5 : (pinf : Dbl F64) - fin (2 ^ (700 : ℤ)) = pinf := rfl
    rw [e1, e2, e3, e4, e5]
  refine ⟨hd, ?_, ?_⟩
  swap
  · simp [delta, check_inputs_valid hS one_pos hs.le zero_le_one, hd, ieee_norm_cdf_special.1]
  -- the fallback
  obtain ⟨w, hw, hwd⟩ := round64_finite (S + -1) 0 (by norm_num) (by norm_num)
    (by rw [abs_lt]; constructor <;> norm_num <;> linarith)
  obtain ⟨hw1, hw2⟩ := abs_le.mp (le_trans hwd (hu _ (by norm_num)))
  have hw0 : w < 0 := by linarith
  have hsub : (fin S : Dbl F64) - fin 1 = fin w := by
    rw [fin_sub_fin_rnd, rnd_F64, hw]
  have hmax : Dbl.max (fin (0 : F64)) (fin w) = fin 0 :=
    if_neg (fun h => absurd ((Dbl.fin_lt_fin 0 w).mp h) (not_lt.mpr hw0.le))
  simp [price, check_inputs_valid hS one_pos hs.le zero_le_one, hd, fin_mul_fin_rnd, r64_zero,
    ieee_exp_zero, r64_one, hsub, hmax]

/-! ## Underflow: `sigma * sqrtT` and `S / K` rounded to zero -/

/-- In binary64, at `sigma = 2 ^ -600` and `T = 2 ^ -1000` the products `0.5 * sigma * sigma`
and `sigma * sqrtT` underflow to zero: `d1` is `0 / 0`, and `d1`, `d2` and both deltas are
NaN. -/
theorem delta_ieee_underflow :
    (fin ((2 : F64) ^ (-600 : ℤ)) : Dbl F64) * Dbl.sqrt ieee (fin (2 ^ (-1000 : ℤ))) = fin 0 ∧
    d1d2 ieee (fin 1) (fin 1) (fin 0) (fin (2 ^ (-600 : ℤ))) (fin (2 ^ (-1000 : ℤ)))
      = (nan, nan) ∧
    delta ieee OptionType.Call (fin 1) (fin 1) (fin 0) (fin (2 ^ (-600 : ℤ)))
      (fin (2 ^ (-1000 : ℤ))) = Except.ok nan ∧
    delta ieee OptionType.Put (fin 1) (fin 1) (fin 0) (fin (2 ^ (-600 : ℤ)))
      (fin (2 ^ (-1000 : ℤ))) = Except.ok nan := by
  -- the two inputs as atoms
  obtain ⟨s, hs⟩ : ∃ s : F64, s = 2 ^ (-600 : ℤ) := ⟨_, rfl⟩
  obtain ⟨T, hT⟩ : ∃ T : F64, T = 2 ^ (-1000 : ℤ) := ⟨_, rfl⟩
  obtain ⟨q, hq⟩ : ∃ q : F64, q = 2 ^ (-500 : ℤ) := ⟨_, rfl⟩
  rw [← hs, ← hT]
  have hs0 : (0 : F64) < s := by rw [hs]; exact zpow_pos two_pos _
  have hT0 : (0 : F64) < T := by rw [hT]; exact zpow_pos two_pos _
  have hsqrt : Dbl.sqrt ieee (fin T) = fin q := by
    have h := ieee_sqrt_zpow (-500) (by norm_num) (by norm_num)
    rwa [show (2 : ℤ) * (-500) = -1000 by norm_num, ← hT, ← hq] at h
  have hdiv : (fin (1 : F64) : Dbl F64) / fin 1 = fin 1 := by
    rw [fin_div_fin_rnd _ _ one_ne_zero, div_one, r64_one]
  have hm2 : Rounding.rnd (0.5 * s) * fin s = fin 0 := by
    have e : (0.5 : F64) * 2 ^ (-600 : ℤ) = 2 ^ (-601 : ℤ) := by
      rw [show (0.5 : F64) = 2 ^ (-1 : ℤ) by norm_num, ← zpow_add₀ two_ne_zero]
      norm_num
    rw [hs, e, r64_zpow (-601) (by norm_num) (by norm_num), fin_mul_fin_rnd,
      ← zpow_add₀ two_ne_zero, rnd_F64]
    refine round64_underflow _ ?_
    rw [abs_of_pos (zpow_pos two_pos _)]
    exact zpow_lt_zpow_right₀ one_lt_two (by norm_num)
  have hm3 : (fin s : Dbl F64) * fin q = fin 0 := by
    rw [hs, hq, fin_mul_fin_rnd, ← zpow_add₀ two_ne_zero, rnd_F64]
    refine round64_underflow _ ?_
    rw [abs_of_pos (zpow_pos two_pos _)]
    exact zpow_lt_zpow_right₀ one_lt_two (by norm_num)
  have hm4 : (fin (0 : F64) : Dbl F64) / fin 0 = nan := by
    show (if (0 : F64) = 0 then Dbl.signedInf (0 : F64) else _) = nan
    rw [if_pos rfl]
    show (if (0 : F64) < 0 then pinf else if (0 : F64) < 0 then ninf else nan) = nan
    rw [if_neg (lt_irrefl 0), if_neg (lt_irrefl 0)]
  have hd : d1d2 ieee (fin 1) (fin 1) (fin 0) (fin s) (fin T) = (nan, nan) := by
    have hg : ¬ ((fin T : Dbl F64) ≤ fin 0 ∨ Dbl.eq (fin s) (fin 0) = true) := by
      simp [hs0.ne', hT0]
    unfold d1d2
    rw [if_neg hg]
    simp only [hdiv, ieee_log_one, fin_mul_fin_rnd, hm2, hsqrt, hm3, fin_add_fin_rnd,
      add_zero, zero_mul, r64_zero, hm4]
    rfl
  refine ⟨by rw [hsqrt, hm3], hd, ?_, ?_⟩
  · simp [delta, check_inputs_valid one_pos one_pos hs0.le hT0.le, hT0.ne', hd,
      ieee_norm_cdf_special.2.2.1]
  · simp [delta, check_inputs_valid one_pos one_pos hs0.le hT0.le, hT0.ne', hd,
      ieee_norm_cdf_special.2.2.1]
    rfl

/-- In binary64, at `S = 2 ^ -700` and `K = 2 ^ 700` the quotient `S / K` underflows to zero:
`d1d2` takes the logarithm of zero, and `d1` and `d2` are `-inf`. -/
theorem d1d2_ieee_log_zero :
    (fin ((2 : F64) ^ (-700 : ℤ)) : Dbl F64) / fin (2 ^ (700 : ℤ)) = fin 0 ∧
    Dbl.log ieee (fin ((2 : F64) ^ (-700 : ℤ)) / fin (2 ^ (700 : ℤ))) = ninf ∧
    d1d2 ieee (fin (2 ^ (-700 : ℤ))) (fin (2 ^ (700 : ℤ))) (fin 0) (fin 1) (fin 1)
      = (ninf, ninf) := by
  have hK : (2 : F64) ^ (700 : ℤ) ≠ 0 := (zpow_pos two_pos _).ne'
  have hdiv : (fin ((2 : F64) ^ (-700 : ℤ)) : Dbl F64) / fin (2 ^ (700 : ℤ)) = fin 0 := by
    rw [fin_div_fin_rnd _ _ hK, div_eq_mul_inv, ← zpow_neg, ← zpow_add₀ two_ne_zero, rnd_F64]
    refine round64_underflow _ ?_
    rw [abs_of_pos (zpow_pos two_pos _)]
    exact zpow_lt_zpow_right₀ one_lt_two (by norm_num)
  have hlog : Dbl.log ieee (fin (0 : F64)) = ninf := by
    show (if (0 : F64) < 0 then _ else if (0 : F64) = 0 then ninf else nan) = ninf
    rw [if_neg (lt_irrefl 0), if_pos rfl]
  refine ⟨hdiv, by rw [hdiv, hlog], ?_⟩
  have hg : ¬ ((fin (1 : F64) : Dbl F64) ≤ fin 0 ∨ Dbl.eq (fin (1 : F64)) (fin 0) = true) := by
    simp
  have e1 : (0.5 : F64) * 1 = 0.5 := mul_one _
  have e2 : (0 : F64) + 0.5 = 0.5 := zero_add _
  unfold d1d2
  rw [if_neg hg]
  simp only [hdiv, hlog, ieee_sqrt_one, fin_mul_fin_rnd, fin_add_fin_rnd, e1, e2, mul_one,
    r64_half, r64_one]
  have e3 : (ninf : Dbl F64) + fin 0.5 = ninf := rfl
  have e4 : (ninf : Dbl F64) / fin 1 = ninf := if_neg (by norm_num)
  have e5 : (ninf : Dbl F64) - fin 1 = ninf := rfl
  rw [e3, e4, e5]

/-! ## Underflow of `exp`: a density that is exactly zero -/

/-- In binary64, at `sigma = 128` (with `S = K = 1`, `r = 0`, `T = 1`) `d1` is 64,
`exp(-0.5 * d1 * d1)` underflows to zero, and `gamma` and `vega` return 0. -/
theorem gamma_vega_ieee_zero :
    d1d2 ieee (fin 1) (fin 1) (fin 0) (fin 128) (fin 1) = (fin 64, fin (-64)) ∧
    norm_pdf ieee (fin 64) = fin 0 ∧
    gamma ieee (fin 1) (fin 1) (fin 0) (fin 128) (fin 1) = Except.ok (fin 0) ∧
    vega ieee (fin 1) (fin 1) (fin 0) (fin 128) (fin 1) = Except.ok (fin 0) := by
  have p128 : (128 : F64) = 2 ^ (7 : ℤ) := by norm_num
  have p64 : (64 : F64) = 2 ^ (6 : ℤ) := by norm_num
  have p8192 : (8192 : F64) = 2 ^ (13 : ℤ) := by norm_num
  have p32 : (32 : F64) = 2 ^ (5 : ℤ) := by norm_num
  have p2048 : (2048 : F64) = 2 ^ (11 : ℤ) := by norm_num
  have r128 : Rounding.rnd (128 : F64) = fin 128 := by
    rw [p128]; exact r64_zpow 7 (by norm_num) (by norm_num)
  have r64 : Rounding.rnd (64 : F64) = fin 64 := by
    rw [p64]; exact r64_zpow 6 (by norm_num) (by norm_num)
  have r8192 : Rounding.rnd (8192 : F64) = fin 8192 := by
    rw [p8192]; exact r64_zpow 13 (by norm_num) (by norm_num)
  have rn64 : Rounding.rnd (-64 : F64) = fin (-64) := by
    rw [p64]; exact r64_neg_zpow 6 (by norm_num) (by norm_num)
  have rn32 : Rounding.rnd (-32 : F64) = fin (-32) := by
    rw [p32]; exact r64_neg_zpow 5 (by norm_num) (by norm_num)
  have rn2048 : Rounding.rnd (-2048 : F64) = fin (-2048) := by
    rw [p2048]; exact r64_neg_zpow 11 (by norm_num) (by norm_num)
  have hdiv : (fin (1 : F64) : Dbl F64) / fin 1 = fin 1 := by
    rw [fin_div_fin_rnd _ _ one_ne_zero, div_one, r64_one]
  have hd : d1d2 ieee (fin 1) (fin 1) (fin 0) (fin 128) (fin 1) = (fin 64, fin (-64)) := by
    have hg : ¬ ((fin (1 : F64) : Dbl F64) ≤ fin 0 ∨ Dbl.eq (fin (128 : F64)) (fin 0) = true) := by
      simp
    have e1 : (0.5 : F64) * 128 = 64 := by norm_num
    have e2 : (64 : F64) * 128 = 8192 := by norm_num
    have e3 : (8192 : F64) / 128 = 64 := by norm_num
    have e4 : (64 : F64) + -128 = -64 := by norm_num
    unfold d1d2
    rw [if_neg hg]
    simp only [hdiv, ieee_log_one, ieee_sqrt_one, fin_mul_fin_rnd, fin_add_fin_rnd,
      fin_sub_fin_rnd, e1, r64, e2, r8192, zero_add, mul_one, r128,
      fin_div_fin_rnd _ _ (by norm_num : (128 : F64) ≠ 0), e3, e4, rn64]
  have hexp : Dbl.exp ieee (fin (-2048 : F64)) = fin 0 := by
    rw [exp_fin_rnd, rnd_F64]
    refine round64_underflow _ ?_
    show |Real.exp (-2048)| < (2 : ℝ) ^ (-1075 : ℤ)
    rw [abs_of_pos (Real.exp_pos _), Real.exp_neg, zpow_neg, inv_lt_inv₀ (Real.exp_pos _)
      (zpow_pos two_pos _)]
    have h1 : (2 : ℝ) < Real.exp 1 := lt_trans (by norm_num) Real.exp_one_gt_d9
    have h2 : (2 : ℝ) ^ (2048 : ℕ) < Real.exp 1 ^ (2048 : ℕ) :=
      pow_lt_pow_left₀ h1 (by norm_num) (by norm_num)
    rw [← Real.exp_nat_mul] at h2
    have h3 : (2 : ℝ) ^ (1075 : ℤ) ≤ 2 ^ (2048 : ℕ) := by
      rw [← zpow_natCast]
      exact zpow_le_zpow_right₀ one_le_two (by norm_num)
    have e : ((2048 : ℕ) : ℝ) * 1 = 2048 := by norm_num
    rw [e] at h2
    exact lt_of_le_of_lt h3 h2
  have hpdf : norm_pdf ieee (fin 64) = fin 0 := by
    have e1 : (-0.5 : F64) * 64 = -32 := by norm_num
    have e2 : (-32 : F64) * 64 = -2048 := by norm_num
    obtain ⟨-, c, hc, -, -⟩ := INV_SQRT_ieee_fin
    show Rounding.rnd (INV_SQRT_2PI ieee) * Dbl.exp ieee (fin (-0.5) * fin 64 * fin 64) = fin 0
    rw [hc, fin_mul_fin_rnd, e1, rn32, fin_mul_fin_rnd, e2, rn2048, hexp, fin_mul_fin_rnd,
      mul_zero, r64_zero]
  refine ⟨hd, hpdf, ?_, ?_⟩
  · have e1 : (1 : F64) * 128 = 128 := one_mul _
    have e2 : (0 : F64) / 128 = 0 := zero_div _
    simp only [gamma, check_inputs_valid (one_pos : (0 : F64) < 1) one_pos
      (by norm_num : (0 : F64) ≤ 128) zero_le_one, hd, hpdf, ieee_sqrt_one, bind, Except.bind,
      pure, Except.pure]
    simp [fin_mul_fin_rnd, r128, fin_div_fin_rnd _ _ (by norm_num : (128 : F64) ≠ 0), r64_zero]
  · simp [vega, check_inputs_valid (one_pos : (0 : F64) < 1) one_pos
      (by norm_num : (0 : F64) ≤ 128) zero_le_one, hd, hpdf, ieee_sqrt_one, fin_mul_fin_rnd,
      r64_zero]

/-! ## Saturation of `erf` -/

/-- In binary64 `norm_cdf` is exactly 0 from -32 down and exactly 1 from 32 up: the error
function is within `2 ^ -54` of -1 from `y = -8` down, and its value is rounded to -1. -/
theorem ieee_norm_cdf_large (d : F64) :
    (d ≤ -32 → -4000 ≤ d → norm_cdf ieee (fin d) = fin 0) ∧
    (32 ≤ d → d ≤ 4000 → norm_cdf ieee (fin d) = fin 1) := by
  -- the tail of the error function
  have erf_tail : ∀ y : ℝ, y ≤ -8 → -1 ≤ erf y ∧ erf y < -1 + 2 ^ (-54 : ℤ) := by
    intro y hy
    have h2 : (0 : ℝ) < Real.sqrt 2 := Real.sqrt_pos.mpr (by norm_num)
    have hx : Real.sqrt 2 * y * INV_SQRT_2 std = y := by
      show Real.sqrt 2 * y * (1 / Real.sqrt 2) = y
      field_simp
    have hN : norm_cdf_val std (Real.sqrt 2 * y) = 0.5 * (1 + erf y) := by
      show 0.5 * (1 + erf (Real.sqrt 2 * y * INV_SQRT_2 std)) = _
      rw [hx]
    have hN0 : norm_cdf_val std 0 = 0.5 := by
      show 0.5 * (1 + erf (0 * INV_SQRT_2 std)) = 0.5
      rw [zero_mul, erf_zero]; norm_num
    have hb := (norm_cdf_val_facts.2.2.2.2 (Real.sqrt 2 * y)).1
    have hv : (0 : ℝ) ≤ -(Real.sqrt 2 * y) := by
      have : Real.sqrt 2 * y ≤ 0 := mul_nonpos_of_nonneg_of_nonpos h2.le (by linarith)
      linarith
    have hs := norm_cdf_val_shift (-(Real.sqrt 2 * y)) 0 hv
    have e1 : (0 : ℝ) - -(Real.sqrt 2 * y) = Real.sqrt 2 * y := by ring
    have e2 : -(Real.sqrt 2 * y) * 0 - (-(Real.sqrt 2 * y)) ^ 2 / 2 = -(y ^ 2) := by
      have hsq : Real.sqrt 2 * Real.sqrt 2 = 2 := Real.mul_self_sqrt (by norm_num)
      have e3 : (-(Real.sqrt 2 * y)) ^ 2 = (Real.sqrt 2 * Real.sqrt 2) * y ^ 2 := by ring
      rw [e3, hsq]; ring
    rw [e1, e2, hN, hN0] at hs
    rw [hN] at hb
    have hexp : Real.exp (-(y ^ 2)) < 2 ^ (-54 : ℤ) := by
      have h64 : (64 : ℝ) ≤ y ^ 2 := by nlinarith
      have h1 : Real.exp (-(y ^ 2)) ≤ Real.exp (-64) := Real.exp_le_exp.mpr (by linarith)
      have h3 : Real.exp (-64) < 2 ^ (-54 : ℤ) := by
        rw [Real.exp_neg, zpow_neg, inv_lt_inv₀ (Real.exp_pos _) (zpow_pos two_pos _)]
        have h4 : (2 : ℝ) < Real.exp 1 := lt_trans (by norm_num) Real.exp_one_gt_d9
        have h5 : (2 : ℝ) ^ (64 : ℕ) < Real.exp 1 ^ (64 : ℕ) :=
          pow_lt_pow_left₀ h4 (by norm_num) (by norm_num)
        rw [← Real.exp_nat_mul] at h5
        have h6 : (2 : ℝ) ^ (54 : ℤ) ≤ 2 ^ (64 : ℕ) := by
          rw [← zpow_natCast]
          exact zpow_le_zpow_right₀ one_le_two (by norm_num)
        have e : ((64 : ℕ) : ℝ) * 1 = 64 := by norm_num
        rw [e] at h5
        exact lt_of_le_of_lt h6 h5
      exact lt_of_le_of_lt h1 h3
    constructor
    · linarith
    · linarith
  -- a value within `2 ^ -54` of 1, or of -1, is rounded to it
  have hr1 : ∀ t : F64, t ≤ 1 → 1 - 2 ^ (-54 : ℤ) < t → round64 t = fin 1 := by
    intro t h1 h2
    have e : t = 1 + (t - 1) := by ring
    rw [e]
    refine round64_one_add _ ?_
    rw [abs_le]
    generalize (2 : F64) ^ (-54 : ℤ) = u at h2 ⊢
    constructor <;> linarith
  have hrm : ∀ t : F64, -1 ≤ t → t < -1 + 2 ^ (-54 : ℤ) → round64 t = fin (-1) := by
    intro t h1 h2
    have h := hr1 (-t) (by linarith) (by
      generalize (2 : F64) ^ (-54 : ℤ) = u at h2 ⊢
      linarith)
    have h3 := round64_neg (-t)
    rw [neg_neg, h] at h3
    exact h3
  obtain ⟨⟨c, hc, hc1, hc2⟩, -⟩ := INV_SQRT_ieee_fin
  have hu : (2 : F64) ^ ((11 : ℤ) - 53) ≤ 1 := by
    rw [show (1 : F64) = 2 ^ (0 : ℤ) by norm_num]
    exact zpow_le_zpow_right₀ one_le_two (by norm_num)
  constructor
  · intro h1 h2
    have hx1 : d * c ≤ -16 := by nlinarith
    have hx2 : -4000 ≤ d * c := by nlinarith
    obtain ⟨y, hy, hyd⟩ := round64_finite (d * c) 11 (by norm_num) (by norm_num)
      (by rw [abs_lt]; constructor <;> norm_num <;> linarith)
    obtain ⟨-, hy2⟩ := abs_le.mp (le_trans hyd hu)
    have hy8 : y ≤ -8 := by linarith
    obtain ⟨ht1, ht2⟩ := erf_tail y hy8
    have he : Dbl.erf ieee (fin y) = fin (-1) := by
      rw [erf_fin_rnd, rnd_F64]
      exact hrm (ieee.erf y) ht1 ht2
    show fin 0.5 * (fin 1 + Dbl.erf ieee (fin d * Rounding.rnd (INV_SQRT_2 ieee))) = fin 0
    rw [hc, fin_mul_fin_rnd, rnd_F64, hy, he, fin_add_fin_rnd, add_neg_cancel, r64_zero,
      fin_mul_fin_rnd, mul_zero, r64_zero]
  · intro h1 h2
    have hx1 : 16 ≤ d * c := by nlinarith
    have hx2 : d * c ≤ 4000 := by nlinarith
    obtain ⟨y, hy, hyd⟩ := round64_finite (d * c) 11 (by norm_num) (by norm_num)
      (by rw [abs_lt]; constructor <;> norm_num <;> linarith)
    obtain ⟨hy1, -⟩ := abs_le.mp (le_trans hyd hu)
    have hy8 : -y ≤ -8 := by linarith
    obtain ⟨ht1, ht2⟩ := erf_tail (-y) hy8
    have hneg : erf (-y) = -erf y := erf_neg y
    have he : Dbl.erf ieee (fin y) = fin 1 := by
      rw [erf_fin_rnd, rnd_F64]
      refine hr1 (ieee.erf y) ?_ ?_
      · show erf y ≤ 1
        linarith
      · show (1 : ℝ) - 2 ^ (-54 : ℤ) < erf y
        linarith
    have e : (0.5 : F64) * 2 = 1 := by norm_num
    show fin 0.5 * (fin 1 + Dbl.erf ieee (fin d * Rounding.rnd (INV_SQRT_2 ieee))) = fin 1
    rw [hc, fin_mul_fin_rnd, rnd_F64, hy, he, fin_add_fin_rnd, one_add_one_eq_two, r64_two,
      fin_mul_fin_rnd, e, r64_one]

/-! ## Overflow of `exp(-r * T)` -/

/-- In binary64, `exp 2048` overflows. -/
theorem ieee_exp_2048 : Dbl.exp ieee (fin (2048 : F64)) = pinf := by
  rw [exp_fin_rnd, rnd_F64]
  refine round64_overflow _ ?_
  show (2 : ℝ) ^ (1024 : ℤ) ≤ Real.exp 2048
  have h1 : (2 : ℝ) ≤ Real.exp 1 := le_trans (by norm_num) Real.exp_one_gt_d9.le
  have h2 : (2 : ℝ) ^ (2048 : ℕ) ≤ Real.exp 1 ^ (2048 : ℕ) :=
    pow_le_pow_left₀ (by norm_num) h1 _
  rw [← Real.exp_nat_mul] at h2
  have h3 : (2 : ℝ) ^ (1024 : ℤ) ≤ 2 ^ (2048 : ℕ) := by
    rw [← zpow_natCast]
    exact zpow_le_zpow_right₀ one_le_two (by norm_num)
  have e : ((2048 : ℕ) : ℝ) * 1 = 2048 := by norm_num
  rw [e] at h2
  exact le_trans h3 h2

/-- In binary64, at `r = -2048` (with `S = K = 1`, `sigma = 1`, `T = 1`) `d1 = -2047.5` and
`d2 = -2048.5` are finite, `exp(-r * T)` overflows, and the closed form returns NaN for the
call and `+inf` for the put. -/
theorem price_ieee_exp_overflow :
    d1d2 ieee (fin 1) (fin 1) (fin (-2048)) (fin 1) (fin 1) = (fin (-2047.5), fin (-2048.5)) ∧
    price ieee OptionType.Call (fin 1) (fin 1) (fin (-2048)) (fin 1) (fin 1) = Except.ok nan ∧
    price ieee OptionType.Put (fin 1) (fin 1) (fin (-2048)) (fin 1) (fin 1) = Except.ok pinf := by
  have ra : Rounding.rnd (-2047.5 : F64) = fin (-2047.5) := by
    have h : round64 (((-9005000231485440 : ℤ) : F64) * 2 ^ ((10 : ℤ) - 52))
        = fin (((-9005000231485440 : ℤ) : F64) * 2 ^ ((10 : ℤ) - 52)) :=
      round64_repr _ 10 (by norm_num) (by norm_num) (by norm_num) (by norm_num)
    have e : ((-9005000231485440 : ℤ) : F64) * 2 ^ ((10 : ℤ) - 52) = -2047.5 := by norm_num
    rw [e] at h
    exact h
  have rb : Rounding.rnd (-2048.5 : F64) = fin (-2048.5) := by
    have h : round64 (((-4504699138998272 : ℤ) : F64) * 2 ^ ((11 : ℤ) - 52))
        = fin (((-4504699138998272 : ℤ) : F64) * 2 ^ ((11 : ℤ) - 52)) :=
      round64_repr _ 11 (by norm_num) (by norm_num) (by norm_num) (by norm_num)
    have e : ((-4504699138998272 : ℤ) : F64) * 2 ^ ((11 : ℤ) - 52) = -2048.5 := by norm_num
    rw [e] at h
    exact h
  have r2048 : Rounding.rnd (2048 : F64) = fin 2048 := by
    rw [show (2048 : F64) = 2 ^ (11 : ℤ) by norm_num]
    exact r64_zpow 11 (by norm_num) (by norm_num)
  have hdiv : (fin (1 : F64) : Dbl F64) / fin 1 = fin 1 := by
    rw [fin_div_fin_rnd _ _ one_ne_zero, div_one, r64_one]
  have hd : d1d2 ieee (fin 1) (fin 1) (fin (-2048)) (fin 1) (fin 1)
      = (fin (-2047.5), fin (-2048.5)) := by
    have hg : ¬ ((fin (1 : F64) : Dbl F64) ≤ fin 0 ∨ Dbl.eq (fin (1 : F64)) (fin 0) = true) := by
      simp
    have e1 : (-2048 : F64) + 0.5 = -2047.5 := by norm_num
    have e2 : (-2047.5 : F64) + -1 = -2048.5 := by norm_num
    unfold d1d2
    rw [if_neg hg]
    simp only [hdiv, ieee_log_one, ieee_sqrt_one, fin_mul_fin_rnd, fin_add_fin_rnd,
      fin_sub_fin_rnd, mul_one, r64_half, e1, ra, zero_add, r64_one,
      fin_div_fin_rnd _ _ (one_ne_zero : (1 : F64) ≠ 0), div_one, e2, rb]
  have hN1 : norm_cdf ieee (fin (-2047.5)) = fin 0 :=
    (ieee_norm_cdf_large _).1 (by norm_num) (by norm_num)
  have hN2 : norm_cdf ieee (fin (-2048.5)) = fin 0 :=
    (ieee_norm_cdf_large _).1 (by norm_num) (by norm_num)
  have hP1 : norm_cdf ieee (fin (2047.5)) = fin 1 :=
    (ieee_norm_cdf_large _).2 (by norm_num) (by norm_num)
  have hP2 : norm_cdf ieee (fin (2048.5)) = fin 1 :=
    (ieee_norm_cdf_large _).2 (by norm_num) (by norm_num)
  have hexp : Dbl.exp ieee (-(fin (-2048 : F64)) * fin 1) = pinf := by
    rw [Dbl.neg_fin, neg_neg, fin_mul_fin_rnd, mul_one, r2048, ieee_exp_2048]
  have hK : (fin (1 : F64) : Dbl F64) * pinf = pinf := by
    show Dbl.signedInf (1 : F64) = pinf
    exact if_pos one_pos
  have h0 : (pinf : Dbl F64) * fin 0 = nan := by
    show Dbl.signedInf (0 : F64) = nan
    show (if (0 : F64) < 0 then pinf else if (0 : F64) < 0 then ninf else nan) = nan
    rw [if_neg (lt_irrefl 0), if_neg (lt_irrefl 0)]
  have h1 : (pinf : Dbl F64) * fin 1 = pinf := Dbl.pinf_mul_fin 1 one_pos
  have hc : check_inputs (fin (1 : F64)) (fin 1) (fin 1) (fin 1) = Except.ok () :=
    check_inputs_valid one_pos one_pos zero_le_one zero_le_one
  have hT : Dbl.eq (fin (1 : F64)) (fin 0) = false := by
    simp [Dbl.eq]
  refine ⟨hd, ?_, ?_⟩
  · simp only [price, hc, hT, hd, Dbl.isfinite, hN1, hN2, hexp, hK, h0, bind, Except.bind, pure,
      Except.pure]
    simp [fin_mul_fin_rnd, r64_zero]
    rfl
  · have e1 : -(fin (-2048.5 : F64)) = fin 2048.5 := by rw [Dbl.neg_fin, neg_neg]
    have e2 : -(fin (-2047.5 : F64)) = fin 2047.5 := by rw [Dbl.neg_fin, neg_neg]
    simp only [price, hc, hT, hd, Dbl.isfinite, e1, e2, hP1, hP2, hexp, hK, h1, bind,
      Except.bind, pure, Except.pure]
    simp [fin_mul_fin_rnd, r64_one]
    rfl

/-! ## Rounding of `1 + erf(x)`: the two sides of `norm_cdf` near zero -/

section AnyRounding3

variable [Rounding α]

/-- After validation and away from expiry, `price` is its fallback when `d1` or `d2` is not
finite, and its closed form in the computed `d1` and `d2` otherwise. -/
theorem price_run (m : CMath α) (type : OptionType) {S K sigma T : α} (r : α) (hS : 0 < S)
    (hK : 0 < K) (hs : 0 ≤ sigma) (hT : 0 < T) :
    price m type (fin S) (fin K) (fin r) (fin sigma) (fin T) = Except.ok
      (if (!Dbl.isfinite (d1d2 m (fin S) (fin K) (fin r) (fin sigma) (fin T)).1
          || !Dbl.isfinite (d1d2 m (fin S) (fin K) (fin r) (fin sigma) (fin T)).2) = true then
        (if type = OptionType.Call then
          Dbl.max (fin 0) (fin S - fin K * Dbl.exp m (-(fin r) * fin T))
        else Dbl.max (fin 0) (fin K * Dbl.exp m (-(fin r) * fin T) - fin S))
      else
        (if type = OptionType.Call then
          fin S * norm_cdf m (d1d2 m (fin S) (fin K) (fin r) (fin sigma) (fin T)).1
            - fin K * Dbl.exp m (-(fin r) * fin T)
              * norm_cdf m (d1d2 m (fin S) (fin K) (fin r) (fin sigma) (fin T)).2
        else
          fin K * Dbl.exp m (-(fin r) * fin T)
              * norm_cdf m (-(d1d2 m (fin S) (fin K) (fin r) (fin sigma) (fin T)).2)
            - fin S * norm_cdf m (-(d1d2 m (fin S) (fin K) (fin r) (fin sigma) (fin T)).1))) := by
  have hT0 : Dbl.eq (fin T) (fin (0 : α)) = false := by simpa [Dbl.eq] using hT.ne'
  simp only [price, check_inputs_valid hS hK hs hT.le, hT0, bind, Except.bind, pure, Except.pure,
    Bool.false_eq_true, if_false]
  split_ifs <;> rfl

/-- After validation and away from expiry, `delta` is `norm_cdf(d1)` for a call and
`norm_cdf(d1) - 1.0` for a put. -/
theorem delta_run (m : CMath α) {S K sigma T : α} (r : α) (hS : 0 < S)
    (hK : 0 < K) (hs : 0 ≤ sigma) (hT : 0 < T) :
    delta m OptionType.Call (fin S) (fin K) (fin r) (fin sigma) (fin T)
      = Except.ok (norm_cdf m (d1d2 m (fin S) (fin K) (fin r) (fin sigma) (fin T)).1) ∧
    delta m OptionType.Put (fin S) (fin K) (fin r) (fin sigma) (fin T)
      = Except.ok (norm_cdf m (d1d2 m (fin S) (fin K) (fin r) (fin sigma) (fin T)).1 - fin 1) := by
  have hT0 : Dbl.eq (fin T) (fin (0 : α)) = false := by simpa [Dbl.eq] using hT.ne'
  constructor <;>
    simp [delta, check_inputs_valid hS hK hs hT.le, hT0, bind, Except.bind, pure, Except.pure]

end AnyRounding3

/-! ### The range of `norm_cdf` in binary64 -/

theorem round64_ne_nan (x : F64) : round64 x ≠ nan := by
  unfold round64
  split_ifs <;> simp

/-- In binary64, for an argument that is not NaN: `norm_cdf(d1)` is a number `c` between 0 and
1, `norm_cdf(d1) - 1.0` a number `p` between -1 and 0, and the difference `c - p`, computed
in binary64, is 1. -/
theorem ieee_delta_pair (X : Dbl F64) (hX : X ≠ nan) :
    ∃ c p : F64, norm_cdf ieee X = fin c ∧ norm_cdf ieee X - fin 1 = fin p ∧
      0 ≤ c ∧ c ≤ 1 ∧ -1 ≤ p ∧ p ≤ 0 ∧ (fin c - fin p : Dbl F64) = fin 1 := by
  obtain ⟨⟨k, hk, hk1, hk2⟩, -⟩ := INV_SQRT_ieee_fin
  -- the error function takes its values between -1 and 1
  have erf_range : ∀ y : ℝ, -1 ≤ erf y ∧ erf y ≤ 1 := by
    intro y
    have h2 : (0 : ℝ) < Real.sqrt 2 := Real.sqrt_pos.mpr (by norm_num)
    have hx : Real.sqrt 2 * y * INV_SQRT_2 std = y := by
      show Real.sqrt 2 * y * (1 / Real.sqrt 2) = y
      field_simp
    have hN : norm_cdf_val std (Real.sqrt 2 * y) = 0.5 * (1 + erf y) := by
      show 0.5 * (1 + erf (Real.sqrt 2 * y * INV_SQRT_2 std)) = _
      rw [hx]
    have hb := norm_cdf_val_facts.2.2.2.2 (Real.sqrt 2 * y)
    rw [hN] at hb
    obtain ⟨h0, h1⟩ := hb
    generalize erf y = E at h0 h1 ⊢
    constructor <;> norm_num at h0 h1 ⊢ <;> linarith
  -- the error function of the product is a number between -1 and 1
  have herf : ∃ e : F64, Dbl.erf ieee (X * Rounding.rnd (INV_SQRT_2 ieee)) = fin e ∧
      -1 ≤ e ∧ e ≤ 1 := by
    have hfin : ∀ y : F64, ∃ e : F64, Dbl.erf ieee (fin y) = fin e ∧ -1 ≤ e ∧ e ≤ 1 := by
      intro y
      obtain ⟨t1, t2⟩ := erf_range y
      obtain ⟨e, he, hb, -, -, -⟩ := round64_bounded (ieee.erf y) 0 (by norm_num) (by norm_num)
        (by rw [zpow_zero, abs_le]; exact ⟨t1, t2⟩)
      rw [zpow_zero] at hb
      exact ⟨e, by rw [erf_fin_rnd, rnd_F64, he], (abs_le.mp hb).1, (abs_le.mp hb).2⟩
    rw [hk]
    cases X with
    | nan => exact absurd rfl hX
    | pinf =>
      rw [Dbl.pinf_mul_fin k (by linarith)]
      exact ⟨1, rfl, by norm_num, le_rfl⟩
    | ninf =>
      rw [Dbl.ninf_mul_fin k (by linarith)]
      exact ⟨-1, rfl, le_rfl, by norm_num⟩
    | fin d =>
      rw [fin_mul_fin_rnd, rnd_F64]
      rcases hY : round64 (d * k) with y | _ | _ | _
      · exact hfin y
      · exact ⟨1, rfl, by norm_num, le_rfl⟩
      · exact ⟨-1, rfl, le_rfl, by norm_num⟩
      · exact absurd hY (round64_ne_nan _)
  obtain ⟨e, he, he1, he2⟩ := herf
  obtain ⟨w, hw, hwb, -, hw0, -⟩ := round64_bounded (1 + e) 1 (by norm_num) (by norm_num)
    (by rw [zpow_one, abs_le]; constructor <;> linarith)
  rw [zpow_one] at hwb
  have hw0' : 0 ≤ w := hw0 (by linarith)
  obtain ⟨c, hn, hnb, -, hn0, -⟩ := round64_bounded (0.5 * w) 0 (by norm_num) (by norm_num)
    (by
      rw [zpow_zero, abs_le]
      have := (abs_le.mp hwb).2
      constructor <;> norm_num <;> linarith)
  rw [zpow_zero] at hnb
  have hc0 : 0 ≤ c := hn0 (by positivity)
  have hc1 : c ≤ 1 := (abs_le.mp hnb).2
  have hc : norm_cdf ieee X = fin c := by
    show fin 0.5 * (fin 1 + Dbl.erf ieee (X * Rounding.rnd (INV_SQRT_2 ieee))) = fin c
    rw [he, fin_add_fin_rnd, rnd_F64, hw, fin_mul_fin_rnd, rnd_F64, hn]
  obtain ⟨p, hp, hpb, hpd, -, hp0⟩ := round64_bounded (c + -1) 0 (by norm_num) (by norm_num)
    (by rw [zpow_zero, abs_le]; constructor <;> linarith)
  rw [zpow_zero] at hpb
  refine ⟨c, p, hc, ?_, hc0, hc1, (abs_le.mp hpb).1, hp0 (by linarith), ?_⟩
  · rw [hc, fin_sub_fin_rnd, rnd_F64, hp]
  · have e : c + -p = 1 + -(p - (c + -1)) := by ring
    rw [fin_sub_fin_rnd, rnd_F64, e]
    refine round64_one_add _ ?_
    rw [abs_neg]
    exact hpd

/-! ### An at-the-money option in binary64 -/

section AnyRounding4

variable [Rounding α]

/-- At expiry, after validation, `price` is the clamped difference of spot and strike. -/
theorem price_expiry_run (m : CMath α) (type : OptionType) {S K sigma : α} (r : α)
    (hS : 0 < S) (hK : 0 < K) (hs : 0 ≤ sigma) :
    price m type (fin S) (fin K) (fin r) (fin sigma) (fin 0) = Except.ok
      (if type = OptionType.Call then Dbl.max (fin 0) (fin S - fin K)
        else Dbl.max (fin 0) (fin K - fin S)) := by
  have hT0 : Dbl.eq (fin (0 : α)) (fin (0 : α)) = true := by simp [Dbl.eq]
  simp only [price, check_inputs_valid hS hK hs le_rfl, hT0, bind, Except.bind, pure,
    Except.pure, if_true]
  split_ifs <;> rfl

end AnyRounding4

/-- In binary64 the square root of a number of the range of the positive `double`s is a
positive number. -/
theorem ieee_sqrt_range (T : F64) (h1 : 2 ^ (-1074 : ℤ) ≤ T) (h2 : T < 2 ^ (1024 : ℤ)) :
    ∃ q : F64, Dbl.sqrt ieee (fin T) = fin q ∧ 2 ^ (-537 : ℤ) ≤ q ∧ q ≤ 2 ^ (512 : ℤ) := by
  have hT0 : (0 : F64) < T := lt_of_lt_of_le (zpow_pos two_pos _) h1
  have hlo : (2 : F64) ^ (-537 : ℤ) ≤ ieee.sqrt T := by
    show (2 : ℝ) ^ (-537 : ℤ) ≤ Real.sqrt T
    apply Real.le_sqrt_of_sq_le
    rw [← zpow_natCast, ← zpow_mul]
    exact h1
  have hhi : ieee.sqrt T ≤ (2 : F64) ^ (512 : ℤ) := by
    show Real.sqrt T ≤ (2 : ℝ) ^ (512 : ℤ)
    rw [Real.sqrt_le_left (zpow_pos two_pos _).le, ← zpow_natCast, ← zpow_mul]
    exact h2.le
  have hpos : (0 : F64) < ieee.sqrt T := lt_of_lt_of_le (zpow_pos two_pos _) hlo
  obtain ⟨y, hy, hyb, -, -, -⟩ := round64_bounded (ieee.sqrt T) 512 (by norm_num) (by norm_num)
    (by rw [abs_of_pos hpos]; exact hhi)
  rcases round64_ge_zpow (ieee.sqrt T) (-537) (by norm_num) hlo with h | ⟨z, hz, hzb⟩
  · rw [hy] at h; exact absurd h (by simp)
  · rw [hy] at hz
    rw [← Dbl.fin.inj hz] at hzb
    exact ⟨y, by rw [sqrt_fin_rnd ieee T hT0.le, rnd_F64, hy], hzb, (abs_le.mp hyb).2⟩

/-- In binary64, at `sigma = 0` and `T > 0`, with `T` in the range of the `double`s: `d1d2`
returns the sentinel, `gamma` is `0 / 0 = NaN`, `vega` is `0`, and `theta` is
`0 - r * K * exp(-r * T) * 1` for a call and `0 + r * K * exp(-r * T) * 0` for a put. -/
theorem greeks_ieee_zero_vol (S K r T : F64) (hS : 0 < S) (hK : 0 < K)
    (hT1 : 2 ^ (-1074 : ℤ) ≤ T) (hT2 : T < 2 ^ (1024 : ℤ)) :
    d1d2 ieee (fin S) (fin K) (fin r) (fin 0) (fin T) = (pinf, pinf) ∧
    gamma ieee (fin S) (fin K) (fin r) (fin 0) (fin T) = Except.ok nan ∧
    vega ieee (fin S) (fin K) (fin r) (fin 0) (fin T) = Except.ok (fin 0) ∧
    theta ieee OptionType.Call (fin S) (fin K) (fin r) (fin 0) (fin T)
      = Except.ok (fin 0 - fin r * fin K * Dbl.exp ieee (-(fin r) * fin T) * fin 1) ∧
    theta ieee OptionType.Put (fin S) (fin K) (fin r) (fin 0) (fin T)
      = Except.ok (fin 0 + fin r * fin K * Dbl.exp ieee (-(fin r) * fin T) * fin 0) := by
  have hT0 : (0 : F64) < T := lt_of_lt_of_le (zpow_pos two_pos _) hT1
  obtain ⟨q, hq, hq1, hq2⟩ := ieee_sqrt_range T hT1 hT2
  have hq0 : (0 : F64) < q := lt_of_lt_of_le (zpow_pos two_pos _) hq1
  -- twice the square root is a positive number
  obtain ⟨q2, hq2e, hq2p⟩ : ∃ q2 : F64, (fin 2 * fin q : Dbl F64) = fin q2 ∧ 0 < q2 := by
    have hb : |2 * q| ≤ (2 : F64) ^ (513 : ℤ) := by
      rw [abs_of_pos (by linarith), show (513 : ℤ) = 512 + 1 by norm_num,
        zpow_add_one₀ two_ne_zero]
      linarith
    have hl : (2 : F64) ^ (-536 : ℤ) ≤ 2 * q := by
      rw [show (-536 : ℤ) = -537 + 1 by norm_num, zpow_add_one₀ two_ne_zero]
      linarith
    obtain ⟨y, hy, -, -, -, -⟩ := round64_bounded (2 * q) 513 (by norm_num) (by norm_num) hb
    rcases round64_ge_zpow (2 * q) (-536) (by norm_num) hl with h | ⟨z, hz, hzb⟩
    · rw [hy] at h; exact absurd h (by simp)
    · rw [hy] at hz
      rw [← Dbl.fin.inj hz] at hzb
      exact ⟨y, by rw [fin_mul_fin_rnd, rnd_F64, hy],
        lt_of_lt_of_le (zpow_pos two_pos _) hzb⟩
  have hc : check_inputs (fin S) (fin K) (fin (0 : F64)) (fin T) = Except.ok () :=
    check_inputs_valid hS hK le_rfl hT0.le
  have hTe : Dbl.eq (fin T) (fin (0 : F64)) = false := by simp [Dbl.eq, hT0.ne']
  have hd := d1d2_zero_vol ieee (fin S) (fin K) (fin r) (fin T)
  have hS0 : (fin S : Dbl F64) * fin 0 = fin 0 := by rw [fin_mul_fin_rnd, mul_zero, r64_zero]
  have h00 : (fin (0 : F64) : Dbl F64) * fin 0 = fin 0 := by
    rw [fin_mul_fin_rnd, mul_zero, r64_zero]
  have h0q : (fin (0 : F64) : Dbl F64) * fin q = fin 0 := by
    rw [fin_mul_fin_rnd, zero_mul, r64_zero]
  have hdiv0 : (fin (0 : F64) : Dbl F64) / fin 0 = nan := by
    show (if (0 : F64) = 0 then Dbl.signedInf (0 : F64) else Rounding.rnd ((0 : F64) / 0)) = nan
    rw [if_pos rfl]
    show (if (0 : F64) < 0 then pinf else if (0 : F64) < 0 then ninf else nan) = nan
    rw [if_neg (lt_irrefl 0), if_neg (lt_irrefl 0)]
  have hdivq : (fin (0 : F64) : Dbl F64) / fin q2 = fin 0 := by
    rw [fin_div_fin_rnd _ _ hq2p.ne', zero_div, r64_zero]
  have hn0 : -(fin (0 : F64)) = fin 0 := by rw [Dbl.neg_fin, neg_zero]
  have hnp : -(pinf : Dbl F64) = ninf := rfl
  refine ⟨hd, ?_, ?_, ?_, ?_⟩
  · simp only [gamma, hc, hTe, hd, ieee_norm_pdf_pinf, hq, hS0, h0q, hdiv0, bind, Except.bind,
      pure, Except.pure]
    simp
  · simp only [vega, hc, hTe, hd, ieee_norm_pdf_pinf, hq, hS0, h0q, bind, Except.bind,
      pure, Except.pure]
    simp
  · simp only [theta, hc, hTe, hd, ieee_norm_pdf_pinf, ieee_norm_cdf_special.1, hq, hS0, h00, hn0,
      hq2e, hdivq, bind, Except.bind, pure, Except.pure]
    simp
  · simp only [theta, hc, hTe, hd, ieee_norm_pdf_pinf, hnp, ieee_norm_cdf_special.2.1, hq, hS0, h00,
      hn0, hq2e, hdivq, bind, Except.bind, pure, Except.pure]
    simp

/-- In binary64, at `S = K = T = 1`, `sigma = 0` and `r = -2048`, `r * K * exp(-r * T)` is
`-inf`: `theta` is `+inf` for the call and NaN for the put. -/
theorem theta_ieee_overflow :
    theta ieee OptionType.Call (fin 1) (fin 1) (fin (-2048)) (fin 0) (fin 1) = Except.ok pinf ∧
    theta ieee OptionType.Put (fin 1) (fin 1) (fin (-2048)) (fin 0) (fin 1) = Except.ok nan := by
  have hT1 : (2 : F64) ^ (-1074 : ℤ) ≤ 1 := by
    rw [show (1 : F64) = 2 ^ (0 : ℤ) by norm_num]
    exact zpow_le_zpow_right₀ one_le_two (by norm_num)
  have hT2 : (1 : F64) < 2 ^ (1024 : ℤ) := one_lt_zpow₀ one_lt_two (by norm_num)
  obtain ⟨-, -, -, h1, h2⟩ := greeks_ieee_zero_vol 1 1 (-2048) 1 one_pos one_pos hT1 hT2
  have r2048 : Rounding.rnd (2048 : F64) = fin 2048 := by
    rw [show (2048 : F64) = 2 ^ (11 : ℤ) by norm_num]
    exact r64_zpow 11 (by norm_num) (by norm_num)
  have rn2048 : Rounding.rnd (-2048 : F64) = fin (-2048) := by
    rw [show (-2048 : F64) = -2 ^ (11 : ℤ) by norm_num]
    exact r64_neg_zpow 11 (by norm_num) (by norm_num)
  have hexp : Dbl.exp ieee (-(fin (-2048 : F64)) * fin 1) = pinf := by
    rw [Dbl.neg_fin, neg_neg, fin_mul_fin_rnd, mul_one, r2048, ieee_exp_2048]
  have hrK : (fin (-2048 : F64) : Dbl F64) * fin 1 = fin (-2048) := by
    rw [fin_mul_fin_rnd, mul_one, rn2048]
  have hX : (fin (-2048 : F64) : Dbl F64) * pinf = ninf := by
    show Dbl.signedInf (-2048 : F64) = ninf
    show (if (0 : F64) < -2048 then pinf else if (-2048 : F64) < 0 then ninf else nan) = ninf
    rw [if_neg (by norm_num), if_pos (by norm_num)]
  have hX1 : (ninf : Dbl F64) * fin 1 = ninf := Dbl.ninf_mul_fin 1 one_pos
  have hX0 : (ninf : Dbl F64) * fin 0 = nan := by
    show Dbl.signedInf (-(0 : F64)) = nan
    show (if (0 : F64) < -0 then pinf else if (-(0 : F64)) < 0 then ninf else nan) = nan
    rw [if_neg (by norm_num), if_neg (by norm_num)]
  rw [hexp, hrK, hX, hX1] at h1
  rw [hexp, hrK, hX, hX0] at h2
  exact ⟨h1, h2⟩

/-- In binary64, at `S = 5/8`, `K = 1`, `r = 0`, `T = 1`, the closed form evaluated at
`d1 = d2 = +inf` is `-3/8`. -/
theorem closed_form_ieee_at_inf :
    (fin (5 / 8) * norm_cdf ieee pinf
      - fin 1 * Dbl.exp ieee (-(fin 0) * fin 1) * norm_cdf ieee pinf : Dbl F64)
      = fin (-3 / 8) := by
  have r58 : Rounding.rnd (5 / 8 : F64) = fin (5 / 8) := by
    have h : round64 (((5629499534213120 : ℤ) : F64) * 2 ^ ((-1 : ℤ) - 52))
        = fin (((5629499534213120 : ℤ) : F64) * 2 ^ ((-1 : ℤ) - 52)) :=
      round64_repr _ (-1) (by norm_num) (by norm_num) (by norm_num) (by norm_num)
    have e : ((5629499534213120 : ℤ) : F64) * 2 ^ ((-1 : ℤ) - 52) = 5 / 8 := by norm_num
    rw [e] at h
    exact h
  have r38 : Rounding.rnd (-3 / 8 : F64) = fin (-3 / 8) := by
    have h : round64 (((-6755399441055744 : ℤ) : F64) * 2 ^ ((-2 : ℤ) - 52))
        = fin (((-6755399441055744 : ℤ) : F64) * 2 ^ ((-2 : ℤ) - 52)) :=
      round64_repr _ (-2) (by norm_num) (by norm_num) (by norm_num) (by norm_num)
    have e : ((-6755399441055744 : ℤ) : F64) * 2 ^ ((-2 : ℤ) - 52) = -3 / 8 := by norm_num
    rw [e] at h
    exact h
  have e1 : (5 / 8 : F64) + -1 = -3 / 8 := by norm_num
  have hS : (fin (5 / 8 : F64) : Dbl F64) * fin 1 = fin (5 / 8) := by
    rw [fin_mul_fin_rnd, mul_one, r58]
  have hexp : Dbl.exp ieee (-(fin (0 : F64)) * fin 1) = fin 1 := by
    rw [Dbl.neg_fin, neg_zero, fin_mul_fin_rnd, zero_mul, r64_zero, ieee_exp_zero]
  have h11 : (fin (1 : F64) : Dbl F64) * fin 1 = fin 1 := by
    rw [fin_mul_fin_rnd, mul_one, r64_one]
  rw [ieee_norm_cdf_special.1, hS, hexp, h11, h11, fin_sub_fin_rnd, e1, r38]

/-! ## Claims about `price` -/

/-- C2. Validation is raises-iff and the same for the six operations: on real inputs each of
price, delta, gamma, vega, theta and rho fails with `invalid_argument` exactly when
S <= 0 or K <= 0 or sigma < 0 or T < 0, and returns a value otherwise. -/
theorem validation_raises_iff (type : OptionType) (S K r sigma T : ℝ) :
    ((∃ m, price std type (fin S) (fin K) (fin r) (fin sigma) (fin T)
        = Except.error (Exn.invalid_argument m)) ↔ (S ≤ 0 ∨ K ≤ 0 ∨ sigma < 0 ∨ T < 0)) ∧
    ((∃ m, delta std type (fin S) (fin K) (fin r) (fin sigma) (fin T)
        = Except.error (Exn.invalid_argument m)) ↔ (S ≤ 0 ∨ K ≤ 0 ∨ sigma < 0 ∨ T < 0)) ∧
    ((∃ m, gamma std (fin S) (fin K) (fin r) (fin sigma) (fin T)
        = Except.error (Exn.invalid_argument m)) ↔ (S ≤ 0 ∨ K ≤ 0 ∨ sigma < 0 ∨ T < 0)) ∧
    ((∃ m, vega std (fin S) (fin K) (fin r) (fin sigma) (fin T)
        = Except.error (Exn.invalid_argument m)) ↔ (S ≤ 0 ∨ K ≤ 0 ∨ sigma < 0 ∨ T < 0)) ∧
    ((∃ m, theta std type (fin S) (fin K) (fin r) (fin sigma) (fin T)
        = Except.error (Exn.invalid_argument m)) ↔ (S ≤ 0 ∨ K ≤ 0 ∨ sigma < 0 ∨ T < 0)) ∧
    ((∃ m, rho std type (fin S) (fin K) (fin r) (fin sigma) (fin T)
        = Except.error (Exn.invalid_argument m)) ↔ (S ≤ 0 ∨ K ≤ 0 ∨ sigma < 0 ∨ T < 0)) ∧
    (¬ (S ≤ 0 ∨ K ≤ 0 ∨ sigma < 0 ∨ T < 0) →
      (∃ v, price std type (fin S) (fin K) (fin r) (fin sigma) (fin T) = Except.ok v) ∧
      (∃ v, delta std type (fin S) (fin K) (fin r) (fin sigma) (fin T) = Except.ok v) ∧
      (∃ v, gamma std (fin S) (fin K) (fin r) (fin sigma) (fin T) = Except.ok v) ∧
      (∃ v, vega std (fin S) (fin K) (fin r) (fin sigma) (fin T) = Except.ok v) ∧
      (∃ v, theta std type (fin S) (fin K) (fin r) (fin sigma) (fin T) = Except.ok v) ∧
      (∃ v, rho std type (fin S) (fin K) (fin r) (fin sigma) (fin T) = Except.ok v)) := by
  have hp := raises_iff_of_check S K sigma T (fun _ h => price_of_check_error std type (fin r) h)
    (price_of_check_ok std type (fin r))
  have hd := raises_iff_of_check S K sigma T (fun _ h => delta_of_check_error std type (fin r) h)
    (delta_of_check_ok std type (fin r))
  have hg := raises_iff_of_check S K sigma T (fun _ h => gamma_of_check_error std (fin r) h)
    (gamma_of_check_ok std (fin r))
  have hv := raises_iff_of_check S K sigma T (fun _ h => vega_of_check_error std (fin r) h)
    (vega_of_check_ok std (fin r))
  have ht := raises_iff_of_check S K sigma T (fun _ h => theta_of_check_error std type (fin r) h)
    (theta_of_check_ok std type (fin r))
  have hr := raises_iff_of_check S K sigma T (fun _ h => rho_of_check_error std type (fin r) h)
    (rho_of_check_ok std type (fin r))
  exact ⟨hp.1, hd.1, hg.1, hv.1, ht.1, hr.1,
    fun hn => ⟨hp.2 hn, hd.2 hn, hg.2 hn, hv.2 hn, ht.2 hn, hr.2 hn⟩⟩

/-- The four rejected inputs S = 0, K = -5, sigma = -1/10 and T = -1 (other fields valid), and
one accepted input, for `price`. -/
theorem validation_raises_iff_witness :
    (∃ m, price std OptionType.Call (fin 0) (fin 100) (fin (1 / 20)) (fin (1 / 5)) (fin 1)
      = Except.error (Exn.invalid_argument m)) ∧
    (∃ m, price std OptionType.Call (fin 100) (fin (-5)) (fin (1 / 20)) (fin (1 / 5)) (fin 1)
      = Except.error (Exn.invalid_argument m)) ∧
    (∃ m, price std OptionType.Call (fin 100) (fin 100) (fin (1 / 20)) (fin (-(1 / 10))) (fin 1)
      = Except.error (Exn.invalid_argument m)) ∧
    (∃ m, price std OptionType.Call (fin 100) (fin 100) (fin (1 / 20)) (fin (1 / 5)) (fin (-1))
      = Except.error (Exn.invalid_argument m)) ∧
    (∃ v, price std OptionType.Call (fin 100) (fin 100) (fin (1 / 20)) (fin (1 / 5)) (fin 1)
      = Except.ok v) :=
  ⟨(validation_raises_iff OptionType.Call 0 100 (1 / 20) (1 / 5) 1).1.mpr (by norm_num),
    (validation_raises_iff OptionType.Call 100 (-5) (1 / 20) (1 / 5) 1).1.mpr (by norm_num),
    (validation_raises_iff OptionType.Call 100 100 (1 / 20) (-(1 / 10)) 1).1.mpr (by norm_num),
    (validation_raises_iff OptionType.Call 100 100 (1 / 20) (1 / 5) (-1)).1.mpr (by norm_num),
    ((validation_raises_iff OptionType.Call 100 100 (1 / 20) (1 / 5) 1).2.2.2.2.2.2
      (by norm_num)).1⟩

/-- C3. Price at exact expiry: for S > 0, K > 0, sigma >= 0 and any r, `price` at T = 0
returns `max(0, S - K)` for a call and `max(0, K - S)` for a put, whatever r and sigma. -/
theorem price_at_expiry (S K r sigma : ℝ) (hS : 0 < S) (hK : 0 < K) (hs : 0 ≤ sigma) :
    price std OptionType.Call (fin S) (fin K) (fin r) (fin sigma) (fin 0)
      = Except.ok (fin (max 0 (S - K))) ∧
    price std OptionType.Put (fin S) (fin K) (fin r) (fin sigma) (fin 0)
      = Except.ok (fin (max 0 (K - S))) :=
  ⟨price_call_expiry std r hS hK hs, price_put_expiry std r hS hK hs⟩

/-- At S = 100, K = 90 and T = 0 the call is worth 10 and the put 0. -/
theorem price_at_expiry_witness :
    (0 : ℝ) < 100 ∧ (0 : ℝ) < 90 ∧ (0 : ℝ) ≤ 1 / 5 ∧
    price std OptionType.Call (fin 100) (fin 90) (fin (1 / 20)) (fin (1 / 5)) (fin 0)
      = Except.ok (fin 10) ∧
    price std OptionType.Put (fin 100) (fin 90) (fin (1 / 20)) (fin (1 / 5)) (fin 0)
      = Except.ok (fin 0) := by
  have h := price_at_expiry 100 90 (1 / 20) (1 / 5) (by norm_num) (by norm_num) (by norm_num)
  have e1 : max (0 : ℝ) (100 - 90) = 10 := by norm_num
  have e2 : max (0 : ℝ) (90 - 100) = 0 := by norm_num
  rw [e1, e2] at h
  exact ⟨by norm_num, by norm_num, by norm_num, h.1, h.2⟩

/-- C4, as stated, fails where `d1` overflows.  In binary64, at S = 5/8, K = 1, r = 0,
sigma = 2 ^ 700, T = 1 (all positive) `d1d2` returns (+inf, +inf), the non-finite guard of
`price` holds, and the call is priced by the fallback, at 0, while the closed form
`S N(d1) - K exp(-rT) N(d2)` at this `d1` and `d2` is -3/8. -/
theorem price_general_counterexample :
    d1d2 ieee (fin (5 / 8)) (fin 1) (fin 0) (fin (2 ^ (700 : ℤ))) (fin 1) = (pinf, pinf) ∧
    (!Dbl.isfinite (pinf : Dbl F64) || !Dbl.isfinite (pinf : Dbl F64)) = true ∧
    price ieee OptionType.Call (fin (5 / 8)) (fin 1) (fin 0) (fin (2 ^ (700 : ℤ))) (fin 1)
      = Except.ok (fin 0) ∧
    (fin (5 / 8) * norm_cdf ieee pinf
      - fin 1 * Dbl.exp ieee (-(fin 0) * fin 1) * norm_cdf ieee pinf : Dbl F64)
      = fin (-3 / 8) ∧
    (fin 0 : Dbl F64) ≠ fin (-3 / 8) := by
  obtain ⟨hd, hp, -⟩ := price_ieee_huge_vol (5 / 8) (by norm_num) (by norm_num)
  refine ⟨hd, rfl, hp, closed_form_ieee_at_inf, ?_⟩
  intro h
  have := Dbl.fin.inj h
  norm_num at this

/-- C4, amended. Price in the general regime, for S > 0, K > 0, sigma > 0, T > 0 and any r.
In binary64 the expiry guard does not hold, `d1d2` returns
`d1 = (log(S/K) + (r + 0.5 sigma sigma) T) / (sigma sqrt T)` and `d2 = d1 - sigma sqrt T`,
every operation being the one of binary64; when `d1` and `d2` are finite `price` returns
`S N(d1) - K exp(-rT) N(d2)` for a call and `K exp(-rT) N(-d2) - S N(-d1)` for a put, and
otherwise its fallback.  In exact real arithmetic `d1` and `d2` are the finite numbers of
these formulas and `price` returns the closed form, N being the value of `norm_cdf`. -/
theorem price_general_closed_form :
    (∀ (S K r sigma T : F64) (d1 d2 : Dbl F64), 0 < S → 0 < K → 0 < sigma → 0 < T →
      d1 = (Dbl.log ieee (fin S / fin K) + (fin r + fin 0.5 * fin sigma * fin sigma) * fin T)
          / (fin sigma * Dbl.sqrt ieee (fin T)) →
      d2 = d1 - fin sigma * Dbl.sqrt ieee (fin T) →
      Dbl.eq (fin T) (fin 0) = false ∧
      d1d2 ieee (fin S) (fin K) (fin r) (fin sigma) (fin T) = (d1, d2) ∧
      ((!Dbl.isfinite d1 || !Dbl.isfinite d2) = false →
        price ieee OptionType.Call (fin S) (fin K) (fin r) (fin sigma) (fin T)
          = Except.ok (fin S * norm_cdf ieee d1
              - fin K * Dbl.exp ieee (-(fin r) * fin T) * norm_cdf ieee d2) ∧
        price ieee OptionType.Put (fin S) (fin K) (fin r) (fin sigma) (fin T)
          = Except.ok (fin K * Dbl.exp ieee (-(fin r) * fin T) * norm_cdf ieee (-d2)
              - fin S * norm_cdf ieee (-d1))) ∧
      ((!Dbl.isfinite d1 || !Dbl.isfinite d2) = true →
        price ieee OptionType.Call (fin S) (fin K) (fin r) (fin sigma) (fin T)
          = Except.ok (Dbl.max (fin 0) (fin S - fin K * Dbl.exp ieee (-(fin r) * fin T))) ∧
        price ieee OptionType.Put (fin S) (fin K) (fin r) (fin sigma) (fin T)
          = Except.ok (Dbl.max (fin 0) (fin K * Dbl.exp ieee (-(fin r) * fin T) - fin S)))) ∧
    (∀ S K r sigma T d1 d2 : ℝ, 0 < S → 0 < K → 0 < sigma → 0 < T →
      d1 = (Real.log (S / K) + (r + 0.5 * sigma ^ 2) * T) / (sigma * Real.sqrt T) →
      d2 = d1 - sigma * Real.sqrt T →
      ∃ Nd1 Nd2 Nmd1 Nmd2 : ℝ,
        norm_cdf std (fin d1) = fin Nd1 ∧ norm_cdf std (fin d2) = fin Nd2 ∧
        norm_cdf std (fin (-d1)) = fin Nmd1 ∧ norm_cdf std (fin (-d2)) = fin Nmd2 ∧
        d1d2 std (fin S) (fin K) (fin r) (fin sigma) (fin T) = (fin d1, fin d2) ∧
        Dbl.eq (fin T) (fin 0) = false ∧
        (!Dbl.isfinite (fin d1) || !Dbl.isfinite (fin d2)) = false ∧
        price std OptionType.Call (fin S) (fin K) (fin r) (fin sigma) (fin T)
          = Except.ok (fin (S * Nd1 - K * Real.exp (-r * T) * Nd2)) ∧
        price std OptionType.Put (fin S) (fin K) (fin r) (fin sigma) (fin T)
          = Except.ok (fin (K * Real.exp (-r * T) * Nmd2 - S * Nmd1))) := by
  constructor
  · intro S K r sigma T d1 d2 hS hK hs hT hd1 hd2
    have hT0 : Dbl.eq (fin T) (fin (0 : F64)) = false := by simp [Dbl.eq, hT.ne']
    have hg : ¬ ((fin T : Dbl F64) ≤ fin 0 ∨ Dbl.eq (fin sigma) (fin (0 : F64)) = true) := by
      simp [Dbl.eq, hs.ne', hT]
    have hd : d1d2 ieee (fin S) (fin K) (fin r) (fin sigma) (fin T) = (d1, d2) := by
      unfold d1d2
      rw [if_neg hg, hd2, hd1]
    have hc := price_run ieee OptionType.Call r hS hK hs.le hT
    have hp := price_run ieee OptionType.Put r hS hK hs.le hT
    rw [hd] at hc hp
    refine ⟨hT0, hd, fun hf => ?_, fun hf => ?_⟩
    · rw [hf] at hc hp
      exact ⟨hc, hp⟩
    · rw [hf] at hc hp
      exact ⟨hc, hp⟩
  · intro S K r sigma T d1 d2 hS hK hs hT hd1 hd2
    have e1 : d1 = d1_val std S K r sigma T := by
      rw [hd1, d1_val_std]; ring
    have e2 : d2 = d2_val std S K r sigma T := by
      rw [hd2, d2_val_std, e1]
    refine ⟨_, _, _, _, norm_cdf_fin std d1, norm_cdf_fin std d2, norm_cdf_fin std (-d1),
      norm_cdf_fin std (-d2), ?_, ?_, ?_, ?_, ?_⟩
    · rw [e1, e2]; exact d1d2_general std r hS hK hs hT (std_sqrt_pos hT)
    · simpa [Dbl.eq] using hT.ne'
    · simp
    · rw [e1, e2]; exact price_call_general std r hS hK hs hT (std_sqrt_pos hT)
    · rw [e1, e2]; exact price_put_general std r hS hK hs hT (std_sqrt_pos hT)

/-- The closed form at S = 100, K = 100, r = 1/20, sigma = 1/5, T = 1 in exact arithmetic, and
the two branches at S = 5/8, K = 1, r = 0, sigma = 2 ^ 700, T = 1 in binary64. -/
theorem price_general_closed_form_witness :
    ((0 : ℝ) < 100 ∧ (0 : ℝ) < 1 / 5 ∧ (0 : ℝ) < 1 ∧
      ∃ d1 d2 Nd1 Nd2 : ℝ,
        d1d2 std (fin 100) (fin 100) (fin (1 / 20)) (fin (1 / 5)) (fin 1) = (fin d1, fin d2) ∧
        norm_cdf std (fin d1) = fin Nd1 ∧ norm_cdf std (fin d2) = fin Nd2 ∧
        price std OptionType.Call (fin 100) (fin 100) (fin (1 / 20)) (fin (1 / 5)) (fin 1)
          = Except.ok (fin (100 * Nd1 - 100 * Real.exp (-(1 / 20) * 1) * Nd2))) ∧
    ((0 : F64) < 5 / 8 ∧ (0 : F64) < 2 ^ (700 : ℤ) ∧
      ∃ d1 d2 : Dbl F64,
        d1d2 ieee (fin (5 / 8)) (fin 1) (fin 0) (fin (2 ^ (700 : ℤ))) (fin 1) = (d1, d2) ∧
        ((!Dbl.isfinite d1 || !Dbl.isfinite d2) = true →
          price ieee OptionType.Call (fin (5 / 8)) (fin 1) (fin 0) (fin (2 ^ (700 : ℤ))) (fin 1)
            = Except.ok
              (Dbl.max (fin 0) (fin (5 / 8) - fin 1 * Dbl.exp ieee (-(fin 0) * fin 1))))) := by
  refine ⟨⟨by norm_num, by norm_num, by norm_num, ?_⟩,
    ⟨by norm_num, zpow_pos two_pos _, ?_⟩⟩
  · obtain ⟨Nd1, Nd2, -, -, h1, h2, -, -, h5, -, -, h8, -⟩ :=
      price_general_closed_form.2 100 100 (1 / 20) (1 / 5) 1 _ _ (by norm_num)
        (by norm_num) (by norm_num) (by norm_num) rfl rfl
    exact ⟨_, _, Nd1, Nd2, h5, h1, h2, h8⟩
  · obtain ⟨-, hd, -, hfb⟩ :=
      price_general_closed_form.1 (5 / 8) 1 0 (2 ^ (700 : ℤ)) 1 _ _ (by norm_num)
        one_pos (zpow_pos two_pos _) one_pos rfl rfl
    exact ⟨_, _, hd, fun h => (hfb h).1⟩

/-- C5. Price with zero volatility: for S > 0, K > 0, T > 0 and any r, at sigma = 0 `d1d2`
yields the sentinel pair (+inf, +inf), which is not finite, and `price` returns the discounted
intrinsic value `max(0, S - K exp(-rT))` for a call and `max(0, K exp(-rT) - S)` for a put. -/
theorem price_zero_volatility (S K r T : ℝ) (hS : 0 < S) (hK : 0 < K) (hT : 0 < T) :
    d1d2 std (fin S) (fin K) (fin r) (fin 0) (fin T) = (pinf, pinf) ∧
    Dbl.isfinite (pinf : Dbl ℝ) = false ∧
    price std OptionType.Call (fin S) (fin K) (fin r) (fin 0) (fin T)
      = Except.ok (fin (max 0 (S - K * Real.exp (-r * T)))) ∧
    price std OptionType.Put (fin S) (fin K) (fin r) (fin 0) (fin T)
      = Except.ok (fin (max 0 (K * Real.exp (-r * T) - S))) :=
  ⟨d1d2_zero_vol std _ _ _ _, rfl, price_call_zero_vol std r hS hK hT,
    price_put_zero_vol std r hS hK hT⟩

/-- Zero volatility at S = 100, K = 90, r = 0, T = 1: the call is worth 10, the put 0. -/
theorem price_zero_volatility_witness :
    (0 : ℝ) < 100 ∧ (0 : ℝ) < 90 ∧ (0 : ℝ) < 1 ∧
    price std OptionType.Call (fin 100) (fin 90) (fin 0) (fin 0) (fin 1) = Except.ok (fin 10) ∧
    price std OptionType.Put (fin 100) (fin 90) (fin 0) (fin 0) (fin 1) = Except.ok (fin 0) := by
  have h := price_zero_volatility 100 90 0 1 (by norm_num) (by norm_num) (by norm_num)
  have e1 : max (0 : ℝ) (100 - 90 * Real.exp (-0 * 1)) = 10 := by norm_num
  have e2 : max (0 : ℝ) (90 * Real.exp (-0 * 1) - 100) = 0 := by norm_num
  rw [e1, e2] at h
  exact ⟨by norm_num, by norm_num, by norm_num, h.2.2.1, h.2.2.2⟩

/-! ## Claims about the Greeks -/

/-- C7, as stated, fails where `sigma * sqrt(T)` underflows.  In binary64, at S = 1, K = 1,
r = 0, sigma = 2 ^ -600, T = 2 ^ -1000 (a validated input with T > 0) `d1` is `0 / 0`: `delta`
returns NaN for the call and for the put, and their difference is NaN, not 1. -/
theorem delta_call_minus_put_counterexample :
    check_inputs (fin (1 : F64)) (fin 1) (fin (2 ^ (-600 : ℤ))) (fin (2 ^ (-1000 : ℤ)))
      = Except.ok () ∧
    d1d2 ieee (fin 1) (fin 1) (fin 0) (fin (2 ^ (-600 : ℤ))) (fin (2 ^ (-1000 : ℤ)))
      = (nan, nan) ∧
    delta ieee OptionType.Call (fin 1) (fin 1) (fin 0) (fin (2 ^ (-600 : ℤ)))
      (fin (2 ^ (-1000 : ℤ))) = Except.ok nan ∧
    delta ieee OptionType.Put (fin 1) (fin 1) (fin 0) (fin (2 ^ (-600 : ℤ)))
      (fin (2 ^ (-1000 : ℤ))) = Except.ok nan ∧
    (nan - nan : Dbl F64) = nan ∧ (nan : Dbl F64) ≠ fin 1 := by
  obtain ⟨-, hd, hc, hp⟩ := delta_ieee_underflow
  exact ⟨check_inputs_valid one_pos one_pos (zpow_pos two_pos _).le (zpow_pos two_pos _).le,
    hd, hc, hp, rfl, by simp⟩

/-- C7, amended. For every validated input with T > 0 (sigma >= 0 included) whose `d1`, as
`d1d2` computes it in binary64, is not NaN, `delta` returns numbers `c` for the call and `p`
for the put and the difference `c - p`, computed in binary64, is 1; at sigma = 0, where `d1`
is the +inf sentinel, `c = 1` and `p = 0`.  In exact real arithmetic `d1` is never NaN and
the difference is 1 for every validated input with T > 0. -/
theorem delta_call_minus_put :
    (∀ S K r sigma T : F64, 0 < S → 0 < K → 0 ≤ sigma → 0 < T →
      (d1d2 ieee (fin S) (fin K) (fin r) (fin sigma) (fin T)).1 ≠ nan →
      ∃ c p : F64,
        delta ieee OptionType.Call (fin S) (fin K) (fin r) (fin sigma) (fin T)
          = Except.ok (fin c) ∧
        delta ieee OptionType.Put (fin S) (fin K) (fin r) (fin sigma) (fin T)
          = Except.ok (fin p) ∧
        (fin c - fin p : Dbl F64) = fin 1 ∧
        (sigma = 0 →
          (d1d2 ieee (fin S) (fin K) (fin r) (fin sigma) (fin T)).1 = pinf ∧ c = 1 ∧ p = 0)) ∧
    (∀ S K r sigma T : ℝ, 0 < S → 0 < K → 0 ≤ sigma → 0 < T →
      ∃ c p : ℝ,
        delta std OptionType.Call (fin S) (fin K) (fin r) (fin sigma) (fin T)
          = Except.ok (fin c) ∧
        delta std OptionType.Put (fin S) (fin K) (fin r) (fin sigma) (fin T)
          = Except.ok (fin p) ∧
        c - p = 1 ∧
        (sigma = 0 →
          (d1d2 std (fin S) (fin K) (fin r) (fin sigma) (fin T)).1 = pinf ∧ c = 1 ∧ p = 0)) := by
  constructor
  · intro S K r sigma T hS hK hs hT hd
    obtain ⟨hc, hp⟩ := delta_run ieee r hS hK hs hT
    obtain ⟨c, p, h1, h2, -, -, -, -, h7⟩ := ieee_delta_pair _ hd
    refine ⟨c, p, by rw [hc, h1], by rw [hp, h2], h7, fun h0 => ?_⟩
    subst h0
    have hd0 := d1d2_zero_vol ieee (fin S) (fin K) (fin r) (fin T)
    rw [hd0] at h1 h2
    rw [ieee_norm_cdf_special.1] at h1 h2
    rw [fin_sub_fin_rnd, add_neg_cancel, r64_zero] at h2
    exact ⟨by rw [hd0], (Dbl.fin.inj h1).symm, (Dbl.fin.inj h2).symm⟩
  · intro S K r sigma T hS hK hs hT
    rcases hs.eq_or_lt with hs0 | hspos
    · subst hs0
      refine ⟨1, 0, delta_call_zero_vol std r hS hK hT INV_SQRT_2_pos,
        delta_put_zero_vol std r hS hK hT INV_SQRT_2_pos, by norm_num,
        fun _ => ⟨?_, rfl, rfl⟩⟩
      rw [d1d2_zero_vol]
    · refine ⟨_, _, delta_call_general std r hS hK hspos hT (std_sqrt_pos hT),
        delta_put_general std r hS hK hspos hT (std_sqrt_pos hT),
        by ring, fun h => absurd h hspos.ne'⟩

/-- The delta difference at S = 100, K = 90, r = 1/20, sigma = 0, T = 1, in exact arithmetic
and in binary64. -/
theorem delta_call_minus_put_witness :
    ((0 : F64) < 100 ∧ (0 : F64) < 90 ∧
      (d1d2 ieee (fin 100) (fin 90) (fin (1 / 20)) (fin 0) (fin 1)).1 ≠ nan ∧
      ∃ c p : F64,
        delta ieee OptionType.Call (fin 100) (fin 90) (fin (1 / 20)) (fin 0) (fin 1)
          = Except.ok (fin c) ∧
        delta ieee OptionType.Put (fin 100) (fin 90) (fin (1 / 20)) (fin 0) (fin 1)
          = Except.ok (fin p) ∧
        (fin c - fin p : Dbl F64) = fin 1) ∧
    ((0 : ℝ) < 100 ∧ (0 : ℝ) < 90 ∧
      ∃ c p : ℝ,
        delta std OptionType.Call (fin 100) (fin 90) (fin (1 / 20)) (fin 0) (fin 1)
          = Except.ok (fin c) ∧
        delta std OptionType.Put (fin 100) (fin 90) (fin (1 / 20)) (fin 0) (fin 1)
          = Except.ok (fin p) ∧
        c - p = 1) := by
  have hd : (d1d2 ieee (fin 100) (fin 90) (fin (1 / 20)) (fin 0) (fin 1)).1 ≠ nan := by
    rw [d1d2_zero_vol]; simp
  refine ⟨⟨by norm_num, by norm_num, hd, ?_⟩, ⟨by norm_num, by norm_num, ?_⟩⟩
  · obtain ⟨c, p, h1, h2, h3, -⟩ :=
      delta_call_minus_put.1 100 90 (1 / 20) 0 1 (by norm_num) (by norm_num) le_rfl
        one_pos hd
    exact ⟨c, p, h1, h2, h3⟩
  · obtain ⟨c, p, h1, h2, h3, -⟩ :=
      delta_call_minus_put.2 100 90 (1 / 20) 0 1 (by norm_num) (by norm_num) le_rfl
        one_pos
    exact ⟨c, p, h1, h2, h3⟩

/-- C8. Greeks at exact expiry: for S > 0, K > 0, sigma >= 0, any r and T = 0, the call delta
is 1 if S > K and 0 otherwise, the put delta is -1 if S < K and 0 otherwise, and gamma, vega,
theta and rho (either type) are exactly 0. -/
theorem greeks_at_expiry (S K r sigma : ℝ) (hS : 0 < S) (hK : 0 < K) (hs : 0 ≤ sigma) :
    delta std OptionType.Call (fin S) (fin K) (fin r) (fin sigma) (fin 0)
      = Except.ok (fin (if S > K then 1 else 0)) ∧
    delta std OptionType.Put (fin S) (fin K) (fin r) (fin sigma) (fin 0)
      = Except.ok (fin (if S < K then -1 else 0)) ∧
    gamma std (fin S) (fin K) (fin r) (fin sigma) (fin 0) = Except.ok (fin 0) ∧
    vega std (fin S) (fin K) (fin r) (fin sigma) (fin 0) = Except.ok (fin 0) ∧
    (∀ type, theta std type (fin S) (fin K) (fin r) (fin sigma) (fin 0) = Except.ok (fin 0)) ∧
    (∀ type, rho std type (fin S) (fin K) (fin r) (fin sigma) (fin 0) = Except.ok (fin 0)) :=
  ⟨delta_call_expiry std r hS hK hs, delta_put_expiry std r hS hK hs, gamma_expiry std r hS hK hs,
    vega_expiry std r hS hK hs, fun type => theta_expiry std type r hS hK hs,
    fun type => rho_expiry std type r hS hK hs⟩

/-- At S = 100, K = 90, T = 0 the call delta is 1 and gamma, vega, theta, rho are 0. -/
theorem greeks_at_expiry_witness :
    (0 : ℝ) < 100 ∧ (0 : ℝ) < 90 ∧ (0 : ℝ) ≤ 1 / 5 ∧
    delta std OptionType.Call (fin 100) (fin 90) (fin (1 / 20)) (fin (1 / 5)) (fin 0)
      = Except.ok (fin 1) ∧
    gamma std (fin 100) (fin 90) (fin (1 / 20)) (fin (1 / 5)) (fin 0) = Except.ok (fin 0) ∧
    vega std (fin 100) (fin 90) (fin (1 / 20)) (fin (1 / 5)) (fin 0) = Except.ok (fin 0) ∧
    theta std OptionType.Call (fin 100) (fin 90) (fin (1 / 20)) (fin (1 / 5)) (fin 0)
      = Except.ok (fin 0) ∧
    rho std OptionType.Call (fin 100) (fin 90) (fin (1 / 20)) (fin (1 / 5)) (fin 0)
      = Except.ok (fin 0) := by
  have h := greeks_at_expiry 100 90 (1 / 20) (1 / 5) (by norm_num) (by norm_num) (by norm_num)
  have e : (if (100 : ℝ) > 90 then (1 : ℝ) else 0) = 1 := by norm_num
  rw [e] at h
  exact ⟨by norm_num, by norm_num, by norm_num, h.1, h.2.2.1, h.2.2.2.1,
    h.2.2.2.2.1 OptionType.Call, h.2.2.2.2.2 OptionType.Call⟩

/-- C9. Greek closed forms in the general regime: for S > 0, K > 0, sigma > 0, T > 0 and any
r, with d1 and d2 as for price, delta(Call) = N(d1), delta(Put) = N(d1) - 1,
gamma = N'(d1) / (S sigma sqrt T), vega = S N'(d1) sqrt T, rho(Call) = K T exp(-rT) N(d2) and
rho(Put) = -K T exp(-rT) N(-d2), where N and N' are the values of `norm_cdf` and `norm_pdf`. -/
theorem greeks_general_closed_form (S K r sigma T : ℝ) (hS : 0 < S) (hK : 0 < K)
    (hs : 0 < sigma) (hT : 0 < T) (d1 d2 : ℝ)
    (hd1 : d1 = (Real.log (S / K) + (r + 0.5 * sigma ^ 2) * T) / (sigma * Real.sqrt T))
    (hd2 : d2 = d1 - sigma * Real.sqrt T) :
    ∃ Nd1 Nd2 Nmd2 pd1 : ℝ,
      norm_cdf std (fin d1) = fin Nd1 ∧ norm_cdf std (fin d2) = fin Nd2 ∧
      norm_cdf std (fin (-d2)) = fin Nmd2 ∧ norm_pdf std (fin d1) = fin pd1 ∧
      delta std OptionType.Call (fin S) (fin K) (fin r) (fin sigma) (fin T) = Except.ok (fin Nd1) ∧
      delta std OptionType.Put (fin S) (fin K) (fin r) (fin sigma) (fin T)
        = Except.ok (fin (Nd1 - 1)) ∧
      gamma std (fin S) (fin K) (fin r) (fin sigma) (fin T)
        = Except.ok (fin (pd1 / (S * sigma * Real.sqrt T))) ∧
      vega std (fin S) (fin K) (fin r) (fin sigma) (fin T)
        = Except.ok (fin (S * pd1 * Real.sqrt T)) ∧
      rho std OptionType.Call (fin S) (fin K) (fin r) (fin sigma) (fin T)
        = Except.ok (fin (K * T * Real.exp (-r * T) * Nd2)) ∧
      rho std OptionType.Put (fin S) (fin K) (fin r) (fin sigma) (fin T)
        = Except.ok (fin (-K * T * Real.exp (-r * T) * Nmd2)) := by
  have e1 : d1 = d1_val std S K r sigma T := by
    rw [hd1, d1_val_std]; ring
  have e2 : d2 = d2_val std S K r sigma T := by
    rw [hd2, d2_val_std, e1]
  refine ⟨_, _, _, _, norm_cdf_fin std d1, norm_cdf_fin std d2, norm_cdf_fin std (-d2),
    norm_pdf_fin std d1, ?_, ?_, ?_, ?_, ?_, ?_⟩
  · rw [e1]; exact delta_call_general std r hS hK hs hT (std_sqrt_pos hT)
  · rw [e1]; exact delta_put_general std r hS hK hs hT (std_sqrt_pos hT)
  · rw [e1]; exact gamma_general std r hS hK hs hT (std_sqrt_pos hT)
  · rw [e1]; exact vega_general std r hS hK hs hT (std_sqrt_pos hT)
  · rw [e2]; exact rho_call_general std r hS hK hs hT (std_sqrt_pos hT)
  · rw [e2]; exact rho_put_general std r hS hK hs hT (std_sqrt_pos hT)

/-- The Greek closed forms at S = 1, K = 1, r = 1/2, sigma = 1, T = 1, where d1 = 1 and
d2 = 0. -/
theorem greeks_general_closed_form_witness :
    (0 : ℝ) < 1 ∧
    (1 : ℝ) = (Real.log (1 / 1) + (1 / 2 + 0.5 * 1 ^ 2) * 1) / (1 * Real.sqrt 1) ∧
    (0 : ℝ) = 1 - 1 * Real.sqrt 1 ∧
    ∃ Nd1 Nd2 Nmd2 pd1 : ℝ,
      norm_cdf std (fin 1) = fin Nd1 ∧ norm_cdf std (fin 0) = fin Nd2 ∧
      norm_cdf std (fin (-0)) = fin Nmd2 ∧ norm_pdf std (fin 1) = fin pd1 ∧
      delta std OptionType.Call (fin 1) (fin 1) (fin (1 / 2)) (fin 1) (fin 1)
        = Except.ok (fin Nd1) ∧
      delta std OptionType.Put (fin 1) (fin 1) (fin (1 / 2)) (fin 1) (fin 1)
        = Except.ok (fin (Nd1 - 1)) ∧
      gamma std (fin 1) (fin 1) (fin (1 / 2)) (fin 1) (fin 1)
        = Except.ok (fin (pd1 / (1 * 1 * Real.sqrt 1))) ∧
      vega std (fin 1) (fin 1) (fin (1 / 2)) (fin 1) (fin 1)
        = Except.ok (fin (1 * pd1 * Real.sqrt 1)) ∧
      rho std OptionType.Call (fin 1) (fin 1) (fin (1 / 2)) (fin 1) (fin 1)
        = Except.ok (fin (1 * 1 * Real.exp (-(1 / 2) * 1) * Nd2)) ∧
      rho std OptionType.Put (fin 1) (fin 1) (fin (1 / 2)) (fin 1) (fin 1)
        = Except.ok (fin (-1 * 1 * Real.exp (-(1 / 2) * 1) * Nmd2)) := by
  have hd1 : (1 : ℝ) = (Real.log (1 / 1) + (1 / 2 + 0.5 * 1 ^ 2) * 1) / (1 * Real.sqrt 1) := by
    norm_num
  have hd2 : (0 : ℝ) = 1 - 1 * Real.sqrt 1 := by norm_num
  exact ⟨one_pos, hd1, hd2,
    greeks_general_closed_form 1 1 (1 / 2) 1 1 one_pos one_pos one_pos one_pos 1 0 hd1 hd2⟩

/-- C10, as stated, fails for the put.  At S = 1, K = 1, r = 1/2, sigma = 1, T = 1 the pair is
d1 = 1, d2 = 0 and N(-d2) = 1/2; `theta` returns the first term plus
`r K exp(-rT) N(-d2)`, which is not the first term minus that quantity. -/
theorem theta_put_sign_counterexample :
    d1d2 std (fin 1) (fin 1) (fin (1 / 2)) (fin 1) (fin 1) = (fin 1, fin 0) ∧
    norm_pdf std (fin 1) = fin (norm_pdf_val std 1) ∧
    norm_cdf std (fin (-0)) = fin (1 / 2) ∧
    theta std OptionType.Put (fin 1) (fin 1) (fin (1 / 2)) (fin 1) (fin 1)
      = Except.ok (fin (-(1 * norm_pdf_val std 1 * 1) / (2 * Real.sqrt 1)
          + 1 / 2 * 1 * Real.exp (-(1 / 2) * 1) * (1 / 2))) ∧
    theta std OptionType.Put (fin 1) (fin 1) (fin (1 / 2)) (fin 1) (fin 1)
      ≠ Except.ok (fin (-(1 * norm_pdf_val std 1 * 1) / (2 * Real.sqrt 1)
          - 1 / 2 * 1 * Real.exp (-(1 / 2) * 1) * (1 / 2))) := by
  have e1 : d1_val std 1 1 (1 / 2) 1 1 = 1 := by
    rw [d1_val_std]; norm_num
  have e2 : d2_val std 1 1 (1 / 2) 1 1 = 0 := by
    rw [d2_val_std, e1]; norm_num
  have hN : norm_cdf_val std (-0) = 1 / 2 := by
    show 0.5 * (1 + erf (-0 * INV_SQRT_2 std)) = 1 / 2
    rw [neg_zero, zero_mul, erf_zero]; norm_num
  have hd := d1d2_general std (1 / 2) one_pos one_pos one_pos one_pos (std_sqrt_pos one_pos)
  rw [e1, e2] at hd
  have ht : theta std OptionType.Put (fin 1) (fin 1) (fin (1 / 2)) (fin 1) (fin 1)
      = Except.ok (fin (-(1 * norm_pdf_val std 1 * 1) / (2 * Real.sqrt 1)
          + 1 / 2 * 1 * Real.exp (-(1 / 2) * 1) * (1 / 2))) := by
    have h := theta_put_general std (1 / 2) one_pos one_pos one_pos one_pos
      (std_sqrt_pos one_pos)
    rw [e1, e2, hN] at h
    exact h
  refine ⟨hd, norm_pdf_fin std 1, ?_, ht, ?_⟩
  · rw [norm_cdf_fin, hN]
  · rw [ht]
    intro h
    injection h with h
    injection h with h
    have hpos : 0 < Real.exp (-(1 / 2 : ℝ) * 1) := Real.exp_pos _
    linarith

/-- C10, amended. Theta in the general regime: for S > 0, K > 0, sigma > 0, T > 0 and any r,
`theta` returns `-S N'(d1) sigma / (2 sqrt T) - r K exp(-rT) N(d2)` for a call and
`-S N'(d1) sigma / (2 sqrt T) + r K exp(-rT) N(-d2)` for a put: the discounting term is
subtracted for a call and added for a put. -/
theorem theta_general_closed_form (S K r sigma T : ℝ) (hS : 0 < S) (hK : 0 < K)
    (hs : 0 < sigma) (hT : 0 < T) (d1 d2 : ℝ)
    (hd1 : d1 = (Real.log (S / K) + (r + 0.5 * sigma ^ 2) * T) / (sigma * Real.sqrt T))
    (hd2 : d2 = d1 - sigma * Real.sqrt T) :
    ∃ pd1 Nd2 Nmd2 : ℝ,
      norm_pdf std (fin d1) = fin pd1 ∧ norm_cdf std (fin d2) = fin Nd2 ∧
      norm_cdf std (fin (-d2)) = fin Nmd2 ∧
      theta std OptionType.Call (fin S) (fin K) (fin r) (fin sigma) (fin T)
        = Except.ok (fin (-(S * pd1 * sigma) / (2 * Real.sqrt T)
            - r * K * Real.exp (-r * T) * Nd2)) ∧
      theta std OptionType.Put (fin S) (fin K) (fin r) (fin sigma) (fin T)
        = Except.ok (fin (-(S * pd1 * sigma) / (2 * Real.sqrt T)
            + r * K * Real.exp (-r * T) * Nmd2)) := by
  have e1 : d1 = d1_val std S K r sigma T := by
    rw [hd1, d1_val_std]; ring
  have e2 : d2 = d2_val std S K r sigma T := by
    rw [hd2, d2_val_std, e1]
  refine ⟨_, _, _, norm_pdf_fin std d1, norm_cdf_fin std d2, norm_cdf_fin std (-d2), ?_, ?_⟩
  · rw [e1, e2]; exact theta_call_general std r hS hK hs hT (std_sqrt_pos hT)
  · rw [e1, e2]; exact theta_put_general std r hS hK hs hT (std_sqrt_pos hT)

/-- The amended theta formulas at S = 1, K = 1, r = 1/2, sigma = 1, T = 1. -/
theorem theta_general_closed_form_witness :
    (0 : ℝ) < 1 ∧
    (1 : ℝ) = (Real.log (1 / 1) + (1 / 2 + 0.5 * 1 ^ 2) * 1) / (1 * Real.sqrt 1) ∧
    (0 : ℝ) = 1 - 1 * Real.sqrt 1 ∧
    ∃ pd1 Nd2 Nmd2 : ℝ,
      norm_pdf std (fin 1) = fin pd1 ∧ norm_cdf std (fin 0) = fin Nd2 ∧
      norm_cdf std (fin (-0)) = fin Nmd2 ∧
      theta std OptionType.Call (fin 1) (fin 1) (fin (1 / 2)) (fin 1) (fin 1)
        = Except.ok (fin (-(1 * pd1 * 1) / (2 * Real.sqrt 1)
            - 1 / 2 * 1 * Real.exp (-(1 / 2) * 1) * Nd2)) ∧
      theta std OptionType.Put (fin 1) (fin 1) (fin (1 / 2)) (fin 1) (fin 1)
        = Except.ok (fin (-(1 * pd1 * 1) / (2 * Real.sqrt 1)
            + 1 / 2 * 1 * Real.exp (-(1 / 2) * 1) * Nmd2)) := by
  have hd1 : (1 : ℝ) = (Real.log (1 / 1) + (1 / 2 + 0.5 * 1 ^ 2) * 1) / (1 * Real.sqrt 1) := by
    norm_num
  have hd2 : (0 : ℝ) = 1 - 1 * Real.sqrt 1 := by norm_num
  exact ⟨one_pos, hd1, hd2,
    theta_general_closed_form 1 1 (1 / 2) 1 1 one_pos one_pos one_pos one_pos 1 0 hd1 hd2⟩

/-! ## Claims about the normal distribution helpers -/

/-- C11. `norm_cdf` at a finite real x is `0.5 * (1 + erf(x / sqrt 2))`; `norm_cdf(0) = 0.5`
and `norm_cdf(x) + norm_cdf(-x) = 1` for every real x. -/
theorem norm_cdf_symmetry (x : ℝ) :
    norm_cdf std (fin 0) = fin 0.5 ∧
    ∃ a b : ℝ, norm_cdf std (fin x) = fin a ∧ norm_cdf std (fin (-x)) = fin b ∧
      a = 0.5 * (1 + erf (x / Real.sqrt 2)) ∧ a + b = 1 := by
  refine ⟨?_, _, _, norm_cdf_fin std x, norm_cdf_fin std (-x), ?_, norm_cdf_val_add_neg x⟩
  · rw [norm_cdf_fin]
    show fin (0.5 * (1 + erf (0 * INV_SQRT_2 std))) = fin 0.5
    rw [zero_mul, erf_zero, add_zero, mul_one]
  · show 0.5 * (1 + erf (x * (1 / Real.sqrt 2))) = 0.5 * (1 + erf (x / Real.sqrt 2))
    rw [mul_one_div]

/-- C12. `norm_pdf` at a finite real x is `(1 / sqrt(2 pi)) * exp(-x^2 / 2)`, and it is
symmetric: `norm_pdf(x) = norm_pdf(-x)` for every real x. -/
theorem norm_pdf_symmetric (x : ℝ) :
    norm_pdf std (fin x) = fin (1 / Real.sqrt (2 * Real.pi) * Real.exp (-(x ^ 2) / 2)) ∧
    norm_pdf std (fin x) = norm_pdf std (fin (-x)) := by
  constructor
  · rw [norm_pdf_fin]
    show fin (1 / Real.sqrt (2 * Real.pi) * Real.exp (-0.5 * x * x)) = _
    have e : -0.5 * x * x = -(x ^ 2) / 2 := by ring
    rw [e]
  · rw [norm_pdf_fin, norm_pdf_fin, norm_pdf_val_neg]

/-! ## Further claims about `price` -/

/-- C14. Continuity at expiry: for fixed S > 0, K > 0, r and sigma >= 0 the number `P T`
that `price` returns at T >= 0 tends, as T tends to 0 from above, to `P 0`, which is the
payoff `max 0 (S - K)` of a call and `max 0 (K - S)` of a put (S = K and sigma = 0
included). -/
theorem price_continuous_at_expiry (type : OptionType) (S K r sigma : ℝ) (hS : 0 < S)
    (hK : 0 < K) (hs : 0 ≤ sigma) :
    ∃ P : ℝ → ℝ,
      (∀ T : ℝ, 0 ≤ T →
        price std type (fin S) (fin K) (fin r) (fin sigma) (fin T) = Except.ok (fin (P T))) ∧
      P 0 = (if type = OptionType.Call then max 0 (S - K) else max 0 (K - S)) ∧
      Filter.Tendsto P (nhdsWithin 0 (Set.Ioi 0)) (nhds (P 0)) := by
  -- a function that agrees with `P` for T > 0 and tends to `P 0` is enough
  have key : ∀ (p0 : ℝ) (f : ℝ → ℝ),
      price std type (fin S) (fin K) (fin r) (fin sigma) (fin 0) = Except.ok (fin p0) →
      (∀ T : ℝ, 0 < T →
        price std type (fin S) (fin K) (fin r) (fin sigma) (fin T) = Except.ok (fin (f T))) →
      p0 = (if type = OptionType.Call then max 0 (S - K) else max 0 (K - S)) →
      Filter.Tendsto f (nhdsWithin 0 (Set.Ioi 0)) (nhds p0) →
      ∃ P : ℝ → ℝ,
        (∀ T : ℝ, 0 ≤ T →
          price std type (fin S) (fin K) (fin r) (fin sigma) (fin T) = Except.ok (fin (P T))) ∧
        P 0 = (if type = OptionType.Call then max 0 (S - K) else max 0 (K - S)) ∧
        Filter.Tendsto P (nhdsWithin 0 (Set.Ioi 0)) (nhds (P 0)) := by
    intro p0 f h0 hf hp0 hlim
    refine ⟨fun T => if T = 0 then p0 else f T, ?_, ?_, ?_⟩
    · intro T hT
      rcases hT.eq_or_lt with h | h
      · subst h; simpa using h0
      · simpa [h.ne'] using hf T h
    · simpa using hp0
    · have e : (fun T : ℝ => if T = 0 then p0 else f T) =ᶠ[nhdsWithin 0 (Set.Ioi 0)] f := by
        filter_upwards [self_mem_nhdsWithin] with T hT
        have hT0 : T ≠ 0 := ne_of_gt hT
        simp [hT0]
      simpa using hlim.congr' e.symm
  have hexp : Filter.Tendsto (fun T : ℝ => Real.exp (-r * T)) (nhdsWithin 0 (Set.Ioi 0))
      (nhds 1) := by
    have hc : Continuous (fun T : ℝ => Real.exp (-r * T)) := by fun_prop
    have hle : nhdsWithin (0 : ℝ) (Set.Ioi 0) ≤ nhds 0 := nhdsWithin_le_nhds
    have h := (hc.tendsto 0).mono_left hle
    simpa using h
  have hconst : ∀ c : ℝ, Filter.Tendsto (fun _ : ℝ => c) (nhdsWithin 0 (Set.Ioi 0)) (nhds c) :=
    fun c => tendsto_const_nhds
  rcases hs.eq_or_lt with h0 | hspos
  · -- zero volatility: the discounted intrinsic value is continuous in T
    subst h0
    cases type
    · refine key _ (fun T => max 0 (S - K * Real.exp (-r * T)))
        (price_call_expiry std r hS hK le_rfl)
        (fun T hT => price_call_zero_vol std r hS hK hT) (by simp) ?_
      have h := (hconst 0).max ((hconst S).sub ((hconst K).mul hexp))
      simpa using h
    · refine key _ (fun T => max 0 (K * Real.exp (-r * T) - S))
        (price_put_expiry std r hS hK le_rfl)
        (fun T hT => price_put_zero_vol std r hS hK hT) (by simp) ?_
      have h := (hconst 0).max (((hconst K).mul hexp).sub (hconst S))
      simpa using h
  · -- positive volatility: `N(d1)` and `N(d2)` have a common limit `a`
    have hle : nhdsWithin (0 : ℝ) (Set.Ioi 0) ≤ nhds 0 := nhdsWithin_le_nhds
    have hsqrt : Filter.Tendsto (fun T : ℝ => sigma * Real.sqrt T) (nhdsWithin 0 (Set.Ioi 0))
        (nhds 0) := by
      have hc : Continuous (fun T : ℝ => sigma * Real.sqrt T) := by fun_prop
      have h := (hc.tendsto 0).mono_left hle
      simpa using h
    have hg : Filter.Tendsto (fun T : ℝ => sigma * Real.sqrt T) (nhdsWithin 0 (Set.Ioi 0))
        (nhdsWithin 0 (Set.Ioi 0)) := by
      refine tendsto_nhdsWithin_of_tendsto_nhds_of_eventually_within _ hsqrt ?_
      filter_upwards [self_mem_nhdsWithin] with T hT
      exact mul_pos hspos (Real.sqrt_pos.mpr hT)
    have hinv : Filter.Tendsto (fun T : ℝ => (sigma * Real.sqrt T)⁻¹)
        (nhdsWithin 0 (Set.Ioi 0)) Filter.atTop := hg.inv_tendsto_zero
    have hnum : Filter.Tendsto (fun T : ℝ => Real.log (S / K) + (r + 0.5 * sigma * sigma) * T)
        (nhdsWithin 0 (Set.Ioi 0)) (nhds (Real.log (S / K))) := by
      have hc : Continuous
          (fun T : ℝ => Real.log (S / K) + (r + 0.5 * sigma * sigma) * T) := by fun_prop
      have h := (hc.tendsto 0).mono_left hle
      simpa using h
    have hnegg : Filter.Tendsto (fun T : ℝ => -(sigma * Real.sqrt T))
        (nhdsWithin 0 (Set.Ioi 0)) (nhds (-0)) := hsqrt.neg
    have hd1 : (fun T : ℝ => d1_val std S K r sigma T)
        = fun T => (Real.log (S / K) + (r + 0.5 * sigma * sigma) * T)
            * (sigma * Real.sqrt T)⁻¹ := by
      funext T
      rw [d1_val_std, div_eq_mul_inv]
    have hd2 : (fun T : ℝ => d2_val std S K r sigma T)
        = fun T => d1_val std S K r sigma T + -(sigma * Real.sqrt T) := by
      funext T
      rw [d2_val_std, sub_eq_add_neg]
    have hN0 : norm_cdf_val std 0 = 0.5 := by
      show 0.5 * (1 + erf (0 * INV_SQRT_2 std)) = 0.5
      rw [zero_mul, erf_zero]; norm_num
    obtain ⟨hNc, -, hNtop, hNbot, -⟩ := norm_cdf_val_facts
    have hlim : ∃ a : ℝ, S * a - K * a = max 0 (S - K) ∧
        K * (1 - a) - S * (1 - a) = max 0 (K - S) ∧
        Filter.Tendsto (fun T : ℝ => norm_cdf_val std (d1_val std S K r sigma T))
          (nhdsWithin 0 (Set.Ioi 0)) (nhds a) ∧
        Filter.Tendsto (fun T : ℝ => norm_cdf_val std (d2_val std S K r sigma T))
          (nhdsWithin 0 (Set.Ioi 0)) (nhds a) := by
      rcases lt_trichotomy S K with hlt | heq | hgt
      · -- out of the money for the call: d1, d2 tend to -infinity
        have hL : Real.log (S / K) < 0 :=
          Real.log_neg (div_pos hS hK) ((div_lt_one hK).mpr hlt)
        have h1 : Filter.Tendsto (fun T : ℝ => d1_val std S K r sigma T)
            (nhdsWithin 0 (Set.Ioi 0)) Filter.atBot := by
          rw [hd1]; exact hnum.neg_mul_atTop hL hinv
        have h2 : Filter.Tendsto (fun T : ℝ => d2_val std S K r sigma T)
            (nhdsWithin 0 (Set.Ioi 0)) Filter.atBot := by
          rw [hd2]; exact h1.atBot_add hnegg
        refine ⟨0, ?_, ?_, hNbot.comp h1, hNbot.comp h2⟩
        · rw [max_eq_left (by linarith)]; ring
        · rw [max_eq_right (by linarith)]; ring
      · -- at the money: d1, d2 tend to 0
        subst heq
        have h1 : Filter.Tendsto (fun T : ℝ => d1_val std S S r sigma T)
            (nhdsWithin 0 (Set.Ioi 0)) (nhds 0) := by
          have hc : Continuous
              (fun T : ℝ => (r + 0.5 * sigma * sigma) / sigma * Real.sqrt T) := by fun_prop
          have h := (hc.tendsto 0).mono_left hle
          have e : (fun T : ℝ => (r + 0.5 * sigma * sigma) / sigma * Real.sqrt T)
              =ᶠ[nhdsWithin 0 (Set.Ioi 0)] fun T => d1_val std S S r sigma T := by
            filter_upwards [self_mem_nhdsWithin] with T hT
            have hq : 0 < Real.sqrt T := Real.sqrt_pos.mpr hT
            have hsq : Real.sqrt T * Real.sqrt T = T := Real.mul_self_sqrt (le_of_lt hT)
            rw [d1_val_std, div_self hS.ne', Real.log_one, zero_add,
              eq_div_iff (mul_pos hspos hq).ne']
            calc (r + 0.5 * sigma * sigma) / sigma * Real.sqrt T * (sigma * Real.sqrt T)
                = (r + 0.5 * sigma * sigma) * (sigma / sigma) * (Real.sqrt T * Real.sqrt T) := by
                  ring
              _ = (r + 0.5 * sigma * sigma) * T := by rw [div_self hspos.ne', hsq, mul_one]
          have h3 := h.congr' e
          simpa using h3
        have h2 : Filter.Tendsto (fun T : ℝ => d2_val std S S r sigma T)
            (nhdsWithin 0 (Set.Ioi 0)) (nhds 0) := by
          rw [hd2]
          have h := h1.add hnegg
          simpa using h
        have hN : Filter.Tendsto (norm_cdf_val std) (nhds 0) (nhds 0.5) := by
          have h := hNc.tendsto 0
          rwa [hN0] at h
        refine ⟨0.5, ?_, ?_, hN.comp h1, hN.comp h2⟩
        · rw [sub_self S, max_self]; ring
        · rw [sub_self S, max_self]; ring
      · -- in the money for the call: d1, d2 tend to +infinity
        have hL : 0 < Real.log (S / K) := Real.log_pos ((one_lt_div hK).mpr hgt)
        have h1 : Filter.Tendsto (fun T : ℝ => d1_val std S K r sigma T)
            (nhdsWithin 0 (Set.Ioi 0)) Filter.atTop := by
          rw [hd1]; exact hnum.mul_atTop hL hinv
        have h2 : Filter.Tendsto (fun T : ℝ => d2_val std S K r sigma T)
            (nhdsWithin 0 (Set.Ioi 0)) Filter.atTop := by
          rw [hd2]; exact h1.atTop_add hnegg
        refine ⟨1, ?_, ?_, hNtop.comp h1, hNtop.comp h2⟩
        · rw [max_eq_right (by linarith)]; ring
        · rw [max_eq_left (by linarith)]; ring
    obtain ⟨a, hac, hap, ha1, ha2⟩ := hlim
    cases type
    · refine key _ (fun T => S * norm_cdf_val std (d1_val std S K r sigma T)
          - K * Real.exp (-r * T) * norm_cdf_val std (d2_val std S K r sigma T))
        (price_call_expiry std r hS hK hspos.le)
        (fun T hT => price_call_general std r hS hK hspos hT (std_sqrt_pos hT)) (by simp) ?_
      have h := ((hconst S).mul ha1).sub (((hconst K).mul hexp).mul ha2)
      rw [mul_one, hac] at h
      exact h
    · have hneg : ∀ x : ℝ, norm_cdf_val std (-x) = 1 - norm_cdf_val std x := fun x => by
        linarith [norm_cdf_val_add_neg x]
      refine key _ (fun T => K * Real.exp (-r * T) * norm_cdf_val std (-d2_val std S K r sigma T)
          - S * norm_cdf_val std (-d1_val std S K r sigma T))
        (price_put_expiry std r hS hK hspos.le)
        (fun T hT => price_put_general std r hS hK hspos hT (std_sqrt_pos hT)) (by simp) ?_
      simp only [hneg]
      have h := (((hconst K).mul hexp).mul ((hconst 1).sub ha2)).sub
        ((hconst S).mul ((hconst 1).sub ha1))
      rw [mul_one, hap] at h
      exact h

/-- Continuity at expiry of the call at S = 100, K = 90, r = 1/20, sigma = 1/5: the limit
is the payoff `max 0 (100 - 90)`. -/
theorem price_continuous_at_expiry_witness :
    (0 : ℝ) < 100 ∧ (0 : ℝ) < 90 ∧ (0 : ℝ) ≤ 1 / 5 ∧
    ∃ P : ℝ → ℝ,
      (∀ T : ℝ, 0 ≤ T →
        price std OptionType.Call (fin 100) (fin 90) (fin (1 / 20)) (fin (1 / 5)) (fin T)
          = Except.ok (fin (P T))) ∧
      P 0 = max 0 (100 - 90) ∧
      Filter.Tendsto P (nhdsWithin 0 (Set.Ioi 0)) (nhds (P 0)) := by
  obtain ⟨P, h1, h2, h3⟩ := price_continuous_at_expiry OptionType.Call 100 90 (1 / 20) (1 / 5)
    (by norm_num) (by norm_num) (by norm_num)
  exact ⟨by norm_num, by norm_num, by norm_num, P, h1, by rw [h2, if_pos rfl], h3⟩

/-- C15. Reference scenario: at S = 100, K = 100, r = 0.05, sigma = 0.2, T = 1 the call has
price within 0.00005 of 10.4506, delta within 0.00005 of 0.6368, gamma within 0.00005 of
0.0188, vega within 0.0005 of 37.524, theta within 0.0005 of -6.414 and rho within 0.0005
of 53.232. -/
theorem reference_scenario :
    ∃ p d g v t h : ℝ,
      price std OptionType.Call (fin 100) (fin 100) (fin 0.05) (fin 0.2) (fin 1)
        = Except.ok (fin p) ∧
      delta std OptionType.Call (fin 100) (fin 100) (fin 0.05) (fin 0.2) (fin 1)
        = Except.ok (fin d) ∧
      gamma std (fin 100) (fin 100) (fin 0.05) (fin 0.2) (fin 1) = Except.ok (fin g) ∧
      vega std (fin 100) (fin 100) (fin 0.05) (fin 0.2) (fin 1) = Except.ok (fin v) ∧
      theta std OptionType.Call (fin 100) (fin 100) (fin 0.05) (fin 0.2) (fin 1)
        = Except.ok (fin t) ∧
      rho std OptionType.Call (fin 100) (fin 100) (fin 0.05) (fin 0.2) (fin 1)
        = Except.ok (fin h) ∧
      |p - 10.4506| < 0.00005 ∧ |d - 0.6368| < 0.00005 ∧ |g - 0.0188| < 0.00005 ∧
      |v - 37.524| < 0.0005 ∧ |t - (-6.414)| < 0.0005 ∧ |h - 53.232| < 0.0005 := by
  have hS : (0 : ℝ) < 100 := by norm_num
  have hs : (0 : ℝ) < 0.2 := by norm_num
  have hT : (0 : ℝ) < 1 := one_pos
  have hq : 0 < std.sqrt 1 := std_sqrt_pos hT
  -- d1 = 0.35 = 7/20 and d2 = 0.15 = 3/20
  have hd1 : d1_val std 100 100 0.05 0.2 1 = 7 / 20 := by
    rw [d1_val_std, div_self (by norm_num : (100 : ℝ) ≠ 0), Real.log_one, Real.sqrt_one]
    norm_num
  have hd2 : d2_val std 100 100 0.05 0.2 1 = 3 / 20 := by
    rw [d2_val_std, hd1, Real.sqrt_one]
    norm_num
  have hsqrt : std.sqrt 1 = 1 := Real.sqrt_one
  have hexp : std.exp (-0.05 * 1) = Real.exp (-(1 / 20)) := by
    show Real.exp (-0.05 * 1) = Real.exp (-(1 / 20))
    norm_num
  have hpdf : norm_pdf_val std (7 / 20) = INV_SQRT_2PI std * Real.exp (-(49 / 800)) := by
    show INV_SQRT_2PI std * Real.exp (-0.5 * (7 / 20) * (7 / 20)) = _
    norm_num
  have hp := price_call_general std (0.05 : ℝ) hS hS hs hT hq
  have hdl := delta_call_general std (0.05 : ℝ) hS hS hs hT hq
  have hg := gamma_general std (0.05 : ℝ) hS hS hs hT hq
  have hv := vega_general std (0.05 : ℝ) hS hS hs hT hq
  have ht := theta_call_general std (0.05 : ℝ) hS hS hs hT hq
  have hr := rho_call_general std (0.05 : ℝ) hS hS hs hT hq
  rw [hd1, hd2, hexp] at hp ht
  rw [hd1] at hdl hg hv
  rw [hd2, hexp] at hr
  rw [hsqrt, hpdf] at hg hv ht
  refine ⟨_, _, _, _, _, _, hp, hdl, hg, hv, ht, hr, ?_⟩
  obtain ⟨hN1, hN2, hE, hE2, hc1, hc2⟩ := reference_values
  clear hp hdl hg hv ht hr hd1 hd2 hsqrt hq hexp hpdf
  generalize norm_cdf_val std (7 / 20) = N1 at hN1 ⊢
  generalize norm_cdf_val std (3 / 20) = N2 at hN2 ⊢
  generalize Real.exp (-(1 / 20)) = E at hE ⊢
  generalize Real.exp (-(49 / 800)) = E2 at hE2 ⊢
  generalize INV_SQRT_2PI std = c at hc1 hc2 ⊢
  -- the products exp(-rT) N(d2) and norm_pdf(d1)
  have hEN : (0.5323248 : ℝ) < E * N2 ∧ E * N2 < 0.5323249 :=
    ⟨lt_trans (by norm_num) (mul_lt_mul'' hE.1 hN2.1 (by norm_num) (by norm_num)),
      lt_trans (mul_lt_mul'' hE.2 hN2.2 (by linarith [hE.1]) (by linarith [hN2.1]))
        (by norm_num)⟩
  have hP : (0.3752403 : ℝ) < c * E2 ∧ c * E2 < 0.3752404 :=
    ⟨lt_trans (by norm_num) (mul_lt_mul'' hc1 hE2.1 (by norm_num) (by norm_num)),
      lt_trans (mul_lt_mul'' hc2 hE2.2 (by linarith) (by linarith [hE2.1])) (by norm_num)⟩
  have e1 : 100 * E * N2 = 100 * (E * N2) := by ring
  have e2 : 0.05 * 100 * E * N2 = 5 * (E * N2) := by ring
  have e3 : 100 * 1 * E * N2 = 100 * (E * N2) := by ring
  have e4 : c * E2 / (100 * 0.2 * 1) = c * E2 / 20 := by norm_num
  have e5 : -(100 * (c * E2) * 0.2) / (2 * 1) = -(10 * (c * E2)) := by ring
  rw [e1, e2, e3, e4, e5, mul_one]
  generalize E * N2 = EN at hEN ⊢
  generalize c * E2 = P at hP ⊢
  simp only [abs_lt]
  refine ⟨⟨?_, ?_⟩, ⟨?_, ?_⟩, ⟨?_, ?_⟩, ⟨?_, ?_⟩, ⟨?_, ?_⟩, ⟨?_, ?_⟩⟩ <;>
    linarith [hN1.1, hN1.2, hP.1, hP.2, hEN.1, hEN.2]

/-- C16, as stated, fails by underflow.  In binary64, at S = K = 1, r = 0, sigma = 2 ^ -600,
T = 2 ^ -1000 (validated, and outside the guard of `d1d2`) the divisor `sigma * sqrtT` is 0;
and at S = 2 ^ -700, K = 2 ^ 700, sigma = T = 1 the quotient `S / K` is 0 and its logarithm
is `-inf`. -/
theorem price_arithmetic_counterexample :
    check_inputs (fin (1 : F64)) (fin 1) (fin (2 ^ (-600 : ℤ))) (fin (2 ^ (-1000 : ℤ)))
      = Except.ok () ∧
    ¬ ((fin (2 ^ (-1000 : ℤ)) : Dbl F64) ≤ fin 0
      ∨ Dbl.eq (fin ((2 : F64) ^ (-600 : ℤ))) (fin 0) = true) ∧
    (fin ((2 : F64) ^ (-600 : ℤ)) : Dbl F64) * Dbl.sqrt ieee (fin (2 ^ (-1000 : ℤ))) = fin 0 ∧
    check_inputs (fin ((2 : F64) ^ (-700 : ℤ))) (fin (2 ^ (700 : ℤ))) (fin 1) (fin 1)
      = Except.ok () ∧
    ¬ ((fin (1 : F64) : Dbl F64) ≤ fin 0 ∨ Dbl.eq (fin (1 : F64)) (fin 0) = true) ∧
    (fin ((2 : F64) ^ (-700 : ℤ)) : Dbl F64) / fin (2 ^ (700 : ℤ)) = fin 0 ∧
    Dbl.log ieee (fin ((2 : F64) ^ (-700 : ℤ)) / fin (2 ^ (700 : ℤ))) = ninf := by
  obtain ⟨h1, -, -, -⟩ := delta_ieee_underflow
  obtain ⟨h2, h3, -⟩ := d1d2_ieee_log_zero
  have hg : ∀ s T : F64, 0 < s → 0 < T →
      ¬ ((fin T : Dbl F64) ≤ fin 0 ∨ Dbl.eq (fin s) (fin 0) = true) := by
    intro s T hs hT
    simp [Dbl.eq, hs.ne', hT]
  exact ⟨check_inputs_valid one_pos one_pos (zpow_pos two_pos _).le (zpow_pos two_pos _).le,
    hg _ _ (zpow_pos two_pos _) (zpow_pos two_pos _), h1,
    check_inputs_valid (zpow_pos two_pos _) (zpow_pos two_pos _) zero_le_one zero_le_one,
    hg _ _ one_pos one_pos, h2, h3⟩

/-- C16, amended. `price` is guarded against undefined arithmetic up to underflow.  For every
validated input, in binary64: at T = 0 the result is the clamped payoff, nothing of `d1d2`
being used; when the guard `T <= 0 || sigma == 0` of `d1d2` holds the pair is the sentinel;
when it does not hold, which is where the logarithm and the two divisions are evaluated,
sigma > 0, T > 0 and K != 0; and when `d1` or `d2` comes out not finite `price` returns its
clamped fallback.  In exact real arithmetic, outside the guard, `S / K > 0` and
`sigma * sqrt T > 0`, the quotient, its logarithm and the denominator are finite, and the
price returned is a finite number. -/
theorem price_arithmetic_guarded :
    (∀ (type : OptionType) (S K r sigma T : F64), 0 < S → 0 < K → 0 ≤ sigma → 0 ≤ T →
      (T = 0 → price ieee type (fin S) (fin K) (fin r) (fin sigma) (fin T) = Except.ok
        (if type = OptionType.Call then Dbl.max (fin 0) (fin S - fin K)
          else Dbl.max (fin 0) (fin K - fin S))) ∧
      ((fin T ≤ (fin 0 : Dbl F64) ∨ Dbl.eq (fin sigma) (fin 0) = true) →
        d1d2 ieee (fin S) (fin K) (fin r) (fin sigma) (fin T) = (pinf, pinf)) ∧
      (¬ (fin T ≤ (fin 0 : Dbl F64) ∨ Dbl.eq (fin sigma) (fin 0) = true) →
        0 < sigma ∧ 0 < T ∧ K ≠ 0) ∧
      (0 < T →
        (!Dbl.isfinite (d1d2 ieee (fin S) (fin K) (fin r) (fin sigma) (fin T)).1
          || !Dbl.isfinite (d1d2 ieee (fin S) (fin K) (fin r) (fin sigma) (fin T)).2) = true →
        price ieee type (fin S) (fin K) (fin r) (fin sigma) (fin T) = Except.ok
          (if type = OptionType.Call then
            Dbl.max (fin 0) (fin S - fin K * Dbl.exp ieee (-(fin r) * fin T))
          else Dbl.max (fin 0) (fin K * Dbl.exp ieee (-(fin r) * fin T) - fin S)))) ∧
    (∀ (type : OptionType) (S K r sigma T : ℝ), 0 < S → 0 < K → 0 ≤ sigma → 0 ≤ T →
      (¬ (fin T ≤ (fin 0 : Dbl ℝ) ∨ Dbl.eq (fin sigma) (fin 0) = true) →
        K ≠ 0 ∧ 0 < S / K ∧ 0 < sigma * Real.sqrt T ∧
        (fin S / fin K : Dbl ℝ) = fin (S / K) ∧
        Dbl.log std (fin S / fin K) = fin (Real.log (S / K)) ∧
        fin sigma * Dbl.sqrt std (fin T) = fin (sigma * Real.sqrt T) ∧
        ∃ d1 d2 : ℝ,
          d1d2 std (fin S) (fin K) (fin r) (fin sigma) (fin T) = (fin d1, fin d2)) ∧
      ∃ v : ℝ, price std type (fin S) (fin K) (fin r) (fin sigma) (fin T)
        = Except.ok (fin v)) := by
  constructor
  · intro type S K r sigma T hS hK hs hT
    refine ⟨fun h0 => ?_, fun hg => ?_, fun hg => ?_, fun hpos hnf => ?_⟩
    · subst h0
      exact price_expiry_run ieee type r hS hK hs
    · simp only [Dbl.fin_le_fin, Dbl.fin_eq_fin] at hg
      simp [d1d2, hg]
    · simp only [Dbl.fin_le_fin, Dbl.fin_eq_fin, not_or, not_le] at hg
      exact ⟨lt_of_le_of_ne hs (Ne.symm hg.2), hg.1, hK.ne'⟩
    · rw [price_run ieee type r hS hK hs hpos, if_pos hnf]
  · intro type S K r sigma T hS hK hs hT
    refine ⟨?_, ?_⟩
    · intro hg
      simp only [Dbl.fin_le_fin, Dbl.fin_eq_fin, not_or, not_le] at hg
      have hTpos : 0 < T := hg.1
      have hspos : 0 < sigma := lt_of_le_of_ne hs (Ne.symm hg.2)
      have hq : 0 < Real.sqrt T := Real.sqrt_pos.mpr hTpos
      have hSK : 0 < S / K := div_pos hS hK
      refine ⟨hK.ne', hSK, mul_pos hspos hq, Dbl.fin_div_fin S K hK.ne', ?_, ?_,
        _, _, d1d2_general std r hS hK hspos hTpos (std_sqrt_pos hTpos)⟩
      · rw [Dbl.fin_div_fin S K hK.ne']
        exact Dbl.log_fin std _ hSK
      · rw [Dbl.sqrt_fin std T hT]
        rfl
    · rcases hT.eq_or_lt with h0 | hTpos
      · subst h0
        cases type
        · exact ⟨_, price_call_expiry std r hS hK hs⟩
        · exact ⟨_, price_put_expiry std r hS hK hs⟩
      · rcases hs.eq_or_lt with h0 | hspos
        · subst h0
          cases type
          · exact ⟨_, price_call_zero_vol std r hS hK hTpos⟩
          · exact ⟨_, price_put_zero_vol std r hS hK hTpos⟩
        · cases type
          · exact ⟨_, price_call_general std r hS hK hspos hTpos (std_sqrt_pos hTpos)⟩
          · exact ⟨_, price_put_general std r hS hK hspos hTpos (std_sqrt_pos hTpos)⟩

/-- The guards at S = 100, K = 90, r = 1/20, sigma = 1/5, T = 1, for a call, in exact
arithmetic; the payoff at S = 100, K = 90, T = 0 in binary64. -/
theorem price_arithmetic_guarded_witness :
    ((0 : F64) < 100 ∧ (0 : F64) < 90 ∧
      price ieee OptionType.Call (fin 100) (fin 90) (fin (1 / 20)) (fin (1 / 5)) (fin 0)
        = Except.ok (Dbl.max (fin 0) (fin 100 - fin 90))) ∧
    ((0 : ℝ) < 100 ∧ (0 : ℝ) < 90 ∧ (0 : ℝ) ≤ 1 / 5 ∧ (0 : ℝ) ≤ 1 ∧
      (¬ (fin (1 : ℝ) ≤ (fin 0 : Dbl ℝ) ∨ Dbl.eq (fin (1 / 5 : ℝ)) (fin 0) = true) →
        (90 : ℝ) ≠ 0 ∧ (0 : ℝ) < 100 / 90 ∧ 0 < 1 / 5 * Real.sqrt 1 ∧
        (fin 100 / fin 90 : Dbl ℝ) = fin (100 / 90) ∧
        Dbl.log std (fin 100 / fin 90) = fin (Real.log (100 / 90)) ∧
        fin (1 / 5) * Dbl.sqrt std (fin 1) = fin (1 / 5 * Real.sqrt 1) ∧
        ∃ d1 d2 : ℝ,
          d1d2 std (fin 100) (fin 90) (fin (1 / 20)) (fin (1 / 5)) (fin 1)
            = (fin d1, fin d2)) ∧
      ∃ v : ℝ, price std OptionType.Call (fin 100) (fin 90) (fin (1 / 20)) (fin (1 / 5)) (fin 1)
        = Except.ok (fin v)) := by
  have h1 := (price_arithmetic_guarded.1 OptionType.Call 100 90 (1 / 20) (1 / 5) 0
    (by norm_num) (by norm_num) (by norm_num) le_rfl).1 rfl
  have h2 := price_arithmetic_guarded.2 OptionType.Call 100 90 (1 / 20) (1 / 5) 1
    (by norm_num) (by norm_num) (by norm_num) (by norm_num)
  exact ⟨⟨by norm_num, by norm_num, h1⟩,
    ⟨by norm_num, by norm_num, by norm_num, by norm_num, h2.1, h2.2⟩⟩

/-! ## Further claims about the Greeks and about validation -/

/-- C17, as stated, fails for vega and theta.  At S = 100, K = 90, r = 1/20, sigma = 0,
T = 1 `vega` returns 0, in binary64 as in exact arithmetic, and `theta` returns
`-(r K exp(-rT))` for a call in exact arithmetic: finite numbers. -/
theorem greeks_zero_volatility_counterexample :
    vega ieee (fin 100) (fin 90) (fin (1 / 20)) (fin 0) (fin 1) = Except.ok (fin 0) ∧
    vega std (fin 100) (fin 90) (fin (1 / 20)) (fin 0) (fin 1) = Except.ok (fin 0) ∧
    theta std OptionType.Call (fin 100) (fin 90) (fin (1 / 20)) (fin 0) (fin 1)
      = Except.ok (fin (-(1 / 20 * 90 * Real.exp (-(1 / 20) * 1)))) ∧
    Dbl.isfinite (fin (0 : ℝ)) = true ∧
    Dbl.isfinite (fin (-(1 / 20 * 90 * Real.exp (-(1 / 20) * 1)))) = true := by
  have hT1 : (2 : F64) ^ (-1074 : ℤ) ≤ 1 := by
    rw [show (1 : F64) = 2 ^ (0 : ℤ) by norm_num]
    exact zpow_le_zpow_right₀ one_le_two (by norm_num)
  have hT2 : (1 : F64) < 2 ^ (1024 : ℤ) := one_lt_zpow₀ one_lt_two (by norm_num)
  exact ⟨(greeks_ieee_zero_vol 100 90 (1 / 20) 1 (by norm_num) (by norm_num) hT1 hT2).2.2.1,
    vega_zero_vol std (1 / 20) (by norm_num) (by norm_num) one_pos,
    theta_call_zero_vol std (1 / 20) (by norm_num) (by norm_num) one_pos (std_sqrt_pos one_pos)
      INV_SQRT_2_pos, rfl, rfl⟩

/-- C17, amended. Greeks with zero volatility: for S > 0, K > 0, any r, sigma = 0 and T > 0,
`d1d2` yields the sentinel (+inf, +inf) and no fallback is applied; `norm_pdf(+inf)` is 0,
`norm_cdf(+inf)` is 1 and `norm_cdf(-inf)` is 0.  In binary64, for a `T` of the range of the
`double`s: `gamma` divides 0 by `S * sigma * sqrtT = 0` and returns NaN, `vega` returns 0,
and `theta`, whose first term is 0, returns `0 - r * K * exp(-r * T) * 1` for a call and
`0 + r * K * exp(-r * T) * 0` for a put; at S = K = T = 1, r = -2048, where `exp(-r * T)`
overflows, these are `+inf` and NaN.  In exact real arithmetic `gamma` returns NaN, `vega`
returns 0 and `theta` returns `-(r K exp(-rT))` for a call and 0 for a put. -/
theorem greeks_zero_volatility :
    (∀ S K r T : F64, 0 < S → 0 < K → 2 ^ (-1074 : ℤ) ≤ T → T < 2 ^ (1024 : ℤ) →
      d1d2 ieee (fin S) (fin K) (fin r) (fin 0) (fin T) = (pinf, pinf) ∧
      gamma ieee (fin S) (fin K) (fin r) (fin 0) (fin T) = Except.ok nan ∧
      vega ieee (fin S) (fin K) (fin r) (fin 0) (fin T) = Except.ok (fin 0) ∧
      theta ieee OptionType.Call (fin S) (fin K) (fin r) (fin 0) (fin T)
        = Except.ok (fin 0 - fin r * fin K * Dbl.exp ieee (-(fin r) * fin T) * fin 1) ∧
      theta ieee OptionType.Put (fin S) (fin K) (fin r) (fin 0) (fin T)
        = Except.ok (fin 0 + fin r * fin K * Dbl.exp ieee (-(fin r) * fin T) * fin 0)) ∧
    (theta ieee OptionType.Call (fin 1) (fin 1) (fin (-2048)) (fin 0) (fin 1) = Except.ok pinf ∧
      theta ieee OptionType.Put (fin 1) (fin 1) (fin (-2048)) (fin 0) (fin 1)
        = Except.ok nan) ∧
    (∀ S K r T : ℝ, 0 < S → 0 < K → 0 < T →
      d1d2 std (fin S) (fin K) (fin r) (fin 0) (fin T) = (pinf, pinf) ∧
      norm_pdf std pinf = fin 0 ∧
      fin S * fin 0 * Dbl.sqrt std (fin T) = fin 0 ∧
      gamma std (fin S) (fin K) (fin r) (fin 0) (fin T) = Except.ok nan ∧
      Dbl.isfinite (nan : Dbl ℝ) = false ∧
      vega std (fin S) (fin K) (fin r) (fin 0) (fin T) = Except.ok (fin 0) ∧
      theta std OptionType.Call (fin S) (fin K) (fin r) (fin 0) (fin T)
        = Except.ok (fin (-(r * K * Real.exp (-r * T)))) ∧
      theta std OptionType.Put (fin S) (fin K) (fin r) (fin 0) (fin T) = Except.ok (fin 0)) := by
  refine ⟨greeks_ieee_zero_vol, theta_ieee_overflow, fun S K r T hS hK hT => ?_⟩
  refine ⟨d1d2_zero_vol std _ _ _ _, norm_pdf_pinf std, ?_, gamma_zero_vol std r hS hK hT, rfl,
    vega_zero_vol std r hS hK hT,
    theta_call_zero_vol std r hS hK hT (std_sqrt_pos hT) INV_SQRT_2_pos,
    theta_put_zero_vol std r hS hK hT (std_sqrt_pos hT) INV_SQRT_2_pos⟩
  rw [Dbl.sqrt_fin std T hT.le]
  show fin (S * 0 * std.sqrt T) = fin 0
  rw [mul_zero, zero_mul]

/-- The zero-volatility Greeks at S = 100, K = 90, r = 1/20, T = 1, in binary64 and in exact
arithmetic. -/
theorem greeks_zero_volatility_witness :
    ((0 : F64) < 100 ∧ (0 : F64) < 90 ∧ (2 : F64) ^ (-1074 : ℤ) ≤ 1 ∧
      (1 : F64) < 2 ^ (1024 : ℤ) ∧
      gamma ieee (fin 100) (fin 90) (fin (1 / 20)) (fin 0) (fin 1) = Except.ok nan ∧
      vega ieee (fin 100) (fin 90) (fin (1 / 20)) (fin 0) (fin 1) = Except.ok (fin 0)) ∧
    ((0 : ℝ) < 100 ∧ (0 : ℝ) < 90 ∧ (0 : ℝ) < 1 ∧
      gamma std (fin 100) (fin 90) (fin (1 / 20)) (fin 0) (fin 1) = Except.ok nan ∧
      vega std (fin 100) (fin 90) (fin (1 / 20)) (fin 0) (fin 1) = Except.ok (fin 0) ∧
      theta std OptionType.Put (fin 100) (fin 90) (fin (1 / 20)) (fin 0) (fin 1)
        = Except.ok (fin 0)) := by
  have hT1 : (2 : F64) ^ (-1074 : ℤ) ≤ 1 := by
    rw [show (1 : F64) = 2 ^ (0 : ℤ) by norm_num]
    exact zpow_le_zpow_right₀ one_le_two (by norm_num)
  have hT2 : (1 : F64) < 2 ^ (1024 : ℤ) := one_lt_zpow₀ one_lt_two (by norm_num)
  have h1 := greeks_zero_volatility.1 100 90 (1 / 20) 1 (by norm_num) (by norm_num)
    hT1 hT2
  have h2 := greeks_zero_volatility.2.2 100 90 (1 / 20) 1 (by norm_num) (by norm_num)
    one_pos
  exact ⟨⟨by norm_num, by norm_num, hT1, hT2, h1.2.1, h1.2.2.1⟩,
    ⟨by norm_num, by norm_num, one_pos, h2.2.2.2.1, h2.2.2.2.2.2.1, h2.2.2.2.2.2.2.2⟩⟩

/-- C18. The validation error names the first violated field, in the order S, K, sigma, T:
on real inputs `check_inputs` fails with "Spot price S must be > 0" when S <= 0 whatever the
other inputs, with "Strike price K must be > 0" when S > 0 and K <= 0, with
"Volatility sigma must be >= 0" when S, K > 0 and sigma < 0, and with
"Time to maturity T must be >= 0" when the rest is valid and T < 0; the four messages are
distinct, and each of the six operations fails with the error of `check_inputs`. -/
theorem validation_message (type : OptionType) (S K r sigma T : ℝ) :
    (S ≤ 0 → check_inputs (fin S) (fin K) (fin sigma) (fin T)
      = Except.error (Exn.invalid_argument "Spot price S must be > 0")) ∧
    (0 < S → K ≤ 0 → check_inputs (fin S) (fin K) (fin sigma) (fin T)
      = Except.error (Exn.invalid_argument "Strike price K must be > 0")) ∧
    (0 < S → 0 < K → sigma < 0 → check_inputs (fin S) (fin K) (fin sigma) (fin T)
      = Except.error (Exn.invalid_argument "Volatility sigma must be >= 0")) ∧
    (0 < S → 0 < K → 0 ≤ sigma → T < 0 → check_inputs (fin S) (fin K) (fin sigma) (fin T)
      = Except.error (Exn.invalid_argument "Time to maturity T must be >= 0")) ∧
    List.Nodup ["Spot price S must be > 0", "Strike price K must be > 0",
      "Volatility sigma must be >= 0", "Time to maturity T must be >= 0"] ∧
    (∀ e, check_inputs (fin S) (fin K) (fin sigma) (fin T) = Except.error e →
      price std type (fin S) (fin K) (fin r) (fin sigma) (fin T) = Except.error e ∧
      delta std type (fin S) (fin K) (fin r) (fin sigma) (fin T) = Except.error e ∧
      gamma std (fin S) (fin K) (fin r) (fin sigma) (fin T) = Except.error e ∧
      vega std (fin S) (fin K) (fin r) (fin sigma) (fin T) = Except.error e ∧
      theta std type (fin S) (fin K) (fin r) (fin sigma) (fin T) = Except.error e ∧
      rho std type (fin S) (fin K) (fin r) (fin sigma) (fin T) = Except.error e) := by
  have h := check_inputs_message S K sigma T
  refine ⟨h.1, h.2.1, h.2.2.1, h.2.2.2, by decide, fun e he => ?_⟩
  exact ⟨price_of_check_error std type (fin r) he, delta_of_check_error std type (fin r) he,
    gamma_of_check_error std (fin r) he, vega_of_check_error std (fin r) he,
    theta_of_check_error std type (fin r) he, rho_of_check_error std type (fin r) he⟩

/-- The message of `price` at S = 0, at K = -5, at sigma = -1/10 and at T = -1. -/
theorem validation_message_witness :
    price std OptionType.Call (fin 0) (fin (-5)) (fin (1 / 20)) (fin (-(1 / 10))) (fin (-1))
      = Except.error (Exn.invalid_argument "Spot price S must be > 0") ∧
    price std OptionType.Call (fin 100) (fin (-5)) (fin (1 / 20)) (fin (-(1 / 10))) (fin (-1))
      = Except.error (Exn.invalid_argument "Strike price K must be > 0") ∧
    price std OptionType.Call (fin 100) (fin 100) (fin (1 / 20)) (fin (-(1 / 10))) (fin (-1))
      = Except.error (Exn.invalid_argument "Volatility sigma must be >= 0") ∧
    price std OptionType.Call (fin 100) (fin 100) (fin (1 / 20)) (fin (1 / 5)) (fin (-1))
      = Except.error (Exn.invalid_argument "Time to maturity T must be >= 0") :=
  have h1 := validation_message OptionType.Call 0 (-5) (1 / 20) (-(1 / 10)) (-1)
  have h2 := validation_message OptionType.Call 100 (-5) (1 / 20) (-(1 / 10)) (-1)
  have h3 := validation_message OptionType.Call 100 100 (1 / 20) (-(1 / 10)) (-1)
  have h4 := validation_message OptionType.Call 100 100 (1 / 20) (1 / 5) (-1)
  ⟨(h1.2.2.2.2.2 _ (h1.1 (by norm_num))).1,
    (h2.2.2.2.2.2 _ (h2.2.1 (by norm_num) (by norm_num))).1,
    (h3.2.2.2.2.2 _ (h3.2.2.1 (by norm_num) (by norm_num) (by norm_num))).1,
    (h4.2.2.2.2.2 _ (h4.2.2.2.1 (by norm_num) (by norm_num) (by norm_num) (by norm_num))).1⟩

/-- C19 fails in the closed-form branch of `price`, the one branch that does not clamp its
result with `std::max(0.0, .)`.  In binary64, at S = 1, K = 1, r = -2048, sigma = 1, T = 1 (a
validated input) `d1 = -2047.5` and `d2 = -2048.5` are finite, `norm_cdf` is 0 at both,
`exp(-r * T)` overflows, and `price` returns `1 * 0 - inf * 0`, that is NaN, for the call:
not a number >= 0. -/
theorem price_nonneg_fails :
    check_inputs (fin (1 : F64)) (fin 1) (fin 1) (fin 1) = Except.ok () ∧
    d1d2 ieee (fin 1) (fin 1) (fin (-2048)) (fin 1) (fin 1)
      = (fin (-2047.5), fin (-2048.5)) ∧
    (!Dbl.isfinite (fin (-2047.5 : F64)) || !Dbl.isfinite (fin (-2048.5 : F64))) = false ∧
    price ieee OptionType.Call (fin 1) (fin 1) (fin (-2048)) (fin 1) (fin 1) = Except.ok nan ∧
    ¬ ((fin 0 : Dbl F64) ≤ nan) := by
  obtain ⟨hd, hc, -⟩ := price_ieee_exp_overflow
  refine ⟨check_inputs_valid one_pos one_pos zero_le_one zero_le_one, hd, rfl, hc, ?_⟩
  intro h
  exact absurd h (by decide)

/-- C20, as stated, fails for gamma and vega where `norm_pdf` underflows.  In binary64, at
S = K = 1, r = 0, sigma = 128, T = 1 (sigma > 0, T > 0) `d1` is 64, `norm_pdf(d1)` is 0, and
`gamma` and `vega` return 0: not a number > 0. -/
theorem delta_range_counterexample :
    check_inputs (fin (1 : F64)) (fin 1) (fin 128) (fin 1) = Except.ok () ∧
    d1d2 ieee (fin 1) (fin 1) (fin 0) (fin 128) (fin 1) = (fin 64, fin (-64)) ∧
    norm_pdf ieee (fin 64) = fin 0 ∧
    gamma ieee (fin 1) (fin 1) (fin 0) (fin 128) (fin 1) = Except.ok (fin 0) ∧
    vega ieee (fin 1) (fin 1) (fin 0) (fin 128) (fin 1) = Except.ok (fin 0) ∧
    ¬ ((0 : F64) < 0) := by
  obtain ⟨h1, h2, h3, h4⟩ := gamma_vega_ieee_zero
  exact ⟨check_inputs_valid one_pos one_pos (by norm_num) zero_le_one, h1, h2, h3, h4,
    lt_irrefl 0⟩

/-- C20, amended. Delta stays in its range.  In binary64, for every validated input at expiry
(T = 0), and for every validated input with T > 0 whose `d1`, as `d1d2` computes it, is not
NaN, `delta` returns a number in [0, 1] for a call and in [-1, 0] for a put.  In exact real
arithmetic `d1` is never NaN, `delta` is in its range for every validated input, and for
sigma > 0, T > 0 `gamma` and `vega` return numbers > 0. -/
theorem delta_range_gamma_vega_pos :
    (∀ S K r sigma T : F64, 0 < S → 0 < K → 0 ≤ sigma → 0 ≤ T →
      (T = 0 ∨ (d1d2 ieee (fin S) (fin K) (fin r) (fin sigma) (fin T)).1 ≠ nan) →
      ∃ c p : F64,
        delta ieee OptionType.Call (fin S) (fin K) (fin r) (fin sigma) (fin T)
          = Except.ok (fin c) ∧
        delta ieee OptionType.Put (fin S) (fin K) (fin r) (fin sigma) (fin T)
          = Except.ok (fin p) ∧
        0 ≤ c ∧ c ≤ 1 ∧ -1 ≤ p ∧ p ≤ 0) ∧
    (∀ S K r sigma T : ℝ, 0 < S → 0 < K → 0 ≤ sigma → 0 ≤ T →
      (∃ c p : ℝ,
        delta std OptionType.Call (fin S) (fin K) (fin r) (fin sigma) (fin T)
          = Except.ok (fin c) ∧
        delta std OptionType.Put (fin S) (fin K) (fin r) (fin sigma) (fin T)
          = Except.ok (fin p) ∧
        0 ≤ c ∧ c ≤ 1 ∧ -1 ≤ p ∧ p ≤ 0) ∧
      (0 < sigma → 0 < T → ∃ g v : ℝ,
        gamma std (fin S) (fin K) (fin r) (fin sigma) (fin T) = Except.ok (fin g) ∧
        vega std (fin S) (fin K) (fin r) (fin sigma) (fin T) = Except.ok (fin v) ∧
        0 < g ∧ 0 < v)) := by
  constructor
  · intro S K r sigma T hS hK hs hT hd
    rcases hT.eq_or_lt with h0 | hpos
    · subst h0
      refine ⟨_, _, delta_call_expiry ieee r hS hK hs, delta_put_expiry ieee r hS hK hs, ?_⟩
      refine ⟨?_, ?_, ?_, ?_⟩ <;> split_ifs <;> norm_num
    · have hd1 : (d1d2 ieee (fin S) (fin K) (fin r) (fin sigma) (fin T)).1 ≠ nan := by
        rcases hd with h | h
        · exact absurd h hpos.ne'
        · exact h
      obtain ⟨hc, hp⟩ := delta_run ieee r hS hK hs hpos
      obtain ⟨c, p, h1, h2, h3, h4, h5, h6, -⟩ := ieee_delta_pair _ hd1
      exact ⟨c, p, by rw [hc, h1], by rw [hp, h2], h3, h4, h5, h6⟩
  · intro S K r sigma T hS hK hs hT
    constructor
    · rcases hT.eq_or_lt with h0 | hTpos
      · subst h0
        refine ⟨_, _, delta_call_expiry std r hS hK hs, delta_put_expiry std r hS hK hs, ?_⟩
        refine ⟨?_, ?_, ?_, ?_⟩ <;> split_ifs <;> norm_num
      · rcases hs.eq_or_lt with h0 | hspos
        · subst h0
          exact ⟨1, 0, delta_call_zero_vol std r hS hK hTpos INV_SQRT_2_pos,
            delta_put_zero_vol std r hS hK hTpos INV_SQRT_2_pos, by norm_num, le_refl 1,
            by norm_num, le_refl 0⟩
        · have hb := norm_cdf_val_facts.2.2.2.2 (d1_val std S K r sigma T)
          exact ⟨_, _, delta_call_general std r hS hK hspos hTpos (std_sqrt_pos hTpos),
            delta_put_general std r hS hK hspos hTpos (std_sqrt_pos hTpos), hb.1, hb.2,
            by linarith [hb.1], by linarith [hb.2]⟩
    · intro hspos hTpos
      have hq : 0 < Real.sqrt T := Real.sqrt_pos.mpr hTpos
      have hpdf : 0 < norm_pdf_val std (d1_val std S K r sigma T) := by
        show 0 < 1 / Real.sqrt (2 * Real.pi) * Real.exp _
        positivity
      refine ⟨_, _, gamma_general std r hS hK hspos hTpos (std_sqrt_pos hTpos),
        vega_general std r hS hK hspos hTpos (std_sqrt_pos hTpos), ?_, ?_⟩
      · exact div_pos hpdf (mul_pos (mul_pos hS hspos) hq)
      · exact mul_pos (mul_pos hS hpdf) hq

/-- The ranges at S = 100, K = 100, r = 1/20, sigma = 1/5, T = 1 in exact arithmetic, and at
S = 100, K = 90, r = 1/20, sigma = 0, T = 1 in binary64. -/
theorem delta_range_gamma_vega_pos_witness :
    ((0 : F64) < 100 ∧ (0 : F64) < 90 ∧
      (d1d2 ieee (fin 100) (fin 90) (fin (1 / 20)) (fin 0) (fin 1)).1 ≠ nan ∧
      ∃ c p : F64,
        delta ieee OptionType.Call (fin 100) (fin 90) (fin (1 / 20)) (fin 0) (fin 1)
          = Except.ok (fin c) ∧
        delta ieee OptionType.Put (fin 100) (fin 90) (fin (1 / 20)) (fin 0) (fin 1)
          = Except.ok (fin p) ∧
        0 ≤ c ∧ c ≤ 1 ∧ -1 ≤ p ∧ p ≤ 0) ∧
    ((0 : ℝ) < 100 ∧ (0 : ℝ) ≤ 1 / 5 ∧ (0 : ℝ) ≤ 1 ∧
      (∃ c p : ℝ,
        delta std OptionType.Call (fin 100) (fin 100) (fin (1 / 20)) (fin (1 / 5)) (fin 1)
          = Except.ok (fin c) ∧
        delta std OptionType.Put (fin 100) (fin 100) (fin (1 / 20)) (fin (1 / 5)) (fin 1)
          = Except.ok (fin p) ∧
        0 ≤ c ∧ c ≤ 1 ∧ -1 ≤ p ∧ p ≤ 0) ∧
      ∃ g v : ℝ,
        gamma std (fin 100) (fin 100) (fin (1 / 20)) (fin (1 / 5)) (fin 1)
          = Except.ok (fin g) ∧
        vega std (fin 100) (fin 100) (fin (1 / 20)) (fin (1 / 5)) (fin 1)
          = Except.ok (fin v) ∧
        0 < g ∧ 0 < v) := by
  have hd : (d1d2 ieee (fin 100) (fin 90) (fin (1 / 20)) (fin 0) (fin 1)).1 ≠ nan := by
    rw [d1d2_zero_vol]; simp
  have h1 := delta_range_gamma_vega_pos.1 100 90 (1 / 20) 0 1 (by norm_num)
    (by norm_num) le_rfl zero_le_one (Or.inr hd)
  have h2 := delta_range_gamma_vega_pos.2 100 100 (1 / 20) (1 / 5) 1 (by norm_num)
    (by norm_num) (by norm_num) (by norm_num)
  exact ⟨⟨by norm_num, by norm_num, hd, h1⟩,
    ⟨by norm_num, by norm_num, by norm_num, h2.1, h2.2 (by norm_num) (by norm_num)⟩⟩

end bs
